import Mathlib

/-!
# LRU cache (package lru, file lru/lru.go)

A shallow embedding of the groupcache LRU cache and a verification of its
specification.

## Modelling choices

* A Go pointer to a list element (a value of type *list.Element) is an address, a
  natural number. The field heap of the cache state maps an address to the entry the
  element carries (the element and the entry it points to are one heap cell here).
  A freshly pushed element gets the next free address, the length of the heap.
* The doubly linked list of container/list is the sequence of the addresses of its
  elements, front first. An element belongs to the list (its field list points to it)
  exactly when its address occurs in the sequence. The field ll is none for a nil
  list pointer.
* The Go map from keys to element pointers is an association list; the field cache is
  none for a nil map. Reading a nil map misses, deleting from it does nothing.
* Keys are any type with decidable equality (Go: any comparable value).
* MaxEntries is a mathematical integer, and Len returns one.
* OnEvicted is either nil (false) or a callback (true). Each call of the callback is
  appended, with its arguments, to the field calls: the trace a recording callback
  would produce.
* An operation returns none where the Go code would dereference a nil list, or where
  an address is not allocated (which no Go pointer can be).
* The order in which Go ranges over a map is unspecified: ClearIn takes the order as
  an argument, and Clear is the instance that follows the association list.
-/

namespace lru

/-! ## Data model -/

/-- The entry a list element carries: type entry of lru.go. -/
structure entry (K V : Type) where
  key : K
  value : V
deriving DecidableEq, Repr

/-- The cache: type Cache of lru.go, with the heap of list elements and the trace of
callback invocations made explicit. -/
structure Cache (K V : Type) where
  MaxEntries : Int
  OnEvicted : Bool
  ll : Option (List Nat)
  cache : Option (List (K × Nat))
  heap : List (entry K V)
  calls : List (K × V)
deriving DecidableEq, Repr

/-! ## container/list, on sequences of addresses -/

/-- Inserts the element e at the front: (*List).PushFront. -/
def PushFront (l : List Nat) (e : Nat) : List Nat := e :: l

/-- Moves e to the front; nothing happens when e is not an element of the list or is
already at the front: (*List).MoveToFront. -/
def MoveToFront (l : List Nat) (e : Nat) : List Nat :=
  if e ∉ l ∨ l.head? = some e then l else e :: l.erase e

/-- Removes e when it is an element of the list: (*List).Remove. -/
def ListRemove (l : List Nat) (e : Nat) : List Nat :=
  if e ∈ l then l.erase e else l

/-- The last element, or none (nil) for an empty list: (*List).Back. -/
def Back (l : List Nat) : Option Nat := l.getLast?

/-- The number of elements: (*List).Len. -/
def ListLen (l : List Nat) : Int := (l.length : Int)

/-! ## The Go map from keys to element addresses -/

/-- The read m[k] with its ok flag: none is a miss. -/
def mapGet {K : Type} [DecidableEq K] : List (K × Nat) → K → Option Nat
  | [], _ => none
  | (k1, a) :: m, k => if k1 = k then some a else mapGet m k

/-- The assignment m[k] = a. -/
def mapSet {K : Type} [DecidableEq K] : List (K × Nat) → K → Nat → List (K × Nat)
  | [], k, a => [(k, a)]
  | (k1, a1) :: m, k, a => if k1 = k then (k, a) :: m else (k1, a1) :: mapSet m k a

/-- The built-in delete(m, k). -/
def mapDelete {K : Type} [DecidableEq K] (m : List (K × Nat)) (k : K) : List (K × Nat) :=
  m.filter (fun p => decide (p.1 ≠ k))

/-- Reading a map that may be nil: a nil map has no key. -/
def index {K : Type} [DecidableEq K] (m : Option (List (K × Nat))) (k : K) : Option Nat :=
  m.bind (fun m => mapGet m k)

/-! ## The operations of lru.go -/

section Operations

variable {K V : Type} [DecidableEq K]

/-- New creates a new Cache. -/
def New (maxEntries : Int) : Cache K V :=
  { MaxEntries := maxEntries, OnEvicted := false, ll := some [], cache := some [],
    heap := [], calls := [] }

/-- The zero value of type Cache with the two public fields set. -/
def zeroValue (maxEntries : Int) (onEvicted : Bool) : Cache K V :=
  { MaxEntries := maxEntries, OnEvicted := onEvicted, ll := none, cache := none,
    heap := [], calls := [] }

/-- The assignment c.OnEvicted = f for a callback f, with the public field. -/
def setOnEvicted (c : Cache K V) (f : Bool) : Cache K V := { c with OnEvicted := f }

/-- Cache.removeElement: unlink e from the list, delete its key from the map, call the
callback when one is set. -/
def removeElement (c : Cache K V) (e : Nat) : Option (Cache K V) := do
  let l ← c.ll
  let c1 := { c with ll := some (ListRemove l e) }
  let kv ← c1.heap[e]?
  let c2 := { c1 with cache := c1.cache.map (fun m => mapDelete m kv.key) }
  if c2.OnEvicted then
    pure { c2 with calls := c2.calls ++ [(kv.key, kv.value)] }
  else
    pure c2

/-- Cache.RemoveOldest removes the oldest item from the cache. -/
def RemoveOldest (c : Cache K V) : Option (Cache K V) :=
  match c.cache with
  | none => some c
  | some _ => do
    let l ← c.ll
    match Back l with
    | some ele => removeElement c ele
    | none => pure c

/-- Cache.Add adds a value to the cache. -/
def Add (c : Cache K V) (key : K) (value : V) : Option (Cache K V) := do
  let c0 : Cache K V :=
    if c.cache.isNone then { c with cache := some [], ll := some [] } else c
  match index c0.cache key with
  | some ee =>
    let l ← c0.ll
    let c1 := { c0 with ll := some (MoveToFront l ee) }
    let kv ← c1.heap[ee]?
    pure { c1 with heap := c1.heap.set ee { kv with value := value } }
  | none =>
    let l ← c0.ll
    let ele := c0.heap.length
    let c1 : Cache K V :=
      { c0 with heap := c0.heap ++ [entry.mk key value], ll := some (PushFront l ele) }
    let m ← c1.cache
    let c2 := { c1 with cache := some (mapSet m key ele) }
    let l2 ← c2.ll
    if c2.MaxEntries ≠ 0 ∧ ListLen l2 > c2.MaxEntries then
      RemoveOldest c2
    else
      pure c2

/-- Cache.Get looks up a key, returning the value and the ok flag, and the new state. -/
def Get (c : Cache K V) (key : K) : Option ((Option V × Bool) × Cache K V) :=
  match c.cache with
  | none => some ((none, false), c)
  | some m =>
    match mapGet m key with
    | some ele => do
      let l ← c.ll
      let c1 := { c with ll := some (MoveToFront l ele) }
      let kv ← c1.heap[ele]?
      pure ((some kv.value, true), c1)
    | none => some ((none, false), c)

/-- Cache.Remove removes the provided key from the cache. -/
def Remove (c : Cache K V) (key : K) : Option (Cache K V) :=
  match c.cache with
  | none => some c
  | some m =>
    match mapGet m key with
    | some ele => removeElement c ele
    | none => some c

/-- Cache.Len returns the number of items in the cache. -/
def Len (c : Cache K V) : Option Int :=
  match c.cache with
  | none => some 0
  | some _ => c.ll.map ListLen

/-- The arguments of the callback for the map entries visited in the given order. -/
def rangeCalls (heap : List (entry K V)) : List (K × Nat) → Option (List (K × V))
  | [] => some []
  | (_, e) :: rest => do
    let kv ← heap[e]?
    let tl ← rangeCalls heap rest
    pure ((kv.key, kv.value) :: tl)

/-- Cache.Clear, ranging over the map in the given order. -/
def ClearIn (order : List (K × Nat)) (c : Cache K V) : Option (Cache K V) := do
  let c1 ← if c.OnEvicted then
      (rangeCalls c.heap order).map (fun cs => { c with calls := c.calls ++ cs })
    else
      some c
  pure { c1 with ll := none, cache := none }

/-- Cache.Clear, ranging over the map in the order of the association list. -/
def Clear (c : Cache K V) : Option (Cache K V) := ClearIn (c.cache.getD []) c

end Operations

/-! ## Sequences of calls -/

/-- A call of one of the exported methods. -/
inductive Op (K V : Type) where
  | Add (key : K) (value : V)
  | Get (key : K)
  | Remove (key : K)
  | RemoveOldest
  | Len
  | Clear
deriving DecidableEq, Repr

/-- What a call returns to its caller. -/
inductive Ret (V : Type) where
  | unit
  | value (v : Option V) (ok : Bool)
  | int (n : Int)
deriving DecidableEq, Repr

section Runs

variable {K V : Type} [DecidableEq K]

/-- One call, with Clear ranging over the map in the order of the association list. -/
def step (c : Cache K V) : Op K V → Option (Ret V × Cache K V)
  | Op.Add key value => (Add c key value).map (fun c1 => (Ret.unit, c1))
  | Op.Get key => (Get c key).map (fun r => (Ret.value r.1.1 r.1.2, r.2))
  | Op.Remove key => (Remove c key).map (fun c1 => (Ret.unit, c1))
  | Op.RemoveOldest => (RemoveOldest c).map (fun c1 => (Ret.unit, c1))
  | Op.Len => (Len c).map (fun n => (Ret.int n, c))
  | Op.Clear => (Clear c).map (fun c1 => (Ret.unit, c1))

/-- A sequence of calls, with the values returned. -/
def run (c : Cache K V) : List (Op K V) → Option (List (Ret V) × Cache K V)
  | [] => some ([], c)
  | op :: ops => do
    let r ← step c op
    let rs ← run r.2 ops
    pure (r.1 :: rs.1, rs.2)

/-- A sequence of Add calls. -/
def addAll (c : Cache K V) : List (K × V) → Option (Cache K V)
  | [] => some c
  | (k, v) :: kvs => do
    let c1 ← Add c k v
    addAll c1 kvs

/-- One call that returns, where Clear may range over the map in any order. -/
inductive Step : Cache K V → Op K V → Ret V → Cache K V → Prop where
  | add {c c1 : Cache K V} {k : K} {v : V} :
      Add c k v = some c1 → Step c (Op.Add k v) Ret.unit c1
  | get {c c1 : Cache K V} {k : K} {r : Option V × Bool} :
      Get c k = some (r, c1) → Step c (Op.Get k) (Ret.value r.1 r.2) c1
  | remove {c c1 : Cache K V} {k : K} :
      Remove c k = some c1 → Step c (Op.Remove k) Ret.unit c1
  | removeOldest {c c1 : Cache K V} :
      RemoveOldest c = some c1 → Step c Op.RemoveOldest Ret.unit c1
  | len {c : Cache K V} {n : Int} :
      Len c = some n → Step c Op.Len (Ret.int n) c
  | clear {c c1 : Cache K V} {order : List (K × Nat)} :
      order.Perm (c.cache.getD []) → ClearIn order c = some c1 → Step c Op.Clear Ret.unit c1

/-- A sequence of calls that all return, with the values returned. -/
inductive Exec : Cache K V → List (Op K V) → List (Ret V) → Cache K V → Prop where
  | nil {c : Cache K V} : Exec c [] [] c
  | cons {c c1 c2 : Cache K V} {op : Op K V} {r : Ret V} {ops : List (Op K V)}
      {rs : List (Ret V)} :
      Step c op r c1 → Exec c1 ops rs c2 → Exec c (op :: ops) (r :: rs) c2

/-- The states a cache can be in after any sequence of calls on the state c0. -/
def ReachableFrom (c0 c : Cache K V) : Prop := ∃ ops rs, Exec c0 ops rs c

/-- The reachable states: those reachable from New(n), with or without a callback
configured, or from a zero-value Cache with its public fields set. -/
def Reachable (c : Cache K V) : Prop :=
  ∃ n f, ReachableFrom (setOnEvicted (New n) f) c ∨ ReachableFrom (zeroValue n f) c

end Runs

/-! ## The abstract view: the recency sequence as a list of pairs -/

section Abstraction

variable {K V : Type} [DecidableEq K]

/-- The pair carried by the element at address a. -/
def cell (heap : List (entry K V)) (a : Nat) : Option (K × V) :=
  heap[a]?.map (fun e => (e.key, e.value))

/-- The pairs carried by the elements of a list, front first. -/
def entriesOf (heap : List (entry K V)) (l : List Nat) : List (K × V) :=
  l.filterMap (cell heap)

/-- The recency sequence of the cache: its (key, value) pairs, most recently used first.
A cache with a nil list has none. -/
def entries (c : Cache K V) : List (K × V) := entriesOf c.heap (c.ll.getD [])

/-- The key is in the lookup index (Get would hit). -/
def present (c : Cache K V) (k : K) : Prop := (index c.cache k).isSome = true

instance (c : Cache K V) (k : K) : Decidable (present c k) := by
  unfold present; infer_instance

/-- The value held by the element the lookup index has for the key. -/
def stored (c : Cache K V) (k : K) : Option V :=
  (index c.cache k).bind (fun a => c.heap[a]?.map (fun e => e.value))

/-- The list and the map describe the same set of elements: no element occurs twice in
the list, no key twice in the map, every list element is allocated and is the one the
map has for its key, and every map entry points to a list element carrying that key. -/
def Inv (heap : List (entry K V)) (l : List Nat) (m : List (K × Nat)) : Prop :=
  l.Nodup ∧ (m.map Prod.fst).Nodup ∧
  (∀ a ∈ l, ∃ e, heap[a]? = some e ∧ mapGet m e.key = some a) ∧
  (∀ k a, mapGet m k = some a → a ∈ l ∧ ∃ e, heap[a]? = some e ∧ e.key = k)

/-- Well-formed cache states: the list and the map are both nil, or both are allocated
and consistent. -/
def WF (c : Cache K V) : Prop :=
  match c.ll, c.cache with
  | none, none => True
  | some l, some m => Inv c.heap l m
  | _, _ => False

/-- Get on the recency sequence: the result, and the sequence afterwards. -/
def seqGet (es : List (K × V)) (k : K) : (Option V × Bool) × List (K × V) :=
  match es.find? (fun p => decide (p.1 = k)) with
  | some p => ((some p.2, true), p :: es.filter (fun q => decide (q.1 ≠ k)))
  | none => ((none, false), es)

/-- Add on the recency sequence: the sequence afterwards, and the pairs evicted. -/
def seqAdd (maxEntries : Int) (es : List (K × V)) (k : K) (v : V) :
    List (K × V) × List (K × V) :=
  if k ∈ es.map Prod.fst then
    ((k, v) :: es.filter (fun q => decide (q.1 ≠ k)), [])
  else if maxEntries ≠ 0 ∧ ((es.length : Int) + 1 > maxEntries) then
    (((k, v) :: es).dropLast, (((k, v) :: es).getLast?).toList)
  else
    ((k, v) :: es, [])

/-- Remove on the recency sequence: the sequence afterwards, and the pair removed. -/
def seqRemove (es : List (K × V)) (k : K) : List (K × V) × List (K × V) :=
  (es.filter (fun q => decide (q.1 ≠ k)), (es.find? (fun p => decide (p.1 = k))).toList)

/-- RemoveOldest on the recency sequence: the sequence afterwards, the pair removed. -/
def seqRemoveOldest (es : List (K × V)) : List (K × V) × List (K × V) :=
  (es.dropLast, es.getLast?.toList)

/-- The calls of the callback an operation makes for the pairs that leave the cache. -/
def emit (onEvicted : Bool) (gone : List (K × V)) : List (K × V) :=
  if onEvicted then gone else []

/-- Distinct elements of the list carry distinct keys. -/
def KeyInj (heap : List (entry K V)) (l : List Nat) : Prop :=
  ∀ a1 ∈ l, ∀ a2 ∈ l, ∀ e1 e2, heap[a1]? = some e1 → heap[a2]? = some e2 →
    e1.key = e2.key → a1 = a2

/-- The facts about the state c1 after an operation on c: well-formed, the same
configuration, the recency sequence es, and the callback called for the pairs gone. -/
def Sim (c c1 : Cache K V) (es gone : List (K × V)) : Prop :=
  WF c1 ∧ c1.MaxEntries = c.MaxEntries ∧ c1.OnEvicted = c.OnEvicted ∧ entries c1 = es ∧
    c1.calls = c.calls ++ emit c.OnEvicted gone

/-- One call on the recency sequence: the value returned, the sequence afterwards and
the pairs that left the cache (for Clear, in any order). -/
def SeqStep (M : Int) (es : List (K × V)) :
    Op K V → Ret V → List (K × V) → List (K × V) → Prop
  | Op.Add k v, r, es1, g =>
      r = Ret.unit ∧ es1 = (seqAdd M es k v).1 ∧ g = (seqAdd M es k v).2
  | Op.Get k, r, es1, g =>
      r = Ret.value (seqGet es k).1.1 (seqGet es k).1.2 ∧ es1 = (seqGet es k).2 ∧ g = []
  | Op.Remove k, r, es1, g =>
      r = Ret.unit ∧ es1 = (seqRemove es k).1 ∧ g = (seqRemove es k).2
  | Op.RemoveOldest, r, es1, g =>
      r = Ret.unit ∧ es1 = (seqRemoveOldest es).1 ∧ g = (seqRemoveOldest es).2
  | Op.Len, r, es1, g => r = Ret.int (es.length : Int) ∧ es1 = es ∧ g = []
  | Op.Clear, r, es1, g => r = Ret.unit ∧ es1 = [] ∧ g.Perm es

/-- A sequence of Add calls on the recency sequence: the sequence afterwards and the
pairs evicted, in order. -/
def seqAddAll (M : Int) : List (K × V) → List (K × V) → List (K × V) × List (K × V)
  | es, [] => (es, [])
  | es, (k, v) :: kvs =>
    ((seqAddAll M (seqAdd M es k v).1 kvs).1,
      (seqAdd M es k v).2 ++ (seqAddAll M (seqAdd M es k v).1 kvs).2)

end Abstraction

/-! ## Counting insertions, keeping a key, and the times of access -/

section Histories

variable {K V : Type} [DecidableEq K]

/-- The number of entries a call inserts: one for an Add of a key that is absent. -/
def inserts (c : Cache K V) : Op K V → Nat
  | Op.Add k _ => if present c k then 0 else 1
  | _ => 0

/-- The number of pairs a call inserts into the recency sequence. -/
def seqInserts (es : List (K × V)) : Op K V → Nat
  | Op.Add k _ => if k ∈ es.map Prod.fst then 0 else 1
  | _ => 0

/-- A sequence of calls that all return, with the number of its Add calls that inserted
a key absent at that moment. -/
inductive ExecCount : Cache K V → List (Op K V) → Nat → Cache K V → Prop where
  | nil {c : Cache K V} : ExecCount c [] 0 c
  | cons {c c1 c2 : Cache K V} {op : Op K V} {r : Ret V} {ops : List (Op K V)} {n : Nat} :
      Step c op r c1 → ExecCount c1 ops n c2 → ExecCount c (op :: ops) (inserts c op + n) c2

/-- A sequence of calls that all return, along which the key k is present in every
state. -/
inductive ExecKeeps (k : K) : Cache K V → List (Op K V) → Cache K V → Prop where
  | nil {c : Cache K V} : present c k → ExecKeeps k c [] c
  | cons {c c1 c2 : Cache K V} {op : Op K V} {r : Ret V} {ops : List (Op K V)} :
      present c k → Step c op r c1 → ExecKeeps k c1 ops c2 → ExecKeeps k c (op :: ops) c2

/-- The call, with the value it returned, is an access to the key k: an Add of k, or a
Get of k that hit. -/
def accessed (k : K) : Op K V × Ret V → Bool
  | (Op.Add k1 _, _) => decide (k1 = k)
  | (Op.Get k1, Ret.value _ true) => decide (k1 = k)
  | _ => false

/-- The time of the most recent access to k in a history that lists the most recent
call first: the index of that call, counted from the first call of the history. -/
def lastAccessRev (k : K) : List (Op K V × Ret V) → Option Nat
  | [] => none
  | x :: older => if accessed k x = true then some older.length else lastAccessRev k older

/-- The reference notion of recency: the time (operation index) of the most recent
access to k in a history of calls listed in the order they were made. -/
def lastAccess (h : List (Op K V × Ret V)) (k : K) : Option Nat :=
  lastAccessRev k h.reverse

/-- The recency sequence follows the reference notion of recency for the history h:
every key of the sequence has been accessed, and the times of the most recent accesses
strictly decrease from the front to the back. -/
def TimeOrdered (h : List (Op K V × Ret V)) (es : List (K × V)) : Prop :=
  (∀ p ∈ es, ∃ i, lastAccess h p.1 = some i) ∧
    es.Pairwise (fun p q => ∃ i j, lastAccess h p.1 = some i ∧ lastAccess h q.1 = some j ∧ j < i)

end Histories

/-! ## Example states -/

/-- The state after Add(1, 10) on New(2) with a callback configured. -/
def exampleOne : Cache Nat Nat :=
  { MaxEntries := 2, OnEvicted := true, ll := some [0], cache := some [(1, 0)],
    heap := [entry.mk 1 10], calls := [] }

/-- The state after Add(1, 10), Add(2, 20) on New(2) with a callback configured. -/
def exampleTwo : Cache Nat Nat :=
  { MaxEntries := 2, OnEvicted := true, ll := some [1, 0], cache := some [(1, 0), (2, 1)],
    heap := [entry.mk 1 10, entry.mk 2 20], calls := [] }

/-- The state after Add(1, 10), Add(2, 20), Add(3, 30) on New(3) with a callback
configured. -/
def exampleThree : Cache Nat Nat :=
  { MaxEntries := 3, OnEvicted := true, ll := some [2, 1, 0],
    cache := some [(1, 0), (2, 1), (3, 2)],
    heap := [entry.mk 1 10, entry.mk 2 20, entry.mk 3 30], calls := [] }

/-- The state after Add(3, 30) on exampleTwo: the pair (1, 10) has been evicted. -/
def exampleEvicted : Cache Nat Nat :=
  { MaxEntries := 2, OnEvicted := true, ll := some [2, 1], cache := some [(2, 1), (3, 2)],
    heap := [entry.mk 1 10, entry.mk 2 20, entry.mk 3 30], calls := [(1, 10)] }

/-- The state after Add(1, 10) on New(-1) with a callback configured: the pair added has
been evicted at once. -/
def exampleNegative : Cache Nat Nat :=
  { MaxEntries := -1, OnEvicted := true, ll := some [], cache := some [],
    heap := [entry.mk 1 10], calls := [(1, 10)] }

set_option linter.unusedSectionVars false

/-! ## Lemmas: the map -/

section MapLemmas

variable {K : Type} [DecidableEq K]

theorem mapGet_mapSet (m : List (K × Nat)) (k k1 : K) (a : Nat) :
    mapGet (mapSet m k a) k1 = if k = k1 then some a else mapGet m k1 := by
  induction m with
  | nil => simp [mapSet, mapGet]
  | cons p m ih =>
    obtain ⟨k2, a2⟩ := p
    by_cases h : k2 = k
    · subst h
      by_cases h1 : k2 = k1 <;> simp [mapSet, mapGet, h1]
    · by_cases h1 : k2 = k1
      · subst h1
        have h2 : ¬ k = k2 := fun e => h e.symm
        simp [mapSet, mapGet, h, h2]
      · simp [mapSet, mapGet, h, h1, ih]

theorem mapGet_mapDelete (m : List (K × Nat)) (k k1 : K) :
    mapGet (mapDelete m k) k1 = if k = k1 then none else mapGet m k1 := by
  induction m with
  | nil => simp [mapDelete, mapGet]
  | cons p m ih =>
    obtain ⟨k2, a2⟩ := p
    unfold mapDelete at ih ⊢
    by_cases h : k2 = k
    · subst h
      by_cases h1 : k2 = k1
      · simp [mapGet, h1] at ih ⊢
        exact ih
      · simp [mapGet, h1] at ih ⊢
        exact ih
    · by_cases h1 : k2 = k1
      · subst h1
        have h2 : ¬ k = k2 := fun e => h e.symm
        simp [mapGet, h, h2]
      · simp [mapGet, h, h1] at ih ⊢
        exact ih

theorem mapGet_eq_none_iff (m : List (K × Nat)) (k : K) :
    mapGet m k = none ↔ k ∉ m.map Prod.fst := by
  induction m with
  | nil => simp [mapGet]
  | cons p m ih =>
    obtain ⟨k2, a2⟩ := p
    by_cases h : k2 = k
    · simp [mapGet, h]
    · have h2 : ¬ k = k2 := fun e => h e.symm
      simp only [mapGet, h, if_false, ih]
      simp [h2]

theorem mapGet_mem {m : List (K × Nat)} {k : K} {a : Nat} (h : mapGet m k = some a) :
    (k, a) ∈ m := by
  induction m with
  | nil => simp [mapGet] at h
  | cons p m ih =>
    obtain ⟨k2, a2⟩ := p
    by_cases h1 : k2 = k
    · simp [mapGet, h1] at h
      simp [h1, h]
    · simp only [mapGet, h1, if_false] at h
      exact List.mem_cons_of_mem _ (ih h)

theorem mapGet_of_mem {m : List (K × Nat)} (nd : (m.map Prod.fst).Nodup) {k : K} {a : Nat}
    (h : (k, a) ∈ m) : mapGet m k = some a := by
  induction m with
  | nil => simp at h
  | cons p m ih =>
    obtain ⟨k2, a2⟩ := p
    simp only [List.map_cons, List.nodup_cons] at nd
    rcases List.mem_cons.1 h with h1 | h1
    · cases h1
      simp [mapGet]
    · have hne : k2 ≠ k := by
        intro e
        apply nd.1
        rw [e]
        exact List.mem_map_of_mem Prod.fst h1
      simp only [mapGet, hne, if_false]
      exact ih nd.2 h1

theorem mapSet_keys {m : List (K × Nat)} {k : K} (a : Nat) (h : mapGet m k = none) :
    (mapSet m k a).map Prod.fst = m.map Prod.fst ++ [k] := by
  induction m with
  | nil => simp [mapSet]
  | cons p m ih =>
    obtain ⟨k2, a2⟩ := p
    by_cases h1 : k2 = k
    · simp [mapGet, h1] at h
    · simp only [mapGet, h1, if_false] at h
      simp [mapSet, h1, ih h]

theorem mapSet_nodup {m : List (K × Nat)} {k : K} (a : Nat) (h : mapGet m k = none)
    (nd : (m.map Prod.fst).Nodup) : ((mapSet m k a).map Prod.fst).Nodup := by
  rw [mapSet_keys a h]
  have hk := (mapGet_eq_none_iff m k).1 h
  exact List.Nodup.append nd (List.nodup_singleton k) (by
    intro x hx hx1
    simp at hx1
    subst hx1
    exact hk hx)

theorem mapDelete_nodup {m : List (K × Nat)} (k : K)
    (nd : (m.map Prod.fst).Nodup) : ((mapDelete m k).map Prod.fst).Nodup := by
  unfold mapDelete
  exact List.Nodup.sublist (List.Sublist.map _ (List.filter_sublist _)) nd

end MapLemmas

/-! ## Lemmas: the list -/

theorem MoveToFront_of_mem {l : List Nat} {a : Nat} (h : a ∈ l) :
    MoveToFront l a = a :: l.erase a := by
  unfold MoveToFront
  by_cases h1 : l.head? = some a
  · simp only [h1, or_true, if_true]
    cases l with
    | nil => simp at h1
    | cons b l =>
      simp at h1
      subst h1
      simp
  · simp [h, h1]

theorem ListRemove_eq (l : List Nat) (a : Nat) : ListRemove l a = l.erase a := by
  unfold ListRemove
  by_cases h : a ∈ l
  · simp [h]
  · simp [h, List.erase_of_not_mem h]

/-! ## Lemmas: the recency sequence of a list of addresses -/

section EntriesLemmas

variable {K V : Type} [DecidableEq K]

theorem cell_eq_some {heap : List (entry K V)} {a : Nat} {e : entry K V}
    (h : heap[a]? = some e) : cell heap a = some (e.key, e.value) := by
  simp [cell, h]

theorem entriesOf_nil (heap : List (entry K V)) : entriesOf heap [] = [] := rfl

theorem entriesOf_cons {heap : List (entry K V)} {a : Nat} {e : entry K V}
    (h : heap[a]? = some e) (l : List Nat) :
    entriesOf heap (a :: l) = (e.key, e.value) :: entriesOf heap l := by
  simp [entriesOf, List.filterMap_cons, cell_eq_some h]

theorem entriesOf_append (heap : List (entry K V)) (l1 l2 : List Nat) :
    entriesOf heap (l1 ++ l2) = entriesOf heap l1 ++ entriesOf heap l2 := by
  simp [entriesOf, List.filterMap_append]

theorem entriesOf_congr {heap heap1 : List (entry K V)} {l : List Nat}
    (h : ∀ a ∈ l, heap1[a]? = heap[a]?) : entriesOf heap1 l = entriesOf heap l := by
  unfold entriesOf
  apply List.filterMap_congr
  intro a ha
  simp [cell, h a ha]

theorem entriesOf_length {heap : List (entry K V)} {l : List Nat}
    (al : ∀ a ∈ l, ∃ e, heap[a]? = some e) : (entriesOf heap l).length = l.length := by
  induction l with
  | nil => rfl
  | cons a l ih =>
    obtain ⟨e, he⟩ := al a (List.mem_cons_self _ _)
    rw [entriesOf_cons he]
    simp [ih (fun b hb => al b (List.mem_cons_of_mem _ hb))]

theorem mem_entriesOf {heap : List (entry K V)} {l : List Nat} {p : K × V}
    (h : p ∈ entriesOf heap l) : ∃ a ∈ l, ∃ e, heap[a]? = some e ∧ p = (e.key, e.value) := by
  unfold entriesOf at h
  rw [List.mem_filterMap] at h
  obtain ⟨a, ha, hc⟩ := h
  unfold cell at hc
  cases hh : heap[a]? with
  | none => simp [hh] at hc
  | some e =>
    simp [hh] at hc
    exact ⟨a, ha, e, hh, hc.symm⟩

theorem entriesOf_mem {heap : List (entry K V)} {l : List Nat} {a : Nat} {e : entry K V}
    (ha : a ∈ l) (he : heap[a]? = some e) : (e.key, e.value) ∈ entriesOf heap l := by
  unfold entriesOf
  rw [List.mem_filterMap]
  exact ⟨a, ha, cell_eq_some he⟩

theorem KeyInj.tail {heap : List (entry K V)} {a : Nat} {l : List Nat}
    (h : KeyInj heap (a :: l)) : KeyInj heap l :=
  fun a1 h1 a2 h2 => h a1 (List.mem_cons_of_mem _ h1) a2 (List.mem_cons_of_mem _ h2)

theorem entriesOf_filter {heap : List (entry K V)} {l : List Nat} {a : Nat} {e : entry K V}
    (al : ∀ b ∈ l, ∃ e1, heap[b]? = some e1)
    (inj : ∀ b ∈ l, ∀ e1, heap[b]? = some e1 → e1.key = e.key → b = a)
    (he : heap[a]? = some e) :
    entriesOf heap (l.filter (fun b => b != a)) =
      (entriesOf heap l).filter (fun q => decide (q.1 ≠ e.key)) := by
  induction l with
  | nil => rfl
  | cons b l ih =>
    have ih1 := ih (fun c hc => al c (List.mem_cons_of_mem _ hc))
      (fun c hc => inj c (List.mem_cons_of_mem _ hc))
    obtain ⟨e1, he1⟩ := al b (List.mem_cons_self _ _)
    rw [entriesOf_cons he1]
    by_cases hb : b = a
    · subst hb
      have : e1 = e := by rw [he1] at he; exact Option.some.inj he
      subst this
      simp [List.filter_cons, ih1]
    · have hk : e1.key ≠ e.key := fun hk => hb (inj b (List.mem_cons_self _ _) e1 he1 hk)
      simp [List.filter_cons, hb, hk, entriesOf_cons he1, ih1]

theorem entriesOf_find {heap : List (entry K V)} {l : List Nat} {a : Nat} {e : entry K V}
    (al : ∀ b ∈ l, ∃ e1, heap[b]? = some e1)
    (inj : ∀ b ∈ l, ∀ e1, heap[b]? = some e1 → e1.key = e.key → b = a)
    (ha : a ∈ l) (he : heap[a]? = some e) :
    (entriesOf heap l).find? (fun p => decide (p.1 = e.key)) = some (e.key, e.value) := by
  induction l with
  | nil => simp at ha
  | cons b l ih =>
    obtain ⟨e1, he1⟩ := al b (List.mem_cons_self _ _)
    rw [entriesOf_cons he1]
    by_cases hk : e1.key = e.key
    · have hb := inj b (List.mem_cons_self _ _) e1 he1 hk
      subst hb
      have : e1 = e := by rw [he1] at he; exact Option.some.inj he
      subst this
      simp
    · have hb : a ≠ b := by
        intro hab
        subst hab
        rw [he1] at he
        exact hk (by rw [Option.some.inj he])
      have ha1 : a ∈ l := by
        rcases List.mem_cons.1 ha with h | h
        · exact absurd h hb
        · exact h
      simp only [List.find?_cons, hk, decide_False]
      exact ih (fun c hc => al c (List.mem_cons_of_mem _ hc))
        (fun c hc => inj c (List.mem_cons_of_mem _ hc)) ha1

theorem entriesOf_keys_nodup {heap : List (entry K V)} {l : List Nat}
    (nd : l.Nodup) (inj : KeyInj heap l) : ((entriesOf heap l).map Prod.fst).Nodup := by
  induction l with
  | nil => simp [entriesOf_nil]
  | cons b l ih =>
    have ih1 := ih (List.nodup_cons.1 nd).2 inj.tail
    cases he1 : heap[b]? with
    | none =>
      have : entriesOf heap (b :: l) = entriesOf heap l := by
        simp [entriesOf, List.filterMap_cons, cell, he1]
      rw [this]
      exact ih1
    | some e1 =>
      rw [entriesOf_cons he1]
      simp only [List.map_cons, List.nodup_cons]
      refine ⟨?_, ih1⟩
      intro hmem
      rw [List.mem_map] at hmem
      obtain ⟨p, hp, hpk⟩ := hmem
      obtain ⟨a, ha, e, he, hpe⟩ := mem_entriesOf hp
      subst hpe
      have := inj a (List.mem_cons_of_mem _ ha) b (List.mem_cons_self _ _) e e1 he he1 hpk
      subst this
      exact (List.nodup_cons.1 nd).1 ha

end EntriesLemmas

/-! ## Lemmas: the invariant -/

section InvLemmas

variable {K V : Type} [DecidableEq K]

theorem Inv.alloc {heap : List (entry K V)} {l : List Nat} {m : List (K × Nat)}
    (h : Inv heap l m) : ∀ a ∈ l, ∃ e, heap[a]? = some e :=
  fun a ha => (h.2.2.1 a ha).imp (fun _ he => he.1)

theorem Inv.lt_length {heap : List (entry K V)} {l : List Nat} {m : List (K × Nat)}
    (h : Inv heap l m) {a : Nat} (ha : a ∈ l) : a < heap.length := by
  obtain ⟨e, he⟩ := h.alloc a ha
  exact (List.getElem?_eq_some.1 he).1

theorem Inv.mapGet_key {heap : List (entry K V)} {l : List Nat} {m : List (K × Nat)}
    (h : Inv heap l m) {a : Nat} {e : entry K V} (ha : a ∈ l) (he : heap[a]? = some e) :
    mapGet m e.key = some a := by
  obtain ⟨e1, he1, hm⟩ := h.2.2.1 a ha
  rw [he] at he1
  cases he1
  exact hm

theorem Inv.inj {heap : List (entry K V)} {l : List Nat} {m : List (K × Nat)}
    (h : Inv heap l m) {a : Nat} {e : entry K V} (ha : a ∈ l) (he : heap[a]? = some e) :
    ∀ b ∈ l, ∀ e1, heap[b]? = some e1 → e1.key = e.key → b = a := by
  intro b hb e1 he1 hk
  have h1 := h.mapGet_key hb he1
  have h2 := h.mapGet_key ha he
  rw [hk, h2] at h1
  exact (Option.some.inj h1).symm

theorem Inv.keyInj {heap : List (entry K V)} {l : List Nat} {m : List (K × Nat)}
    (h : Inv heap l m) : KeyInj heap l :=
  fun _ h1 _ h2 e1 _ he1 he2 hk => h.inj h2 he2 _ h1 e1 he1 hk

theorem Inv.of_mapGet {heap : List (entry K V)} {l : List Nat} {m : List (K × Nat)}
    (h : Inv heap l m) {k : K} {a : Nat} (hm : mapGet m k = some a) :
    a ∈ l ∧ ∃ e, heap[a]? = some e ∧ e.key = k := h.2.2.2 k a hm

theorem Inv_nil (heap : List (entry K V)) : Inv heap [] ([] : List (K × Nat)) := by
  refine ⟨List.nodup_nil, by simp, by simp, ?_⟩
  intro k a h
  simp [mapGet] at h

theorem Inv_perm {heap : List (entry K V)} {l l1 : List Nat} {m : List (K × Nat)}
    (p : l1.Perm l) (h : Inv heap l m) : Inv heap l1 m := by
  refine ⟨(p.nodup_iff).2 h.1, h.2.1, ?_, ?_⟩
  · intro a ha
    exact h.2.2.1 a (p.mem_iff.1 ha)
  · intro k a hm
    obtain ⟨h1, h2⟩ := h.2.2.2 k a hm
    exact ⟨p.mem_iff.2 h1, h2⟩

theorem Inv_moveToFront {heap : List (entry K V)} {l : List Nat} {m : List (K × Nat)}
    (h : Inv heap l m) (a : Nat) : Inv heap (MoveToFront l a) m := by
  by_cases ha : a ∈ l
  · rw [MoveToFront_of_mem ha]
    exact Inv_perm (List.perm_cons_erase ha).symm h
  · unfold MoveToFront
    simp [ha, h]

theorem Inv_heap {heap heap1 : List (entry K V)} {l : List Nat} {m : List (K × Nat)}
    (hh : ∀ a ∈ l, ∀ e, heap[a]? = some e → ∃ e1, heap1[a]? = some e1 ∧ e1.key = e.key)
    (h : Inv heap l m) : Inv heap1 l m := by
  refine ⟨h.1, h.2.1, ?_, ?_⟩
  · intro a ha
    obtain ⟨e, he, hm⟩ := h.2.2.1 a ha
    obtain ⟨e1, he1, hk⟩ := hh a ha e he
    exact ⟨e1, he1, by rw [hk]; exact hm⟩
  · intro k a hm
    obtain ⟨ha, e, he, hk⟩ := h.2.2.2 k a hm
    obtain ⟨e1, he1, hk1⟩ := hh a ha e he
    exact ⟨ha, e1, he1, by rw [hk1]; exact hk⟩

theorem Inv_set {heap : List (entry K V)} {l : List Nat} {m : List (K × Nat)}
    (h : Inv heap l m) {a : Nat} {e : entry K V} (he : heap[a]? = some e) (v : V) :
    Inv (heap.set a { e with value := v }) l m := by
  apply Inv_heap _ h
  intro b _ e1 he1
  by_cases hb : a = b
  · subst hb
    rw [he] at he1
    cases he1
    have hlt : a < heap.length := (List.getElem?_eq_some.1 he).1
    exact ⟨{ e with value := v }, by simp [List.getElem?_set, hlt], rfl⟩
  · exact ⟨e1, by simp [List.getElem?_set, hb, he1], rfl⟩

theorem Inv_push {heap : List (entry K V)} {l : List Nat} {m : List (K × Nat)}
    (h : Inv heap l m) {k : K} (v : V) (hk : mapGet m k = none) :
    Inv (heap ++ [entry.mk k v]) (PushFront l heap.length) (mapSet m k heap.length) := by
  have hfresh : heap.length ∉ l := fun hm => Nat.lt_irrefl _ (h.lt_length hm)
  refine ⟨List.nodup_cons.2 ⟨hfresh, h.1⟩, mapSet_nodup _ hk h.2.1, ?_, ?_⟩
  · intro a ha
    rcases List.mem_cons.1 ha with ha | ha
    · subst ha
      exact ⟨entry.mk k v, by simp, by simp [mapGet_mapSet]⟩
    · obtain ⟨e, he, hm⟩ := h.2.2.1 a ha
      have hlt := h.lt_length ha
      refine ⟨e, by rw [List.getElem?_append_left hlt]; exact he, ?_⟩
      rw [mapGet_mapSet]
      by_cases hke : k = e.key
      · rw [← hke, hk] at hm
        cases hm
      · simp [hke, hm]
  · intro k1 a hm
    rw [mapGet_mapSet] at hm
    by_cases hk1 : k = k1
    · subst hk1
      simp at hm
      subst hm
      exact ⟨List.mem_cons_self _ _, entry.mk k v, by simp, rfl⟩
    · simp only [hk1, if_false] at hm
      obtain ⟨ha, e, he, hke⟩ := h.2.2.2 k1 a hm
      have hlt := h.lt_length ha
      exact ⟨List.mem_cons_of_mem _ ha, e, by rw [List.getElem?_append_left hlt]; exact he, hke⟩

theorem Inv_erase {heap : List (entry K V)} {l : List Nat} {m : List (K × Nat)}
    (h : Inv heap l m) {a : Nat} {e : entry K V} (ha : a ∈ l) (he : heap[a]? = some e) :
    Inv heap (l.erase a) (mapDelete m e.key) := by
  refine ⟨h.1.erase a, mapDelete_nodup _ h.2.1, ?_, ?_⟩
  · intro b hb
    obtain ⟨hba, hbl⟩ := (h.1.mem_erase_iff).1 hb
    obtain ⟨e1, he1, hm⟩ := h.2.2.1 b hbl
    refine ⟨e1, he1, ?_⟩
    rw [mapGet_mapDelete]
    have : ¬ e.key = e1.key := fun hk => hba (h.inj ha he b hbl e1 he1 hk.symm)
    simp [this, hm]
  · intro k b hm
    rw [mapGet_mapDelete] at hm
    by_cases hk : e.key = k
    · simp [hk] at hm
    · simp only [hk, if_false] at hm
      obtain ⟨hb, e1, he1, hk1⟩ := h.2.2.2 k b hm
      refine ⟨(h.1.mem_erase_iff).2 ⟨?_, hb⟩, e1, he1, hk1⟩
      intro hba
      subst hba
      rw [he] at he1
      cases he1
      exact hk hk1

theorem Inv.mapGet_none_iff {heap : List (entry K V)} {l : List Nat} {m : List (K × Nat)}
    (h : Inv heap l m) (k : K) :
    mapGet m k = none ↔ k ∉ (entriesOf heap l).map Prod.fst := by
  constructor
  · intro hn hmem
    rw [List.mem_map] at hmem
    obtain ⟨p, hp, hpk⟩ := hmem
    obtain ⟨a, ha, e, he, hpe⟩ := mem_entriesOf hp
    subst hpe
    have := h.mapGet_key ha he
    simp only at hpk
    rw [hpk, hn] at this
    cases this
  · intro hn
    cases hm : mapGet m k with
    | none => rfl
    | some a =>
      exfalso
      apply hn
      obtain ⟨ha, e, he, hk⟩ := h.of_mapGet hm
      rw [List.mem_map]
      exact ⟨(e.key, e.value), entriesOf_mem ha he, hk⟩

theorem Inv.find_some {heap : List (entry K V)} {l : List Nat} {m : List (K × Nat)}
    (h : Inv heap l m) {k : K} {a : Nat} {e : entry K V} (hm : mapGet m k = some a)
    (he : heap[a]? = some e) :
    (entriesOf heap l).find? (fun p => decide (p.1 = k)) = some (k, e.value) := by
  obtain ⟨ha, e1, he1, hk⟩ := h.of_mapGet hm
  rw [he] at he1
  cases he1
  subst hk
  exact entriesOf_find h.alloc (h.inj ha he) ha he

theorem Inv.find_none {heap : List (entry K V)} {l : List Nat} {m : List (K × Nat)}
    (h : Inv heap l m) {k : K} (hm : mapGet m k = none) :
    (entriesOf heap l).find? (fun p => decide (p.1 = k)) = none := by
  rw [List.find?_eq_none]
  intro p hp
  have := (h.mapGet_none_iff k).1 hm
  simp only [decide_eq_true_eq]
  intro hpk
  exact this (by rw [List.mem_map]; exact ⟨p, hp, hpk⟩)

theorem Inv.entries_erase {heap : List (entry K V)} {l : List Nat} {m : List (K × Nat)}
    (h : Inv heap l m) {a : Nat} {e : entry K V} (ha : a ∈ l) (he : heap[a]? = some e) :
    entriesOf heap (l.erase a) =
      (entriesOf heap l).filter (fun q => decide (q.1 ≠ e.key)) := by
  rw [h.1.erase_eq_filter a]
  exact entriesOf_filter h.alloc (h.inj ha he) he

theorem Inv.entries_length {heap : List (entry K V)} {l : List Nat} {m : List (K × Nat)}
    (h : Inv heap l m) : (entriesOf heap l).length = l.length :=
  entriesOf_length h.alloc

theorem Inv.entries_back {heap : List (entry K V)} {l : List Nat} {m : List (K × Nat)}
    (h : Inv heap l m) {a : Nat} {e : entry K V} (hb : Back l = some a)
    (he : heap[a]? = some e) :
    a ∈ l ∧ (entriesOf heap l).getLast? = some (e.key, e.value) ∧
      entriesOf heap (l.erase a) = (entriesOf heap l).dropLast := by
  unfold Back at hb
  obtain ⟨ys, hys⟩ := List.getLast?_eq_some_iff.1 hb
  subst hys
  have hnd := h.1
  have hnot : a ∉ ys := by
    intro hmem
    have := List.nodup_append.1 hnd
    exact this.2.2 hmem (List.mem_singleton_self a)
  refine ⟨by simp, ?_, ?_⟩
  · rw [entriesOf_append, entriesOf_cons he, entriesOf_nil]
    simp
  · rw [List.erase_append_right _ hnot, entriesOf_append, entriesOf_append,
      entriesOf_cons he, entriesOf_nil]
    simp [entriesOf_nil]

end InvLemmas

/-! ## Lemmas: each operation on a well-formed state -/

section OpLemmas

variable {K V : Type} [DecidableEq K]

theorem WF_cases {c : Cache K V} (h : WF c) :
    (c.ll = none ∧ c.cache = none) ∨
      ∃ l m, c.ll = some l ∧ c.cache = some m ∧ Inv c.heap l m := by
  unfold WF at h
  cases hl : c.ll with
  | none =>
    cases hm : c.cache with
    | none => exact Or.inl ⟨rfl, rfl⟩
    | some m => rw [hl, hm] at h; exact h.elim
  | some l =>
    cases hm : c.cache with
    | none => rw [hl, hm] at h; exact h.elim
    | some m => rw [hl, hm] at h; exact Or.inr ⟨l, m, rfl, rfl, h⟩

theorem WF_of_Inv {c : Cache K V} {l : List Nat} {m : List (K × Nat)}
    (hl : c.ll = some l) (hm : c.cache = some m) (h : Inv c.heap l m) : WF c := by
  unfold WF
  rw [hl, hm]
  exact h

theorem WF_of_nil {c : Cache K V} (hl : c.ll = none) (hm : c.cache = none) : WF c := by
  unfold WF
  rw [hl, hm]
  trivial

theorem entries_of_ll {c : Cache K V} {l : List Nat} (hl : c.ll = some l) :
    entries c = entriesOf c.heap l := by
  simp [entries, hl]

theorem entries_of_nil {c : Cache K V} (hl : c.ll = none) : entries c = [] := by
  simp [entries, hl, entriesOf_nil]

theorem removeElement_eq {c : Cache K V} {l : List Nat} {m : List (K × Nat)} {a : Nat}
    {e : entry K V} (hl : c.ll = some l) (hm : c.cache = some m) (he : c.heap[a]? = some e) :
    removeElement c a = some { c with
      ll := some (l.erase a), cache := some (mapDelete m e.key),
      calls := c.calls ++ emit c.OnEvicted [(e.key, e.value)] } := by
  obtain ⟨M, f, ll, cache, heap, calls⟩ := c
  simp only at hl hm he
  subst hl hm
  cases f <;> simp [removeElement, he, ListRemove_eq, emit]

theorem Add_hit_eq {c : Cache K V} {l : List Nat} {m : List (K × Nat)} {a : Nat}
    {e : entry K V} {k : K} (v : V) (hl : c.ll = some l) (hm : c.cache = some m)
    (hk : mapGet m k = some a) (he : c.heap[a]? = some e) :
    Add c k v = some { c with
      ll := some (MoveToFront l a), heap := c.heap.set a { e with value := v } } := by
  obtain ⟨M, f, ll, cache, heap, calls⟩ := c
  simp only at hl hm he
  subst hl hm
  simp [Add, index, hk, he]

theorem Add_miss_eq {c : Cache K V} {l : List Nat} {m : List (K × Nat)}
    {k : K} (v : V) (hl : c.ll = some l) (hm : c.cache = some m)
    (hk : mapGet m k = none) :
    Add c k v =
      if c.MaxEntries ≠ 0 ∧ ((l.length : Int) + 1 > c.MaxEntries) then
        RemoveOldest { c with
          heap := c.heap ++ [entry.mk k v], ll := some (c.heap.length :: l),
          cache := some (mapSet m k c.heap.length) }
      else
        some { c with
          heap := c.heap ++ [entry.mk k v], ll := some (c.heap.length :: l),
          cache := some (mapSet m k c.heap.length) } := by
  obtain ⟨M, f, ll, cache, heap, calls⟩ := c
  simp only at hl hm
  subst hl hm
  simp [Add, index, hk, PushFront, ListLen]

theorem Add_nil_eq {c : Cache K V} (k : K) (v : V) (hm : c.cache = none) :
    Add c k v = Add { c with ll := some [], cache := some [] } k v := by
  obtain ⟨M, f, ll, cache, heap, calls⟩ := c
  simp only at hm
  subst hm
  simp [Add]

theorem emit_nil (f : Bool) : emit f ([] : List (K × V)) = [] := by
  cases f <;> rfl

theorem Sim_refl {c : Cache K V} (h : WF c) : Sim c c (entries c) [] :=
  ⟨h, rfl, rfl, rfl, by simp [emit_nil]⟩

theorem RemoveOldest_sim {c : Cache K V} (h : WF c) :
    ∃ c1, RemoveOldest c = some c1 ∧
      Sim c c1 (seqRemoveOldest (entries c)).1 (seqRemoveOldest (entries c)).2 := by
  rcases WF_cases h with ⟨hl, hm⟩ | ⟨l, m, hl, hm, hi⟩
  · refine ⟨c, by simp [RemoveOldest, hm], ?_⟩
    have := Sim_refl h
    simpa [seqRemoveOldest, entries_of_nil hl] using this
  · cases hb : Back l with
    | none =>
      have hnil : l = [] := List.getLast?_eq_none_iff.1 hb
      refine ⟨c, by simp [RemoveOldest, hm, hl, hb], ?_⟩
      have := Sim_refl h
      have he : entries c = [] := by rw [entries_of_ll hl, hnil, entriesOf_nil]
      simpa [seqRemoveOldest, he] using this
    | some a =>
      have ha : a ∈ l := by
        obtain ⟨ys, hys⟩ := List.getLast?_eq_some_iff.1 hb
        rw [hys]
        simp
      obtain ⟨e, he⟩ := hi.alloc a ha
      obtain ⟨_, hlast, hdrop⟩ := hi.entries_back hb he
      refine ⟨_, by simp only [RemoveOldest, hm, hl, hb, Option.bind_eq_bind, Option.some_bind]; exact removeElement_eq hl hm he, ?_⟩
      refine ⟨WF_of_Inv rfl rfl (Inv_erase hi ha he), rfl, rfl, ?_, ?_⟩
      · rw [entries_of_ll (l := l.erase a) rfl, entries_of_ll hl]
        exact hdrop
      · simp [seqRemoveOldest, entries_of_ll hl, hlast]

theorem Remove_sim {c : Cache K V} (h : WF c) (k : K) :
    ∃ c1, Remove c k = some c1 ∧
      Sim c c1 (seqRemove (entries c) k).1 (seqRemove (entries c) k).2 := by
  rcases WF_cases h with ⟨hl, hm⟩ | ⟨l, m, hl, hm, hi⟩
  · refine ⟨c, by simp [Remove, hm], ?_⟩
    have := Sim_refl h
    simpa [seqRemove, entries_of_nil hl] using this
  · cases hk : mapGet m k with
    | none =>
      refine ⟨c, by simp [Remove, hm, hk], ?_⟩
      have hf := hi.find_none hk
      have hkeys := (hi.mapGet_none_iff k).1 hk
      have hfil : (entriesOf c.heap l).filter (fun q => decide (q.1 ≠ k)) = entriesOf c.heap l := by
        rw [List.filter_eq_self]
        intro p hp
        simp only [decide_eq_true_eq]
        intro hpk
        exact hkeys (by rw [List.mem_map]; exact ⟨p, hp, hpk⟩)
      have := Sim_refl h
      rw [entries_of_ll hl] at this ⊢
      simp only [seqRemove, hf, hfil, Option.toList]
      exact this
    | some a =>
      obtain ⟨ha, e, he, hek⟩ := hi.of_mapGet hk
      subst hek
      refine ⟨_, by simp only [Remove, hm, hk]; exact removeElement_eq hl hm he, ?_⟩
      refine ⟨WF_of_Inv rfl rfl (Inv_erase hi ha he), rfl, rfl, ?_, ?_⟩
      · rw [entries_of_ll (l := l.erase a) rfl, entries_of_ll hl]
        exact hi.entries_erase ha he
      · simp [seqRemove, entries_of_ll hl, hi.find_some hk he]

theorem Get_sim {c : Cache K V} (h : WF c) (k : K) :
    ∃ c1, Get c k = some ((seqGet (entries c) k).1, c1) ∧
      Sim c c1 (seqGet (entries c) k).2 [] ∧ c1.heap = c.heap ∧ c1.cache = c.cache := by
  rcases WF_cases h with ⟨hl, hm⟩ | ⟨l, m, hl, hm, hi⟩
  · refine ⟨c, by simp [Get, hm, seqGet, entries_of_nil hl], ?_, rfl, rfl⟩
    have := Sim_refl h
    simpa [seqGet, entries_of_nil hl] using this
  · cases hk : mapGet m k with
    | none =>
      have hf := hi.find_none hk
      refine ⟨c, by simp [Get, hm, hk, seqGet, entries_of_ll hl, hf], ?_, rfl, rfl⟩
      have := Sim_refl h
      simpa [seqGet, entries_of_ll hl, hf] using this
    | some a =>
      obtain ⟨ha, e, he, hek⟩ := hi.of_mapGet hk
      subst hek
      have hf := hi.find_some hk he
      refine ⟨{ c with ll := some (MoveToFront l a) }, ?_, ?_, rfl, rfl⟩
      · simp [Get, hm, hk, hl, he, seqGet, entries_of_ll hl, hf]
      · refine ⟨WF_of_Inv rfl hm (Inv_moveToFront hi a), rfl, rfl, ?_, by simp [emit_nil]⟩
        rw [entries_of_ll (l := MoveToFront l a) rfl, entries_of_ll hl, MoveToFront_of_mem ha]
        simp only [seqGet, hf]
        rw [entriesOf_cons he, hi.entries_erase ha he]

theorem Len_sim {c : Cache K V} (h : WF c) : Len c = some ((entries c).length : Int) := by
  rcases WF_cases h with ⟨hl, hm⟩ | ⟨l, m, hl, hm, hi⟩
  · simp [Len, hm, entries_of_nil hl]
  · simp [Len, hm, hl, ListLen, entries_of_ll hl, hi.entries_length]

theorem seqAdd_hit {M : Int} {es : List (K × V)} {k : K} (v : V)
    (h : k ∈ es.map Prod.fst) :
    seqAdd M es k v = ((k, v) :: es.filter (fun q => decide (q.1 ≠ k)), []) := by
  unfold seqAdd
  rw [if_pos h]

theorem seqAdd_evict {M : Int} {es : List (K × V)} {k : K} (v : V)
    (h : k ∉ es.map Prod.fst) (hev : M ≠ 0 ∧ ((es.length : Int) + 1 > M)) :
    seqAdd M es k v = (((k, v) :: es).dropLast, (((k, v) :: es).getLast?).toList) := by
  unfold seqAdd
  rw [if_neg h, if_pos hev]

theorem seqAdd_keep {M : Int} {es : List (K × V)} {k : K} (v : V)
    (h : k ∉ es.map Prod.fst) (hev : ¬ (M ≠ 0 ∧ ((es.length : Int) + 1 > M))) :
    seqAdd M es k v = ((k, v) :: es, []) := by
  unfold seqAdd
  rw [if_neg h, if_neg hev]

theorem Add_sim_init {c : Cache K V} {l : List Nat} {m : List (K × Nat)}
    (hl : c.ll = some l) (hm : c.cache = some m) (hi : Inv c.heap l m) (k : K) (v : V) :
    ∃ c1, Add c k v = some c1 ∧
      Sim c c1 (seqAdd c.MaxEntries (entriesOf c.heap l) k v).1
        (seqAdd c.MaxEntries (entriesOf c.heap l) k v).2 := by
  cases hk : mapGet m k with
  | some a =>
    obtain ⟨ha, e, he, hek⟩ := hi.of_mapGet hk
    subst hek
    have hin : e.key ∈ (entriesOf c.heap l).map Prod.fst := by
      by_contra hn
      have := (hi.mapGet_none_iff e.key).2 hn
      rw [hk] at this
      cases this
    refine ⟨_, Add_hit_eq v hl hm hk he, ?_⟩
    have hi1 : Inv (c.heap.set a { e with value := v }) (MoveToFront l a) m :=
      Inv_set (Inv_moveToFront hi a) he v
    have hlt : a < c.heap.length := (List.getElem?_eq_some.1 he).1
    rw [seqAdd_hit v hin]
    refine ⟨WF_of_Inv rfl hm hi1, rfl, rfl, ?_, by simp [emit_nil]⟩
    rw [entries_of_ll (l := MoveToFront l a) rfl, MoveToFront_of_mem ha]
    simp only
    have hset : (c.heap.set a { e with value := v })[a]? = some { e with value := v } := by
      simp [List.getElem?_set, hlt]
    rw [entriesOf_cons hset]
    have hcongr : entriesOf (c.heap.set a { e with value := v }) (l.erase a) =
        entriesOf c.heap (l.erase a) := by
      apply entriesOf_congr
      intro b hb
      have hba : a ≠ b := fun hab => ((hi.1.mem_erase_iff).1 hb).1 hab.symm
      simp [List.getElem?_set, hba]
    rw [hcongr, hi.entries_erase ha he]
  | none =>
    have hnin := (hi.mapGet_none_iff k).1 hk
    have hi2 := Inv_push hi v hk
    have hnew : (c.heap ++ [entry.mk k v])[c.heap.length]? = some (entry.mk k v) := by simp
    have hes : entriesOf (c.heap ++ [entry.mk k v]) (c.heap.length :: l) =
        (k, v) :: entriesOf c.heap l := by
      rw [entriesOf_cons hnew]
      congr 1
      apply entriesOf_congr
      intro b hb
      exact List.getElem?_append_left (hi.lt_length hb)
    rw [Add_miss_eq v hl hm hk]
    have hlen := hi.entries_length
    by_cases hev : c.MaxEntries ≠ 0 ∧ ((l.length : Int) + 1 > c.MaxEntries)
    · rw [if_pos hev]
      have hwf : WF ({ c with
          heap := c.heap ++ [entry.mk k v], ll := some (c.heap.length :: l),
          cache := some (mapSet m k c.heap.length) } : Cache K V) :=
        WF_of_Inv rfl rfl hi2
      obtain ⟨c1, hc1, hs⟩ := RemoveOldest_sim hwf
      refine ⟨c1, hc1, ?_⟩
      obtain ⟨h1, h2, h3, h4, h5⟩ := hs
      have he2 : entries ({ c with
          heap := c.heap ++ [entry.mk k v], ll := some (c.heap.length :: l),
          cache := some (mapSet m k c.heap.length) } : Cache K V) =
          (k, v) :: entriesOf c.heap l := by
        rw [entries_of_ll (l := c.heap.length :: l) rfl]
        exact hes
      rw [he2] at h4 h5
      rw [seqAdd_evict v hnin (by rw [hlen]; exact hev)]
      refine ⟨h1, h2, h3, ?_, ?_⟩
      · rw [h4]
        rfl
      · rw [h5]
        rfl
    · rw [if_neg hev]
      rw [seqAdd_keep v hnin (by rw [hlen]; exact hev)]
      refine ⟨_, rfl, WF_of_Inv rfl rfl hi2, rfl, rfl, ?_, ?_⟩
      · rw [entries_of_ll (l := c.heap.length :: l) rfl]
        exact hes
      · simp [emit_nil]

theorem Add_sim {c : Cache K V} (h : WF c) (k : K) (v : V) :
    ∃ c1, Add c k v = some c1 ∧
      Sim c c1 (seqAdd c.MaxEntries (entries c) k v).1
        (seqAdd c.MaxEntries (entries c) k v).2 := by
  rcases WF_cases h with ⟨hl, hm⟩ | ⟨l, m, hl, hm, hi⟩
  · rw [Add_nil_eq k v hm, entries_of_nil hl]
    obtain ⟨c1, hc1, hs⟩ := Add_sim_init
      (c := ({ c with ll := some [], cache := some [] } : Cache K V)) rfl rfl
      (Inv_nil c.heap) k v
    simp only [entriesOf_nil] at hs
    exact ⟨c1, hc1, hs⟩
  · rw [entries_of_ll hl]
    exact Add_sim_init hl hm hi k v

theorem present_iff {c : Cache K V} (h : WF c) (k : K) :
    present c k ↔ k ∈ (entries c).map Prod.fst := by
  rcases WF_cases h with ⟨hl, hm⟩ | ⟨l, m, hl, hm, hi⟩
  · simp [present, index, hm, entries_of_nil hl]
  · rw [entries_of_ll hl]
    have := hi.mapGet_none_iff k
    unfold present index
    rw [hm]
    simp only [Option.some_bind]
    cases hk : mapGet m k with
    | none => simpa using this.1 hk
    | some a =>
      simp only [Option.isSome_some, true_iff]
      by_contra hn
      rw [this.2 hn] at hk
      cases hk

theorem stored_eq {c : Cache K V} (h : WF c) (k : K) :
    stored c k = ((entries c).find? (fun p => decide (p.1 = k))).map Prod.snd := by
  rcases WF_cases h with ⟨hl, hm⟩ | ⟨l, m, hl, hm, hi⟩
  · simp [stored, index, hm, entries_of_nil hl]
  · rw [entries_of_ll hl]
    unfold stored index
    rw [hm]
    simp only [Option.some_bind]
    cases hk : mapGet m k with
    | none => simp [hi.find_none hk]
    | some a =>
      obtain ⟨_, e, he, _⟩ := hi.of_mapGet hk
      simp [hi.find_some hk he, he]

end OpLemmas

/-! ## Lemmas: Clear -/

section ClearLemmas

variable {K V : Type} [DecidableEq K]

theorem rangeCalls_eq {heap : List (entry K V)} {order : List (K × Nat)}
    (al : ∀ p ∈ order, ∃ e, heap[p.2]? = some e) :
    rangeCalls heap order = some (order.filterMap (fun p => cell heap p.2)) := by
  induction order with
  | nil => rfl
  | cons p order ih =>
    obtain ⟨k, a⟩ := p
    obtain ⟨e, he⟩ := al (k, a) (List.mem_cons_self _ _)
    have he1 : heap[a]? = some e := he
    have ih1 := ih (fun q hq => al q (List.mem_cons_of_mem _ hq))
    simp [rangeCalls, he1, ih1, List.filterMap_cons, cell]

theorem Inv.map_snd_perm {heap : List (entry K V)} {l : List Nat} {m : List (K × Nat)}
    (h : Inv heap l m) : (m.map Prod.snd).Perm l := by
  have hnd : (m.map Prod.snd).Nodup := by
    apply List.Nodup.map_on _ (List.Nodup.of_map Prod.fst h.2.1)
    intro p hp q hq hpq
    obtain ⟨k1, a1⟩ := p
    obtain ⟨k2, a2⟩ := q
    simp only at hpq
    subst hpq
    obtain ⟨_, e1, he1, hk1⟩ := h.of_mapGet (mapGet_of_mem h.2.1 hp)
    obtain ⟨_, e2, he2, hk2⟩ := h.of_mapGet (mapGet_of_mem h.2.1 hq)
    rw [he1] at he2
    cases he2
    rw [← hk1, ← hk2]
  rw [List.perm_ext_iff_of_nodup hnd h.1]
  intro a
  constructor
  · intro ha
    rw [List.mem_map] at ha
    obtain ⟨p, hp, hpa⟩ := ha
    obtain ⟨k, a1⟩ := p
    simp only at hpa
    subst hpa
    exact (h.of_mapGet (mapGet_of_mem h.2.1 hp)).1
  · intro ha
    obtain ⟨e, he⟩ := h.alloc a ha
    rw [List.mem_map]
    exact ⟨(e.key, a), mapGet_mem (h.mapGet_key ha he), rfl⟩

theorem Inv.map_entries_perm {heap : List (entry K V)} {l : List Nat} {m : List (K × Nat)}
    (h : Inv heap l m) : (m.filterMap (fun p => cell heap p.2)).Perm (entriesOf heap l) := by
  have : m.filterMap (fun p => cell heap p.2) = (m.map Prod.snd).filterMap (cell heap) := by
    rw [List.filterMap_map]
    rfl
  rw [this]
  exact h.map_snd_perm.filterMap _

theorem Inv.map_alloc {heap : List (entry K V)} {l : List Nat} {m : List (K × Nat)}
    (h : Inv heap l m) : ∀ p ∈ m, ∃ e, heap[p.2]? = some e := by
  intro p hp
  obtain ⟨k, a⟩ := p
  obtain ⟨_, e, he, _⟩ := h.of_mapGet (mapGet_of_mem h.2.1 hp)
  exact ⟨e, he⟩

theorem perm_map_lift {α β : Type} (g : α → β) {zs cs : List β} (p : zs.Perm cs) :
    ∀ xs : List α, xs.map g = zs → ∃ ys : List α, ys.Perm xs ∧ ys.map g = cs := by
  induction p with
  | nil =>
    intro xs hxs
    exact ⟨xs, List.Perm.refl _, hxs⟩
  | cons x _ ih =>
    intro xs hxs
    cases xs with
    | nil => simp at hxs
    | cons a xs =>
      simp only [List.map_cons, List.cons.injEq] at hxs
      obtain ⟨ys, hp, hm⟩ := ih xs hxs.2
      exact ⟨a :: ys, hp.cons a, by simp [hm, hxs.1]⟩
  | swap x y t =>
    intro xs hxs
    cases xs with
    | nil => simp at hxs
    | cons a xs =>
      cases xs with
      | nil => simp at hxs
      | cons b xs =>
        simp only [List.map_cons, List.cons.injEq] at hxs
        exact ⟨b :: a :: xs, List.Perm.swap _ _ _, by simp [hxs.1, hxs.2.1, hxs.2.2]⟩
  | trans _ _ ih1 ih2 =>
    intro xs hxs
    obtain ⟨ys, hp, hm⟩ := ih1 xs hxs
    obtain ⟨ws, hp2, hm2⟩ := ih2 ys hm
    exact ⟨ws, hp2.trans hp, hm2⟩

theorem filterMap_eq_of_map_some {α β : Type} (g : α → Option β) {ys : List α} {cs : List β}
    (h : ys.map g = cs.map some) : ys.filterMap g = cs := by
  induction ys generalizing cs with
  | nil =>
    cases cs with
    | nil => rfl
    | cons c cs => simp at h
  | cons y ys ih =>
    cases cs with
    | nil => simp at h
    | cons c cs =>
      simp only [List.map_cons, List.cons.injEq] at h
      simp [List.filterMap_cons, h.1, ih h.2]

theorem map_eq_map_some_filterMap {α β : Type} (g : α → Option β) {xs : List α}
    (al : ∀ x ∈ xs, ∃ b, g x = some b) : xs.map g = (xs.filterMap g).map some := by
  induction xs with
  | nil => rfl
  | cons x xs ih =>
    obtain ⟨b, hb⟩ := al x (List.mem_cons_self _ _)
    simp [List.filterMap_cons, hb, ih (fun y hy => al y (List.mem_cons_of_mem _ hy))]

/-- Clear on a well-formed state, ranging over the map in any order: the callback is
called for a permutation of the recency sequence, and the structures are discarded. -/
theorem ClearIn_sim {c : Cache K V} (h : WF c) {order : List (K × Nat)}
    (hp : order.Perm (c.cache.getD [])) :
    ∃ c1 cs, ClearIn order c = some c1 ∧ cs.Perm (entries c) ∧
      c1 = { c with ll := none, cache := none, calls := c.calls ++ emit c.OnEvicted cs } := by
  obtain ⟨M, f, ll, cache, heap, calls⟩ := c
  rcases WF_cases h with ⟨hl, hm⟩ | ⟨l, m, hl, hm, hi⟩
  · simp only at hl hm
    subst hl hm
    simp only [Option.getD_none, List.perm_nil] at hp
    subst hp
    refine ⟨_, [], ?_, by simp [entries, entriesOf_nil], rfl⟩
    cases f <;> simp [ClearIn, rangeCalls, emit]
  · simp only at hl hm hi
    subst hl hm
    simp only [Option.getD_some] at hp
    have hal : ∀ p ∈ order, ∃ e, heap[p.2]? = some e :=
      fun p hpm => hi.map_alloc p (hp.mem_iff.1 hpm)
    have hperm : (order.filterMap (fun p => cell heap p.2)).Perm (entriesOf heap l) :=
      (hp.filterMap _).trans hi.map_entries_perm
    refine ⟨_, order.filterMap (fun p => cell heap p.2), ?_, by simpa [entries] using hperm, rfl⟩
    cases f <;> simp [ClearIn, rangeCalls_eq hal, emit]

/-- Every permutation of the recency sequence is the order of the callbacks of Clear for
some order of ranging over the map. -/
theorem ClearIn_any {c : Cache K V} (h : WF c) {cs : List (K × V)}
    (hp : cs.Perm (entries c)) :
    ∃ order, order.Perm (c.cache.getD []) ∧ ClearIn order c =
      some { c with ll := none, cache := none, calls := c.calls ++ emit c.OnEvicted cs } := by
  obtain ⟨M, f, ll, cache, heap, calls⟩ := c
  rcases WF_cases h with ⟨hl, hm⟩ | ⟨l, m, hl, hm, hi⟩
  · simp only at hl hm
    subst hl hm
    have : cs = [] := by simpa [entries, entriesOf_nil] using hp
    subst this
    refine ⟨[], by simp, ?_⟩
    cases f <;> simp [ClearIn, rangeCalls, emit]
  · simp only at hl hm hi
    subst hl hm
    have hp1 : cs.Perm (entriesOf heap l) := by simpa [entries] using hp
    have hp2 : (m.filterMap (fun p => cell heap p.2)).Perm cs :=
      hi.map_entries_perm.trans hp1.symm
    have hmal : ∀ p ∈ m, ∃ b, (fun p : K × Nat => cell heap p.2) p = some b := by
      intro p hpm
      obtain ⟨e, he⟩ := hi.map_alloc p hpm
      exact ⟨_, cell_eq_some he⟩
    obtain ⟨order, ho, hmap⟩ := perm_map_lift (fun p : K × Nat => cell heap p.2)
      (hp2.map some) m (map_eq_map_some_filterMap _ hmal)
    have hfm := filterMap_eq_of_map_some _ hmap
    have hal : ∀ p ∈ order, ∃ e, heap[p.2]? = some e :=
      fun p hpm => hi.map_alloc p (ho.mem_iff.1 hpm)
    refine ⟨order, by simpa using ho, ?_⟩
    cases f <;> simp [ClearIn, rangeCalls_eq hal, emit, hfm]

end ClearLemmas

/-! ## Lemmas: sequences of calls and the states they reach -/

section RunLemmas

variable {K V : Type} [DecidableEq K]

theorem WF_New (n : Int) (f : Bool) : WF (setOnEvicted (New n : Cache K V) f) :=
  WF_of_Inv rfl rfl (Inv_nil _)

theorem WF_zeroValue (n : Int) (f : Bool) : WF (zeroValue n f : Cache K V) :=
  WF_of_nil rfl rfl

theorem entries_New (n : Int) (f : Bool) : entries (setOnEvicted (New n : Cache K V) f) = [] :=
  rfl

theorem entries_zeroValue (n : Int) (f : Bool) : entries (zeroValue n f : Cache K V) = [] :=
  rfl

/-- Every call that returns is a step of the recency sequence. -/
theorem Step_sound {c c1 : Cache K V} {op : Op K V} {r : Ret V} (h : WF c)
    (hs : Step c op r c1) :
    ∃ g, SeqStep c.MaxEntries (entries c) op r (entries c1) g ∧ Sim c c1 (entries c1) g := by
  cases hs with
  | add ha =>
    obtain ⟨c2, h2, hsim⟩ := Add_sim h _ _
    rw [ha] at h2
    cases h2
    exact ⟨_, ⟨rfl, hsim.2.2.2.1, rfl⟩, by rw [hsim.2.2.2.1]; exact hsim⟩
  | get hg =>
    obtain ⟨c2, h2, hsim, _, _⟩ := Get_sim h _
    rw [hg] at h2
    cases h2
    exact ⟨_, ⟨rfl, hsim.2.2.2.1, rfl⟩, by rw [hsim.2.2.2.1]; exact hsim⟩
  | remove hr =>
    obtain ⟨c2, h2, hsim⟩ := Remove_sim h _
    rw [hr] at h2
    cases h2
    exact ⟨_, ⟨rfl, hsim.2.2.2.1, rfl⟩, by rw [hsim.2.2.2.1]; exact hsim⟩
  | removeOldest hr =>
    obtain ⟨c2, h2, hsim⟩ := RemoveOldest_sim h
    rw [hr] at h2
    cases h2
    exact ⟨_, ⟨rfl, hsim.2.2.2.1, rfl⟩, by rw [hsim.2.2.2.1]; exact hsim⟩
  | len hl =>
    rw [Len_sim h] at hl
    cases hl
    exact ⟨[], ⟨rfl, rfl, rfl⟩, Sim_refl h⟩
  | clear hp hc =>
    obtain ⟨c2, cs, h2, hperm, hc2⟩ := ClearIn_sim h hp
    rw [hc] at h2
    cases h2
    subst hc2
    exact ⟨cs, ⟨rfl, rfl, hperm⟩, WF_of_nil rfl rfl, rfl, rfl, rfl, rfl⟩

/-- Every step of the recency sequence is made by a call that returns. -/
theorem Step_complete {c : Cache K V} {op : Op K V} {r : Ret V} {es1 g : List (K × V)}
    (h : WF c) (hs : SeqStep c.MaxEntries (entries c) op r es1 g) :
    ∃ c1, Step c op r c1 ∧ Sim c c1 es1 g := by
  cases op with
  | Add k v =>
    obtain ⟨hr, he, hg⟩ := hs
    subst hr he hg
    obtain ⟨c1, h1, hsim⟩ := Add_sim h k v
    exact ⟨c1, Step.add h1, hsim⟩
  | Get k =>
    obtain ⟨hr, he, hg⟩ := hs
    subst hr he hg
    obtain ⟨c1, h1, hsim, _, _⟩ := Get_sim h k
    exact ⟨c1, Step.get h1, hsim⟩
  | Remove k =>
    obtain ⟨hr, he, hg⟩ := hs
    subst hr he hg
    obtain ⟨c1, h1, hsim⟩ := Remove_sim h k
    exact ⟨c1, Step.remove h1, hsim⟩
  | RemoveOldest =>
    obtain ⟨hr, he, hg⟩ := hs
    subst hr he hg
    obtain ⟨c1, h1, hsim⟩ := RemoveOldest_sim h
    exact ⟨c1, Step.removeOldest h1, hsim⟩
  | Len =>
    obtain ⟨hr, he, hg⟩ := hs
    subst hr he hg
    exact ⟨c, Step.len (Len_sim h), Sim_refl h⟩
  | Clear =>
    obtain ⟨hr, he, hg⟩ := hs
    subst hr he
    obtain ⟨order, ho, hc⟩ := ClearIn_any h hg
    exact ⟨_, Step.clear ho hc, WF_of_nil rfl rfl, rfl, rfl, rfl, rfl⟩

/-- The recency sequence can always make a step. -/
theorem SeqStep_total (M : Int) (es : List (K × V)) (op : Op K V) :
    ∃ r es1 g, SeqStep M es op r es1 g := by
  cases op with
  | Add k v => exact ⟨_, _, _, rfl, rfl, rfl⟩
  | Get k => exact ⟨_, _, _, rfl, rfl, rfl⟩
  | Remove k => exact ⟨_, _, _, rfl, rfl, rfl⟩
  | RemoveOldest => exact ⟨_, _, _, rfl, rfl, rfl⟩
  | Len => exact ⟨_, _, _, rfl, rfl, rfl⟩
  | Clear => exact ⟨_, _, es, rfl, rfl, List.Perm.refl _⟩

theorem Step_WF {c c1 : Cache K V} {op : Op K V} {r : Ret V} (h : WF c)
    (hs : Step c op r c1) :
    WF c1 ∧ c1.MaxEntries = c.MaxEntries ∧ c1.OnEvicted = c.OnEvicted := by
  obtain ⟨g, _, hsim⟩ := Step_sound h hs
  exact ⟨hsim.1, hsim.2.1, hsim.2.2.1⟩

theorem Exec_WF {c c1 : Cache K V} {ops : List (Op K V)} {rs : List (Ret V)}
    (hs : Exec c ops rs c1) (h : WF c) :
    WF c1 ∧ c1.MaxEntries = c.MaxEntries ∧ c1.OnEvicted = c.OnEvicted := by
  induction hs with
  | nil => exact ⟨h, rfl, rfl⟩
  | cons hstep _ ih =>
    obtain ⟨h1, h2, h3⟩ := Step_WF h hstep
    obtain ⟨h4, h5, h6⟩ := ih h1
    exact ⟨h4, h5.trans h2, h6.trans h3⟩

theorem Reachable_WF {c : Cache K V} (h : Reachable c) : WF c := by
  obtain ⟨n, f, ⟨ops, rs, he⟩ | ⟨ops, rs, he⟩⟩ := h
  · exact (Exec_WF he (WF_New n f)).1
  · exact (Exec_WF he (WF_zeroValue n f)).1

/-- Two well-formed states with the same configuration and the same recency sequence
make the same calls return the same values, with the same calls of the callback. -/
theorem Exec_transfer {c c2 : Cache K V} {ops : List (Op K V)} {rs : List (Ret V)}
    (hs : Exec c ops rs c2) :
    ∀ d : Cache K V, WF c → WF d → d.MaxEntries = c.MaxEntries →
      d.OnEvicted = c.OnEvicted → entries d = entries c →
      ∃ d2 g, Exec d ops rs d2 ∧ c2.calls = c.calls ++ g ∧ d2.calls = d.calls ++ g ∧
        entries d2 = entries c2 := by
  induction hs with
  | nil =>
    intro d _ _ _ _ he
    exact ⟨d, [], Exec.nil, by simp, by simp, he⟩
  | cons hstep _ ih =>
    intro d hc hd hM hf he
    obtain ⟨g, hseq, hsim⟩ := Step_sound hc hstep
    rw [← hM, ← he] at hseq
    obtain ⟨d1, hd1, hsimd⟩ := Step_complete hd hseq
    obtain ⟨d2, g2, hex, hc2, hd2, he2⟩ := ih d1 hsim.1 hsimd.1
      (hsimd.2.1.trans (hM.trans hsim.2.1.symm))
      (hsimd.2.2.1.trans (hf.trans hsim.2.2.1.symm)) hsimd.2.2.2.1
    refine ⟨d2, emit d.OnEvicted g ++ g2, Exec.cons hd1 hex, ?_, ?_, he2⟩
    · rw [hc2, hsim.2.2.2.2, hf]
      simp
    · rw [hd2, hsimd.2.2.2.2]
      simp

/-- No sequence of calls fails on a well-formed state. -/
theorem Exec_total {c : Cache K V} (h : WF c) (ops : List (Op K V)) :
    ∃ rs c2, Exec c ops rs c2 := by
  induction ops generalizing c with
  | nil => exact ⟨[], c, Exec.nil⟩
  | cons op ops ih =>
    obtain ⟨r, es1, g, hseq⟩ := SeqStep_total c.MaxEntries (entries c) op
    obtain ⟨c1, hstep, hsim⟩ := Step_complete h hseq
    obtain ⟨rs, c2, hex⟩ := ih hsim.1
    exact ⟨r :: rs, c2, Exec.cons hstep hex⟩

end RunLemmas

/-! ## Lemmas: the operations on the recency sequence -/

section SeqLemmas

variable {K V : Type} [DecidableEq K]

theorem emit_append (f : Bool) (g1 g2 : List (K × V)) :
    emit f (g1 ++ g2) = emit f g1 ++ emit f g2 := by
  cases f <;> simp [emit]

theorem Sim_trans {c c1 c2 : Cache K V} {es1 es2 g1 g2 : List (K × V)}
    (h1 : Sim c c1 es1 g1) (h2 : Sim c1 c2 es2 g2) : Sim c c2 es2 (g1 ++ g2) := by
  obtain ⟨_, a2, a3, _, a5⟩ := h1
  obtain ⟨b1, b2, b3, b4, b5⟩ := h2
  refine ⟨b1, b2.trans a2, b3.trans a3, b4, ?_⟩
  rw [b5, a5, a3, emit_append]
  simp

theorem addAll_sim {c : Cache K V} (h : WF c) (kvs : List (K × V)) :
    ∃ c1, addAll c kvs = some c1 ∧
      Sim c c1 (seqAddAll c.MaxEntries (entries c) kvs).1
        (seqAddAll c.MaxEntries (entries c) kvs).2 := by
  induction kvs generalizing c with
  | nil => exact ⟨c, rfl, Sim_refl h⟩
  | cons p kvs ih =>
    obtain ⟨k, v⟩ := p
    obtain ⟨c1, h1, hsim⟩ := Add_sim h k v
    obtain ⟨c2, h2, hsim2⟩ := ih hsim.1
    refine ⟨c2, by simp [addAll, h1, h2], ?_⟩
    rw [hsim.2.1, hsim.2.2.2.1] at hsim2
    exact Sim_trans hsim hsim2

theorem entries_keys_nodup {c : Cache K V} (h : WF c) : ((entries c).map Prod.fst).Nodup := by
  rcases WF_cases h with ⟨hl, _⟩ | ⟨l, m, hl, _, hi⟩
  · simp [entries_of_nil hl]
  · rw [entries_of_ll hl]
    exact entriesOf_keys_nodup hi.1 hi.keyInj

theorem filter_key_length_lt {es : List (K × V)} {k : K} (h : k ∈ es.map Prod.fst) :
    (es.filter (fun q => decide (q.1 ≠ k))).length < es.length := by
  induction es with
  | nil => simp at h
  | cons p es ih =>
    by_cases hp : p.1 = k
    · simp only [List.filter_cons, hp, ne_eq, not_true_eq_false, decide_False]
      exact Nat.lt_succ_of_le (List.length_filter_le _ _)
    · have h1 : k ∈ es.map Prod.fst := by
        simp only [List.map_cons, List.mem_cons] at h
        rcases h with h | h
        · exact absurd h.symm hp
        · exact h
      simp only [List.filter_cons, hp, ne_eq, not_false_eq_true, decide_True, if_true,
        List.length_cons]
      exact Nat.succ_lt_succ (ih h1)

theorem seqAdd_length_le {M : Int} (hM : 0 < M) {es : List (K × V)} (k : K) (v : V)
    (h : (es.length : Int) ≤ M) : (((seqAdd M es k v).1).length : Int) ≤ M := by
  by_cases hin : k ∈ es.map Prod.fst
  · rw [seqAdd_hit v hin]
    have := filter_key_length_lt hin
    simp only [List.length_cons]
    omega
  · by_cases hev : M ≠ 0 ∧ ((es.length : Int) + 1 > M)
    · rw [seqAdd_evict v hin hev]
      simp only [List.length_dropLast, List.length_cons]
      omega
    · rw [seqAdd_keep v hin hev]
      simp only [List.length_cons]
      push_neg at hev
      have := hev (by omega)
      push_cast
      omega

theorem seqAddAll_length_le {M : Int} (hM : 0 < M) (kvs : List (K × V)) :
    ∀ es : List (K × V), (es.length : Int) ≤ M →
      (((seqAddAll M es kvs).1).length : Int) ≤ M := by
  induction kvs with
  | nil => intro es h; exact h
  | cons p kvs ih =>
    intro es h
    obtain ⟨k, v⟩ := p
    exact ih _ (seqAdd_length_le hM k v h)

theorem seqAddAll_append (M : Int) (xs ys : List (K × V)) :
    ∀ es : List (K × V), seqAddAll M es (xs ++ ys) =
      ((seqAddAll M (seqAddAll M es xs).1 ys).1,
        (seqAddAll M es xs).2 ++ (seqAddAll M (seqAddAll M es xs).1 ys).2) := by
  induction xs with
  | nil => intro es; simp [seqAddAll]
  | cons p xs ih =>
    intro es
    obtain ⟨k, v⟩ := p
    simp [seqAddAll, ih]

/-- Adding pairwise distinct absent keys within the capacity (or with no limit) puts
them at the front, the last one first, and evicts nothing. -/
theorem seqAddAll_fresh (M : Int) (kvs : List (K × V)) :
    ∀ es : List (K × V), (kvs.map Prod.fst).Nodup →
      (∀ k ∈ kvs.map Prod.fst, k ∉ es.map Prod.fst) →
      (M = 0 ∨ ((es.length : Int) + kvs.length ≤ M)) →
      seqAddAll M es kvs = (kvs.reverse ++ es, []) := by
  induction kvs with
  | nil => intro es _ _ _; simp [seqAddAll]
  | cons p kvs ih =>
    intro es hnd hdis hcap
    obtain ⟨k, v⟩ := p
    simp only [List.map_cons, List.nodup_cons] at hnd
    have hk : k ∉ es.map Prod.fst := hdis k (by simp)
    have hev : ¬ (M ≠ 0 ∧ ((es.length : Int) + 1 > M)) := by
      rintro ⟨h0, h1⟩
      rcases hcap with h | h
      · exact h0 h
      · simp only [List.length_cons] at h
        push_cast at h
        omega
    have hstep := seqAdd_keep v hk hev
    have ih1 := ih ((k, v) :: es) hnd.2 (by
      intro k1 hk1
      simp only [List.map_cons, List.mem_cons, not_or]
      refine ⟨?_, hdis k1 (by simp [hk1])⟩
      intro h
      subst h
      exact hnd.1 hk1) (by
      rcases hcap with h | h
      · exact Or.inl h
      · right
        simp only [List.length_cons] at h ⊢
        push_cast at h ⊢
        omega)
    simp only [seqAddAll, hstep, ih1]
    simp

theorem find_of_mem_nodup_keys {es : List (K × V)} (hnd : (es.map Prod.fst).Nodup)
    {p : K × V} (hp : p ∈ es) : es.find? (fun q => decide (q.1 = p.1)) = some p := by
  induction es with
  | nil => simp at hp
  | cons q es ih =>
    simp only [List.map_cons, List.nodup_cons] at hnd
    rcases List.mem_cons.1 hp with h | h
    · subst h
      simp
    · have hne : q.1 ≠ p.1 := by
        intro e
        apply hnd.1
        rw [e]
        exact List.mem_map_of_mem Prod.fst h
      simp only [List.find?_cons, hne, decide_False]
      exact ih hnd.2 h

theorem find_none_of_not_mem_keys {es : List (K × V)} {k : K} (h : k ∉ es.map Prod.fst) :
    es.find? (fun q => decide (q.1 = k)) = none := by
  rw [List.find?_eq_none]
  intro p hp
  simp only [decide_eq_true_eq]
  intro hpk
  exact h (by rw [List.mem_map]; exact ⟨p, hp, hpk⟩)

/-- Adding N+1 pairwise distinct keys to an empty sequence of capacity N. -/
theorem seqAddAll_overflow (N : Nat) (hN : 1 ≤ N) (k1 : K) (v1 : V) (rest : List (K × V))
    (hlen : rest.length = N) (hnd : (((k1, v1) :: rest).map Prod.fst).Nodup) :
    seqAddAll (N : Int) [] ((k1, v1) :: rest) = (rest.reverse, [(k1, v1)]) := by
  rcases List.eq_nil_or_concat rest with h | ⟨mid, p, h⟩
  · subst h
    simp at hlen
    omega
  · obtain ⟨k, v⟩ := p
    rw [List.concat_eq_append] at h
    subst h
    have hlen1 : mid.length + 1 = N := by simpa using hlen
    have hnd1 : ((((k1, v1) :: mid) ++ [(k, v)]).map Prod.fst).Nodup := by simpa using hnd
    rw [List.map_append, List.nodup_append] at hnd1
    obtain ⟨hndi, _, hdisj⟩ := hnd1
    have hinit : seqAddAll (N : Int) [] ((k1, v1) :: mid) =
        (mid.reverse ++ [(k1, v1)], []) := by
      have := seqAddAll_fresh (N : Int) ((k1, v1) :: mid) [] hndi (by simp)
        (Or.inr (by simp only [List.length_nil, List.length_cons]; push_cast; omega))
      simpa using this
    have hk : k ∉ (mid.reverse ++ [(k1, v1)]).map Prod.fst := by
      intro hmem
      apply hdisj (a := k) _ (by simp)
      simpa [or_comm] using hmem
    have hev : (N : Int) ≠ 0 ∧
        ((((mid.reverse ++ [(k1, v1)]).length : Nat) : Int) + 1 > (N : Int)) := by
      constructor
      · omega
      · simp only [List.length_append, List.length_reverse, List.length_cons,
          List.length_nil]
        push_cast
        omega
    have hlast := seqAdd_evict v hk hev
    have happ : (k1, v1) :: (mid ++ [(k, v)]) = ((k1, v1) :: mid) ++ [(k, v)] := rfl
    rw [happ, seqAddAll_append, hinit]
    simp only [seqAddAll, hlast, List.nil_append, List.append_nil]
    have hd : ((k, v) :: (mid.reverse ++ [(k1, v1)])).dropLast = (k, v) :: mid.reverse := by
      rw [← List.cons_append, List.dropLast_concat]
    have hg : ((k, v) :: (mid.reverse ++ [(k1, v1)])).getLast? = some (k1, v1) := by
      rw [← List.cons_append, List.getLast?_append]
      rfl
    rw [hd, hg]
    simp

theorem Get_miss {c : Cache K V} {k : K} (h : ¬ present c k) :
    Get c k = some ((none, false), c) := by
  obtain ⟨M, f, ll, cache, heap, calls⟩ := c
  cases cache with
  | none => rfl
  | some m =>
    simp only [present, index, Option.some_bind, Bool.not_eq_true, Option.not_isSome,
      Option.isNone_iff_eq_none] at h
    simp [Get, h]

theorem Remove_miss {c : Cache K V} {k : K} (h : ¬ present c k) : Remove c k = some c := by
  obtain ⟨M, f, ll, cache, heap, calls⟩ := c
  cases cache with
  | none => rfl
  | some m =>
    simp only [present, index, Option.some_bind, Bool.not_eq_true, Option.not_isSome,
      Option.isNone_iff_eq_none] at h
    simp [Remove, h]

theorem find_some_of_mem_keys {es : List (K × V)} {k : K} (h : k ∈ es.map Prod.fst) :
    ∃ v, es.find? (fun q => decide (q.1 = k)) = some (k, v) := by
  induction es with
  | nil => simp at h
  | cons q es ih =>
    by_cases hq : q.1 = k
    · refine ⟨q.2, ?_⟩
      simp only [List.find?_cons, hq, decide_True]
      rw [← hq]
    · have h1 : k ∈ es.map Prod.fst := by
        simp only [List.map_cons, List.mem_cons] at h
        rcases h with h | h
        · exact absurd h.symm hq
        · exact h
      obtain ⟨v, hv⟩ := ih h1
      exact ⟨v, by simp only [List.find?_cons, hq, decide_False]; exact hv⟩

theorem seqGet_hit {es : List (K × V)} {k : K} {v : V}
    (h : es.find? (fun q => decide (q.1 = k)) = some (k, v)) :
    seqGet es k = ((some v, true), (k, v) :: es.filter (fun q => decide (q.1 ≠ k))) := by
  simp [seqGet, h]

theorem seqGet_miss {es : List (K × V)} {k : K}
    (h : es.find? (fun q => decide (q.1 = k)) = none) :
    seqGet es k = ((none, false), es) := by
  simp [seqGet, h]

theorem not_mem_keys_filter {es : List (K × V)} {k k2 : K} (h : k2 ∉ es.map Prod.fst) :
    k2 ∉ (es.filter (fun q => decide (q.1 ≠ k))).map Prod.fst := by
  intro hmem
  rw [List.mem_map] at hmem
  obtain ⟨p, hp, hpk⟩ := hmem
  exact h (by rw [List.mem_map]; exact ⟨p, (List.mem_filter.1 hp).1, hpk⟩)

/-- With a capacity of at least two, adding an absent key never evicts the entry at
the front. -/
theorem seqAdd_keeps_front {M : Int} (hM : 2 ≤ M) (p : K × V) (t : List (K × V))
    {k2 : K} (v : V) (h2 : k2 ∉ (p :: t).map Prod.fst) :
    ((seqAdd M (p :: t) k2 v).1).find? (fun q => decide (q.1 = p.1)) = some p := by
  have hne : ¬ k2 = p.1 := by
    intro e
    apply h2
    simp [e]
  by_cases hev : M ≠ 0 ∧ ((((p :: t).length : Nat) : Int) + 1 > M)
  · rw [seqAdd_evict v h2 hev]
    cases t with
    | nil =>
      exfalso
      simp only [List.length_cons, List.length_nil] at hev
      omega
    | cons q t =>
      simp [List.dropLast, hne]
  · rw [seqAdd_keep v h2 hev]
    simp [hne]

theorem filter_key_eq_self {es : List (K × V)} {k : K} (h : k ∉ es.map Prod.fst) :
    es.filter (fun q => decide (q.1 ≠ k)) = es := by
  rw [List.filter_eq_self]
  intro p hp
  simp only [decide_eq_true_eq]
  intro hpk
  exact h (by rw [List.mem_map]; exact ⟨p, hp, hpk⟩)

/-- With pairwise distinct keys, the sequence splits around the one pair with key k. -/
theorem split_at_key {es : List (K × V)} (hnd : (es.map Prod.fst).Nodup) {k : K}
    (h : k ∈ es.map Prod.fst) :
    ∃ xs v ys, es = xs ++ (k, v) :: ys ∧
      es.filter (fun q => decide (q.1 ≠ k)) = xs ++ ys ∧
      es.find? (fun q => decide (q.1 = k)) = some (k, v) := by
  induction es with
  | nil => simp at h
  | cons q es ih =>
    simp only [List.map_cons, List.nodup_cons] at hnd
    by_cases hq : q.1 = k
    · obtain ⟨k0, v0⟩ := q
      simp only at hq
      subst hq
      refine ⟨[], v0, es, rfl, ?_, by simp⟩
      simp only [List.filter_cons, ne_eq, not_true_eq_false, decide_False, List.nil_append]
      exact filter_key_eq_self hnd.1
    · have h1 : k ∈ es.map Prod.fst := by
        simp only [List.map_cons, List.mem_cons] at h
        rcases h with h | h
        · exact absurd h.symm hq
        · exact h
      obtain ⟨xs, v, ys, he, hf, hfind⟩ := ih hnd.2 h1
      refine ⟨q :: xs, v, ys, by rw [he]; rfl, ?_, ?_⟩
      · simp only [List.filter_cons, ne_eq, hq, not_false_eq_true, decide_True, if_true, hf,
          List.cons_append]
      · simp only [List.find?_cons, hq, decide_False]
        exact hfind

theorem find_filter_ne (es : List (K × V)) {k k1 : K} (h : k1 ≠ k) :
    (es.filter (fun q => decide (q.1 ≠ k))).find? (fun q => decide (q.1 = k1)) =
      es.find? (fun q => decide (q.1 = k1)) := by
  induction es with
  | nil => rfl
  | cons q es ih =>
    by_cases hq : q.1 = k
    · have hq1 : ¬ q.1 = k1 := fun e => h (e.symm.trans hq)
      rw [List.filter_cons_of_neg (by simp [hq]), List.find?_cons_of_neg _ (by simp [hq1])]
      exact ih
    · rw [List.filter_cons_of_pos (by simp [hq])]
      by_cases hq1 : q.1 = k1
      · rw [List.find?_cons_of_pos _ (by simp [hq1]), List.find?_cons_of_pos _ (by simp [hq1])]
      · rw [List.find?_cons_of_neg _ (by simp [hq1]), List.find?_cons_of_neg _ (by simp [hq1])]
        exact ih

theorem mem_keys_filter (es : List (K × V)) (k k1 : K) :
    k1 ∈ (es.filter (fun q => decide (q.1 ≠ k))).map Prod.fst ↔
      k1 ≠ k ∧ k1 ∈ es.map Prod.fst := by
  simp only [List.mem_map, List.mem_filter, decide_eq_true_eq]
  constructor
  · rintro ⟨p, ⟨hp, hne⟩, hpk⟩
    exact ⟨by rw [← hpk]; exact hne, p, hp, hpk⟩
  · rintro ⟨hne, p, hp, hpk⟩
    exact ⟨p, ⟨hp, by rw [hpk]; exact hne⟩, hpk⟩

theorem mem_iff_find {es : List (K × V)} (hnd : (es.map Prod.fst).Nodup) (k : K) (v : V) :
    (k, v) ∈ es ↔ es.find? (fun q => decide (q.1 = k)) = some (k, v) := by
  constructor
  · intro h
    exact find_of_mem_nodup_keys hnd h
  · intro h
    exact List.mem_of_find?_eq_some h

/-- The pairs of the recency sequence are the keys in the index with their values. -/
theorem mem_entries_iff {c : Cache K V} (h : WF c) (k : K) (v : V) :
    (k, v) ∈ entries c ↔ stored c k = some v := by
  rw [mem_iff_find (entries_keys_nodup h), stored_eq h]
  constructor
  · intro hf
    rw [hf]
    rfl
  · intro hs
    cases hf : (entries c).find? (fun q => decide (q.1 = k)) with
    | none => rw [hf] at hs; cases hs
    | some p =>
      rw [hf] at hs
      have hp : p.1 = k := by simpa using List.find?_some hf
      obtain ⟨k0, v0⟩ := p
      simp only [Option.map_some', Option.some.injEq] at hs
      simp only at hp
      rw [hs, hp]

theorem present_of_cache_eq {c c1 : Cache K V} (h : c1.cache = c.cache) (k : K) :
    present c1 k ↔ present c k := by
  unfold present
  rw [h]

theorem stored_of_eq {c c1 : Cache K V} (h : c1.cache = c.cache) (hh : c1.heap = c.heap)
    (k : K) : stored c1 k = stored c k := by
  unfold stored
  rw [h, hh]

theorem RemoveOldest_empty {c : Cache K V} (h : c.cache = none ∨ c.ll = some []) :
    RemoveOldest c = some c := by
  obtain ⟨M, f, ll, cache, heap, calls⟩ := c
  cases cache with
  | none => rfl
  | some m =>
    rcases h with h | h
    · cases h
    · simp only at h
      subst h
      rfl

end SeqLemmas

/-! ## The example states are reachable -/

theorem exampleOne_reachable : ReachableFrom (setOnEvicted (New 2) true) exampleOne :=
  have h1 : Step (setOnEvicted (New 2) true) (Op.Add 1 10) Ret.unit exampleOne :=
    Step.add (by decide)
  ⟨[Op.Add 1 10], [Ret.unit], Exec.cons h1 Exec.nil⟩

theorem exampleTwo_reachable : ReachableFrom (setOnEvicted (New 2) true) exampleTwo :=
  have h1 : Step (setOnEvicted (New 2) true) (Op.Add 1 10) Ret.unit exampleOne :=
    Step.add (by decide)
  have h2 : Step exampleOne (Op.Add 2 20) Ret.unit exampleTwo := Step.add (by decide)
  ⟨[Op.Add 1 10, Op.Add 2 20], [Ret.unit, Ret.unit], Exec.cons h1 (Exec.cons h2 Exec.nil)⟩

theorem exampleThree_reachable : ReachableFrom (setOnEvicted (New 3) true) exampleThree :=
  have h1 : Step (setOnEvicted (New 3) true) (Op.Add 1 10) Ret.unit
      { exampleOne with MaxEntries := 3 } := Step.add (by decide)
  have h2 : Step { exampleOne with MaxEntries := 3 } (Op.Add 2 20) Ret.unit
      { exampleTwo with MaxEntries := 3 } := Step.add (by decide)
  have h3 : Step { exampleTwo with MaxEntries := 3 } (Op.Add 3 30) Ret.unit exampleThree :=
    Step.add (by decide)
  ⟨[Op.Add 1 10, Op.Add 2 20, Op.Add 3 30], [Ret.unit, Ret.unit, Ret.unit],
    Exec.cons h1 (Exec.cons h2 (Exec.cons h3 Exec.nil))⟩

theorem exampleTwo_Reachable : Reachable exampleTwo :=
  ⟨2, true, Or.inl exampleTwo_reachable⟩

theorem exampleThree_Reachable : Reachable exampleThree :=
  ⟨3, true, Or.inl exampleThree_reachable⟩

/-! ## Lemmas: a cache without a limit -/

section UnboundedLemmas

variable {K V : Type} [DecidableEq K]

theorem seqAdd_zero (es : List (K × V)) (k : K) (v : V) :
    seqAdd 0 es k v = ((k, v) :: es.filter (fun q => decide (q.1 ≠ k)), []) := by
  by_cases hin : k ∈ es.map Prod.fst
  · exact seqAdd_hit v hin
  · rw [seqAdd_keep v hin (fun h => h.1 rfl), filter_key_eq_self hin]

theorem seqAddAll_zero_gone (kvs : List (K × V)) :
    ∀ es : List (K × V), (seqAddAll 0 es kvs).2 = [] := by
  induction kvs with
  | nil => intro es; rfl
  | cons p kvs ih =>
    intro es
    obtain ⟨k, v⟩ := p
    simp [seqAddAll, seqAdd_zero, ih]

theorem seqAddAll_zero_keys (kvs : List (K × V)) :
    ∀ (es : List (K × V)) (k : K), k ∈ ((seqAddAll 0 es kvs).1).map Prod.fst ↔
      k ∈ kvs.map Prod.fst ∨ k ∈ es.map Prod.fst := by
  induction kvs with
  | nil => intro es k; simp [seqAddAll]
  | cons p kvs ih =>
    intro es k
    obtain ⟨k1, v1⟩ := p
    simp only [seqAddAll, seqAdd_zero]
    rw [ih]
    simp only [List.map_cons, List.mem_cons, mem_keys_filter]
    constructor
    · rintro (h | h | h)
      · exact Or.inl (Or.inr h)
      · exact Or.inl (Or.inl h)
      · exact Or.inr h.2
    · rintro ((h | h) | h)
      · exact Or.inr (Or.inl h)
      · exact Or.inl h
      · by_cases e : k = k1
        · exact Or.inr (Or.inl e)
        · exact Or.inr (Or.inr ⟨e, h⟩)

theorem seqAddAll_zero_find_keep (kvs : List (K × V)) {k : K}
    (h : k ∉ kvs.map Prod.fst) :
    ∀ es : List (K × V), ((seqAddAll 0 es kvs).1).find? (fun q => decide (q.1 = k)) =
      es.find? (fun q => decide (q.1 = k)) := by
  induction kvs with
  | nil => intro es; rfl
  | cons p kvs ih =>
    intro es
    obtain ⟨k1, v1⟩ := p
    simp only [List.map_cons, List.mem_cons, not_or] at h
    have hne : k ≠ k1 := h.1
    have hne1 : ¬ k1 = k := fun e => hne e.symm
    simp only [seqAddAll, seqAdd_zero]
    rw [ih h.2, List.find?_cons_of_neg _ (by simp [hne1]), find_filter_ne _ hne]

theorem seqAddAll_zero_find (xs ys : List (K × V)) (k : K) (v : V)
    (h : k ∉ ys.map Prod.fst) (es : List (K × V)) :
    ((seqAddAll 0 es (xs ++ (k, v) :: ys)).1).find? (fun q => decide (q.1 = k)) =
      some (k, v) := by
  rw [seqAddAll_append]
  simp only [seqAddAll, seqAdd_zero]
  rw [seqAddAll_zero_find_keep ys h]
  simp

end UnboundedLemmas

/-! ## Lemmas: one Add on the recency sequence -/

section AddLemmas

variable {K V : Type} [DecidableEq K]

/-- Add evicts at most one pair, and only the last one of the sequence after the
insertion. -/
theorem seqAdd_gone (M : Int) (es : List (K × V)) (k : K) (v : V) :
    ((seqAdd M es k v).2 = [] ∧
        ¬ (k ∉ es.map Prod.fst ∧ M ≠ 0 ∧ ((es.length : Int) + 1 > M))) ∨
      ((k ∉ es.map Prod.fst ∧ M ≠ 0 ∧ ((es.length : Int) + 1 > M)) ∧
        ∃ p, ((k, v) :: es).getLast? = some p ∧ (seqAdd M es k v).2 = [p] ∧
          (seqAdd M es k v).1 = ((k, v) :: es).dropLast) := by
  by_cases hin : k ∈ es.map Prod.fst
  · left
    rw [seqAdd_hit v hin]
    exact ⟨rfl, fun h => h.1 hin⟩
  · by_cases hev : M ≠ 0 ∧ ((es.length : Int) + 1 > M)
    · right
      rw [seqAdd_evict v hin hev]
      refine ⟨⟨hin, hev⟩, ((k, v) :: es).getLast (by simp), ?_, ?_, rfl⟩
      · exact List.getLast?_eq_getLast _ (by simp)
      · rw [List.getLast?_eq_getLast _ (by simp)]
        rfl
    · left
      rw [seqAdd_keep v hin hev]
      exact ⟨rfl, fun h => hev h.2⟩

/-- With a capacity that is not negative, Add keeps the pair it adds at the front. -/
theorem seqAdd_find_self {M : Int} (hM : 0 ≤ M) (es : List (K × V)) (k : K) (v : V) :
    ((seqAdd M es k v).1).find? (fun q => decide (q.1 = k)) = some (k, v) := by
  by_cases hin : k ∈ es.map Prod.fst
  · rw [seqAdd_hit v hin]
    simp
  · by_cases hev : M ≠ 0 ∧ ((es.length : Int) + 1 > M)
    · rw [seqAdd_evict v hin hev]
      cases es with
      | nil =>
        exfalso
        simp only [List.length_nil] at hev
        omega
      | cons q t => simp [List.dropLast]
    · rw [seqAdd_keep v hin hev]
      simp

/-- With a negative capacity, Add on the empty sequence evicts the pair it adds. -/
theorem seqAdd_negative {M : Int} (hM : M < 0) (k : K) (v : V) :
    seqAdd M ([] : List (K × V)) k v = ([], [(k, v)]) := by
  rw [seqAdd_evict v (by simp) ⟨by omega, by simp only [List.length_nil]; omega⟩]
  rfl

theorem seqAddAll_negative {M : Int} (hM : M < 0) (kvs : List (K × V)) :
    seqAddAll M ([] : List (K × V)) kvs = ([], kvs) := by
  induction kvs with
  | nil => rfl
  | cons p kvs ih =>
    obtain ⟨k, v⟩ := p
    simp [seqAddAll, seqAdd_negative hM, ih]

end AddLemmas

/-! ## Lemmas: what a call reports to the callback -/

section ReportLemmas

variable {K V : Type} [DecidableEq K]

theorem split_last {es : List (K × V)} (hnd : (es.map Prod.fst).Nodup) (hne : es ≠ []) :
    ∃ xs q, es = xs ++ [q] ∧ es.dropLast = xs ∧ es.getLast? = some q ∧
      q.1 ∉ xs.map Prod.fst := by
  rcases List.eq_nil_or_concat es with h | ⟨xs, q, h⟩
  · exact absurd h hne
  · rw [List.concat_eq_append] at h
    subst h
    refine ⟨xs, q, rfl, List.dropLast_concat, by simp, ?_⟩
    rw [List.map_append, List.nodup_append] at hnd
    intro hmem
    exact hnd.2.2 hmem (by simp)

/-- The pairs a call reports: their number, that no key is reported twice, that a
reported key is absent afterwards, that every key that disappears is reported, and that
a reported pair was in the sequence before the call, unless the capacity is negative
and the pair is the one being added. -/
theorem SeqStep_report {M : Int} {es es1 g : List (K × V)} {op : Op K V} {r : Ret V}
    (hnd : (es.map Prod.fst).Nodup) (hs : SeqStep M es op r es1 g) :
    es1.length + g.length = es.length + seqInserts es op ∧
    (g.map Prod.fst).Nodup ∧
    (∀ p ∈ g, p.1 ∉ es1.map Prod.fst) ∧
    (∀ k ∈ es.map Prod.fst, k ∉ es1.map Prod.fst → k ∈ g.map Prod.fst) ∧
    (∀ p ∈ g, p ∈ es ∨ (M < 0 ∧ op = Op.Add p.1 p.2 ∧ p.1 ∉ es.map Prod.fst)) := by
  cases op with
  | Add k v =>
    obtain ⟨_, he, hg⟩ := hs
    by_cases hin : k ∈ es.map Prod.fst
    · rw [seqAdd_hit v hin] at he hg
      subst he hg
      obtain ⟨xs, v0, ys, hsplit, hfil, _⟩ := split_at_key hnd hin
      refine ⟨?_, by simp, by simp, ?_, by simp⟩
      · simp only [seqInserts, hin, if_true, hfil]
        rw [hsplit]
        simp only [List.length_cons, List.length_append, List.length_nil]
        omega
      · intro k1 hk1 hn
        exfalso
        apply hn
        simp only [List.map_cons, List.mem_cons, mem_keys_filter]
        by_cases e : k1 = k
        · exact Or.inl e
        · exact Or.inr ⟨e, hk1⟩
    · by_cases hev : M ≠ 0 ∧ ((es.length : Int) + 1 > M)
      · rw [seqAdd_evict v hin hev] at he hg
        have hndL : ((((k, v) :: es) : List (K × V)).map Prod.fst).Nodup := by
          simp only [List.map_cons, List.nodup_cons]
          exact ⟨hin, hnd⟩
        obtain ⟨xs, q, hL, hdrop, hlast, hq⟩ := split_last hndL (by simp)
        rw [hdrop] at he
        rw [hlast] at hg
        subst he hg
        have hlen : es1.length = es.length := by
          have := congrArg List.length hL
          simp only [List.length_cons, List.length_append, List.length_nil] at this
          omega
        refine ⟨?_, by simp, ?_, ?_, ?_⟩
        · simp only [seqInserts, hin, if_false, Option.toList, List.length_cons,
            List.length_nil, hlen]
        · intro p hp
          simp only [Option.toList, List.mem_singleton] at hp
          subst hp
          exact hq
        · intro k1 hk1 hn
          have hk1L : k1 ∈ (((k, v) :: es) : List (K × V)).map Prod.fst := by
            simp only [List.map_cons, List.mem_cons]
            exact Or.inr hk1
          rw [hL, List.map_append, List.mem_append] at hk1L
          rcases hk1L with h | h
          · exact absurd h hn
          · simpa [Option.toList] using h
        · intro p hp
          simp only [Option.toList, List.mem_singleton] at hp
          subst hp
          have hpL : p ∈ ((k, v) :: es : List (K × V)) := by rw [hL]; simp
          rcases List.mem_cons.1 hpL with h | h
          · right
            subst h
            cases es1 with
            | nil =>
              have hes : es = [] := by
                have := congrArg List.length hL
                simp only [List.length_cons, List.length_append, List.length_nil] at this
                exact List.length_eq_zero.1 (by omega)
              subst hes
              simp only [List.length_nil] at hev
              exact ⟨by omega, rfl, by simp⟩
            | cons x xs =>
              exfalso
              simp only [List.cons_append, List.cons.injEq] at hL
              apply hq
              rw [← hL.1]
              simp
          · exact Or.inl h
      · rw [seqAdd_keep v hin hev] at he hg
        subst he hg
        refine ⟨by simp [seqInserts, hin], by simp, by simp, ?_, by simp⟩
        intro k1 hk1 hn
        exfalso
        apply hn
        simp only [List.map_cons, List.mem_cons]
        exact Or.inr hk1
  | Get k =>
    obtain ⟨_, he, hg⟩ := hs
    subst hg
    by_cases hin : k ∈ es.map Prod.fst
    · obtain ⟨xs, v0, ys, hsplit, hfil, hfind⟩ := split_at_key hnd hin
      rw [seqGet_hit hfind] at he
      subst he
      refine ⟨?_, by simp, by simp, ?_, by simp⟩
      · simp only [seqInserts, hfil]
        rw [hsplit]
        simp only [List.length_cons, List.length_append, List.length_nil]
        omega
      · intro k1 hk1 hn
        exfalso
        apply hn
        simp only [List.map_cons, List.mem_cons, mem_keys_filter]
        by_cases e : k1 = k
        · exact Or.inl e
        · exact Or.inr ⟨e, hk1⟩
    · rw [seqGet_miss (find_none_of_not_mem_keys hin)] at he
      subst he
      exact ⟨by simp [seqInserts], by simp, by simp, fun k1 hk1 hn => absurd hk1 hn,
        by simp⟩
  | Remove k =>
    obtain ⟨_, he, hg⟩ := hs
    simp only [seqRemove] at he hg
    by_cases hin : k ∈ es.map Prod.fst
    · obtain ⟨xs, v0, ys, hsplit, hfil, hfind⟩ := split_at_key hnd hin
      rw [hfil] at he
      rw [hfind] at hg
      subst he hg
      refine ⟨?_, by simp, ?_, ?_, ?_⟩
      · simp only [seqInserts, Option.toList, List.length_cons, List.length_nil]
        rw [hsplit]
        simp only [List.length_cons, List.length_append, List.length_nil]
        omega
      · intro p hp
        simp only [Option.toList, List.mem_singleton] at hp
        subst hp
        rw [← hfil, mem_keys_filter]
        exact fun h => h.1 rfl
      · intro k1 hk1 hn
        rw [← hfil, mem_keys_filter] at hn
        by_cases e : k1 = k
        · simp [Option.toList, e]
        · exact absurd ⟨e, hk1⟩ hn
      · intro p hp
        simp only [Option.toList, List.mem_singleton] at hp
        subst hp
        left
        rw [hsplit]
        simp
    · rw [filter_key_eq_self hin] at he
      rw [find_none_of_not_mem_keys hin] at hg
      subst he hg
      exact ⟨by simp [seqInserts, Option.toList], by simp [Option.toList],
        by simp [Option.toList], fun k1 hk1 hn => absurd hk1 hn, by simp [Option.toList]⟩
  | RemoveOldest =>
    obtain ⟨_, he, hg⟩ := hs
    simp only [seqRemoveOldest] at he hg
    by_cases hne : es = []
    · subst hne
      subst he hg
      exact ⟨by simp [seqInserts, Option.toList], by simp [Option.toList],
        by simp [Option.toList], by simp, by simp [Option.toList]⟩
    · obtain ⟨xs, q, hL, hdrop, hlast, hq⟩ := split_last hnd hne
      rw [hdrop] at he
      rw [hlast] at hg
      subst he hg
      refine ⟨?_, by simp, ?_, ?_, ?_⟩
      · simp only [seqInserts, Option.toList, List.length_cons, List.length_nil]
        rw [hL]
        simp
      · intro p hp
        simp only [Option.toList, List.mem_singleton] at hp
        subst hp
        exact hq
      · intro k1 hk1 hn
        rw [hL, List.map_append, List.mem_append] at hk1
        rcases hk1 with h | h
        · exact absurd h hn
        · simpa [Option.toList] using h
      · intro p hp
        simp only [Option.toList, List.mem_singleton] at hp
        subst hp
        left
        rw [hL]
        simp
  | Len =>
    obtain ⟨_, he, hg⟩ := hs
    subst he hg
    exact ⟨by simp [seqInserts], by simp, by simp, fun k1 hk1 hn => absurd hk1 hn, by simp⟩
  | Clear =>
    obtain ⟨_, he, hg⟩ := hs
    subst he
    refine ⟨by simp [seqInserts, hg.length_eq], ((hg.map Prod.fst).nodup_iff).2 hnd,
      by simp, ?_, ?_⟩
    · intro k1 hk1 _
      exact ((hg.map Prod.fst).mem_iff).2 hk1
    · intro p hp
      exact Or.inl (hg.mem_iff.1 hp)

theorem inserts_eq {c : Cache K V} (h : WF c) (op : Op K V) :
    inserts c op = seqInserts (entries c) op := by
  cases op with
  | Add k v =>
    simp only [inserts, seqInserts]
    by_cases hp : present c k
    · rw [if_pos hp, if_pos ((present_iff h k).1 hp)]
    · rw [if_neg hp, if_neg (fun hk => hp ((present_iff h k).2 hk))]
  | Get k => rfl
  | Remove k => rfl
  | RemoveOldest => rfl
  | Len => rfl
  | Clear => rfl

/-- What one call on a well-formed state reports to the callback. -/
theorem Step_report {c c1 : Cache K V} {op : Op K V} {r : Ret V} (h : WF c)
    (hs : Step c op r c1) :
    ∃ g, Sim c c1 (entries c1) g ∧
      (entries c1).length + g.length = (entries c).length + inserts c op ∧
      (g.map Prod.fst).Nodup ∧
      (∀ k v, (k, v) ∈ g → ¬ present c1 k) ∧
      (∀ k, present c k → ¬ present c1 k → ∃ v, (k, v) ∈ g) ∧
      (∀ k v, (k, v) ∈ g → stored c k = some v ∨
        (c.MaxEntries < 0 ∧ op = Op.Add k v ∧ ¬ present c k)) := by
  obtain ⟨g, hseq, hsim⟩ := Step_sound h hs
  obtain ⟨h1, h2, h3, h4, h5⟩ := SeqStep_report (entries_keys_nodup h) hseq
  have hwf1 := hsim.1
  refine ⟨g, hsim, by rw [inserts_eq h]; exact h1, h2, ?_, ?_, ?_⟩
  · intro k v hkv
    rw [present_iff hwf1]
    exact h3 (k, v) hkv
  · intro k hk hk1
    rw [present_iff h] at hk
    rw [present_iff hwf1] at hk1
    have := h4 k hk hk1
    rw [List.mem_map] at this
    obtain ⟨p, hp, hpk⟩ := this
    obtain ⟨k0, v0⟩ := p
    simp only at hpk
    subst hpk
    exact ⟨v0, hp⟩
  · intro k v hkv
    rcases h5 (k, v) hkv with hin | ⟨hM, hop, hk⟩
    · exact Or.inl ((mem_entries_iff h k v).1 hin)
    · exact Or.inr ⟨hM, hop, fun hp => hk ((present_iff h k).1 hp)⟩

theorem ExecCount_Exec {c c2 : Cache K V} {ops : List (Op K V)} {m : Nat}
    (hex : ExecCount c ops m c2) : ∃ rs, Exec c ops rs c2 := by
  induction hex with
  | nil => exact ⟨[], Exec.nil⟩
  | cons hstep _ ih =>
    obtain ⟨rs, hrs⟩ := ih
    exact ⟨_ :: rs, Exec.cons hstep hrs⟩

/-- With a callback set, the calls of the callback and the entries still present
account for all insertions. -/
theorem ExecCount_balance {c c2 : Cache K V} {ops : List (Op K V)} {m : Nat}
    (hex : ExecCount c ops m c2) (h : WF c) (hf : c.OnEvicted = true) :
    c2.calls.length + (entries c2).length = c.calls.length + (entries c).length + m := by
  induction hex with
  | nil => rfl
  | cons hstep _ ih =>
    obtain ⟨g, hsim, hcount, _⟩ := Step_report h hstep
    obtain ⟨hwf1, _, hf1, _, hcalls⟩ := hsim
    have := ih hwf1 (hf1.trans hf)
    rw [hf] at hcalls
    simp only [emit, if_true] at hcalls
    rw [this, hcalls, List.length_append]
    omega

theorem exampleTwo_count :
    ExecCount (setOnEvicted (New 2) true) [Op.Add 1 10, Op.Add 2 20] 2 exampleTwo :=
  have h1 : Step (setOnEvicted (New 2) true) (Op.Add 1 10) Ret.unit exampleOne :=
    Step.add (by decide)
  have h2 : Step exampleOne (Op.Add 2 20) Ret.unit exampleTwo := Step.add (by decide)
  ExecCount.cons h1 (ExecCount.cons h2 ExecCount.nil)

theorem exampleEvicted_step : Step exampleTwo (Op.Add 3 30) Ret.unit exampleEvicted :=
  Step.add (by decide)

end ReportLemmas

/-! ## Lemmas: where a present key comes from -/

section OriginLemmas

variable {K V : Type} [DecidableEq K]

theorem Get_found_iff {c : Cache K V} (h : WF c) (k : K) :
    (∃ v c1, Get c k = some ((v, true), c1)) ↔ present c k := by
  constructor
  · rintro ⟨v, c1, hg⟩
    by_contra hn
    rw [Get_miss hn] at hg
    simp at hg
  · intro hp
    obtain ⟨x, hx⟩ := find_some_of_mem_keys ((present_iff h k).1 hp)
    obtain ⟨c1, hg, _⟩ := Get_sim h k
    rw [seqGet_hit hx] at hg
    exact ⟨some x, c1, hg⟩

theorem Len_empty {d : Cache K V} (h : d.cache = none ∨ d.ll = some []) : Len d = some 0 := by
  obtain ⟨M, f, ll, cache, heap, calls⟩ := d
  cases cache with
  | none => rfl
  | some m =>
    rcases h with h | h
    · cases h
    · simp only at h
      subst h
      rfl

theorem seqAdd_keys_subset {M : Int} {es : List (K × V)} {k k1 : K} {v : V}
    (h : k ∈ ((seqAdd M es k1 v).1).map Prod.fst) : k = k1 ∨ k ∈ es.map Prod.fst := by
  by_cases hin : k1 ∈ es.map Prod.fst
  · rw [seqAdd_hit v hin] at h
    simp only [List.map_cons, List.mem_cons, mem_keys_filter] at h
    rcases h with h | h
    · exact Or.inl h
    · exact Or.inr h.2
  · have hsub : ∀ l : List (K × V), k ∈ l.dropLast.map Prod.fst → k ∈ l.map Prod.fst :=
      fun l hl => (List.Sublist.map Prod.fst (List.dropLast_sublist l)).subset hl
    by_cases hev : M ≠ 0 ∧ ((es.length : Int) + 1 > M)
    · rw [seqAdd_evict v hin hev] at h
      simpa using hsub _ h
    · rw [seqAdd_keep v hin hev] at h
      simpa using h

/-- Only an Add of the key k makes the key k present. -/
theorem Step_new_key {c c1 : Cache K V} {op : Op K V} {r : Ret V} {k : K} (h : WF c)
    (hs : Step c op r c1) (h1 : present c1 k) (h0 : ¬ present c k) :
    ∃ v, op = Op.Add k v := by
  obtain ⟨g, hseq, hsim⟩ := Step_sound h hs
  rw [present_iff hsim.1] at h1
  rw [present_iff h] at h0
  cases op with
  | Add k1 v =>
    obtain ⟨_, he, _⟩ := hseq
    rw [he] at h1
    rcases seqAdd_keys_subset h1 with e | e
    · exact ⟨v, by rw [e]⟩
    · exact absurd e h0
  | Get k1 =>
    obtain ⟨_, he, _⟩ := hseq
    rw [he] at h1
    exfalso
    by_cases hin : k1 ∈ (entries c).map Prod.fst
    · obtain ⟨x, hx⟩ := find_some_of_mem_keys hin
      rw [seqGet_hit hx] at h1
      simp only [List.map_cons, List.mem_cons, mem_keys_filter] at h1
      rcases h1 with e | e
      · exact h0 (by rw [e]; exact hin)
      · exact h0 e.2
    · rw [seqGet_miss (find_none_of_not_mem_keys hin)] at h1
      exact h0 h1
  | Remove k1 =>
    obtain ⟨_, he, _⟩ := hseq
    rw [he] at h1
    simp only [seqRemove, mem_keys_filter] at h1
    exact absurd h1.2 h0
  | RemoveOldest =>
    obtain ⟨_, he, _⟩ := hseq
    rw [he] at h1
    exact absurd ((List.Sublist.map Prod.fst (List.dropLast_sublist _)).subset h1) h0
  | Len =>
    obtain ⟨_, he, _⟩ := hseq
    rw [he] at h1
    exact absurd h1 h0
  | Clear =>
    obtain ⟨_, he, _⟩ := hseq
    rw [he] at h1
    simp at h1

theorem Exec_snoc {c c1 c2 : Cache K V} {ops : List (Op K V)} {rs : List (Ret V)}
    {op : Op K V} {r : Ret V} (hex : Exec c ops rs c1) (hs : Step c1 op r c2) :
    Exec c (ops ++ [op]) (rs ++ [r]) c2 := by
  induction hex with
  | nil => exact Exec.cons hs Exec.nil
  | cons hstep _ ih => exact Exec.cons hstep (ih hs)

theorem Exec_snoc_inv {ops : List (Op K V)} {op : Op K V} :
    ∀ {c c2 : Cache K V} {rs : List (Ret V)}, Exec c (ops ++ [op]) rs c2 →
      ∃ rs1 r c1, Exec c ops rs1 c1 ∧ Step c1 op r c2 ∧ rs = rs1 ++ [r] := by
  induction ops with
  | nil =>
    intro c c2 rs hex
    cases hex with
    | cons hstep hrest =>
      cases hrest with
      | nil => exact ⟨[], _, c, Exec.nil, hstep, rfl⟩
  | cons o ops ih =>
    intro c c2 rs hex
    cases hex with
    | cons hstep hrest =>
      obtain ⟨rs1, r, c1, h1, h2, h3⟩ := ih hrest
      exact ⟨_ :: rs1, r, c1, Exec.cons hstep h1, h2, by rw [h3]; rfl⟩

theorem ExecKeeps_snoc {k : K} {c c1 c2 : Cache K V} {ops : List (Op K V)}
    {op : Op K V} {r : Ret V} (hex : ExecKeeps k c ops c1) (hs : Step c1 op r c2)
    (hp : present c2 k) : ExecKeeps k c (ops ++ [op]) c2 := by
  induction hex with
  | nil h0 => exact ExecKeeps.cons h0 hs (ExecKeeps.nil hp)
  | cons h0 hstep _ ih => exact ExecKeeps.cons h0 hstep (ih hs)

/-- A key present after a sequence of calls on a state with no entries was added by an
Add of the sequence and has been present ever since. -/
theorem present_origin {c0 : Cache K V} (hwf0 : WF c0) (he0 : entries c0 = []) {k : K}
    (ops : List (Op K V)) :
    ∀ (rs : List (Ret V)) (c : Cache K V), Exec c0 ops rs c → present c k →
      ∃ ops1 rs1 cb v r ca ops2, ops = ops1 ++ Op.Add k v :: ops2 ∧ Exec c0 ops1 rs1 cb ∧
        Step cb (Op.Add k v) r ca ∧ ExecKeeps k ca ops2 c := by
  induction ops using List.reverseRecOn with
  | nil =>
    intro rs c hex hp
    cases hex with
    | nil =>
      rw [present_iff hwf0, he0] at hp
      simp at hp
  | append_singleton ops op ih =>
    intro rs c hex hp
    obtain ⟨rs1, r, c1, hex1, hstep, _⟩ := Exec_snoc_inv hex
    have hwf1 := (Exec_WF hex1 hwf0).1
    by_cases hp1 : present c1 k
    · obtain ⟨ops1, rs0, cb, v, r0, ca, ops2, hops, hpre, hadd, hkeep⟩ := ih rs1 c1 hex1 hp1
      refine ⟨ops1, rs0, cb, v, r0, ca, ops2 ++ [op], ?_, hpre, hadd,
        ExecKeeps_snoc hkeep hstep hp⟩
      rw [hops]
      simp
    · obtain ⟨v, hop⟩ := Step_new_key hwf1 hstep hp hp1
      subst hop
      exact ⟨ops, rs1, c1, v, r, c, [], rfl, hex1, hstep, ExecKeeps.nil hp⟩

theorem exampleTwo_exec :
    Exec (setOnEvicted (New 2) true) [Op.Add 1 10, Op.Add 2 20] [Ret.unit, Ret.unit]
      exampleTwo :=
  have h1 : Step (setOnEvicted (New 2) true) (Op.Add 1 10) Ret.unit exampleOne :=
    Step.add (by decide)
  have h2 : Step exampleOne (Op.Add 2 20) Ret.unit exampleTwo := Step.add (by decide)
  Exec.cons h1 (Exec.cons h2 Exec.nil)

end OriginLemmas

/-! ## Lemmas: the recency sequence and the times of access -/

section TimeLemmas

variable {K V : Type} [DecidableEq K]

theorem lastAccess_snoc (h : List (Op K V × Ret V)) (x : Op K V × Ret V) (k : K) :
    lastAccess (h ++ [x]) k = if accessed k x = true then some h.length else lastAccess h k := by
  simp [lastAccess, lastAccessRev]

theorem lastAccessRev_lt (k : K) (h : List (Op K V × Ret V)) :
    ∀ i, lastAccessRev k h = some i → i < h.length := by
  induction h with
  | nil => intro i hi; simp [lastAccessRev] at hi
  | cons x older ih =>
    intro i hi
    simp only [lastAccessRev] at hi
    by_cases hx : accessed k x = true
    · rw [if_pos hx] at hi
      cases hi
      simp
    · rw [if_neg hx] at hi
      have := ih i hi
      simp only [List.length_cons]
      omega

theorem lastAccess_lt {h : List (Op K V × Ret V)} {k : K} {i : Nat}
    (hi : lastAccess h k = some i) : i < h.length := by
  have := lastAccessRev_lt k h.reverse i hi
  simpa using this

theorem accessed_add (k k1 : K) (v : V) (r : Ret V) :
    accessed k1 (Op.Add k v, r) = decide (k = k1) := rfl

theorem accessed_get_hit (k k1 : K) (x : Option V) :
    accessed k1 ((Op.Get k : Op K V), Ret.value x true) = decide (k = k1) := rfl

theorem accessed_get_miss (k k1 : K) (x : Option V) :
    accessed k1 ((Op.Get k : Op K V), Ret.value x false) = false := rfl

theorem accessed_remove (k k1 : K) (r : Ret V) :
    accessed k1 ((Op.Remove k : Op K V), r) = false := rfl

theorem accessed_removeOldest (k1 : K) (r : Ret V) :
    accessed k1 ((Op.RemoveOldest : Op K V), r) = false := rfl

theorem accessed_len (k1 : K) (r : Ret V) :
    accessed k1 ((Op.Len : Op K V), r) = false := rfl

theorem TimeOrdered_nil (h : List (Op K V × Ret V)) : TimeOrdered h ([] : List (K × V)) :=
  ⟨by simp, List.Pairwise.nil⟩

theorem TimeOrdered.sublist {h : List (Op K V × Ret V)} {es es1 : List (K × V)}
    (ht : TimeOrdered h es) (hs : es1.Sublist es) : TimeOrdered h es1 :=
  ⟨fun p hp => ht.1 p (hs.subset hp), ht.2.sublist hs⟩

/-- A call that accesses no key leaves the times of the most recent accesses as they
are. -/
theorem TimeOrdered_quiet {h : List (Op K V × Ret V)} {es : List (K × V)}
    {x : Op K V × Ret V} (hx : ∀ k : K, accessed k x = false) (ht : TimeOrdered h es) :
    TimeOrdered (h ++ [x]) es := by
  have heq : ∀ k : K, lastAccess (h ++ [x]) k = lastAccess h k := by
    intro k
    rw [lastAccess_snoc, hx k]
    simp
  refine ⟨fun p hp => by rw [heq]; exact ht.1 p hp, ?_⟩
  refine ht.2.imp ?_
  intro p q hpq
  rw [heq, heq]
  exact hpq

/-- A call that accesses exactly the key k, which goes to the front. -/
theorem TimeOrdered_touch {h : List (Op K V × Ret V)} {rest : List (K × V)}
    {x : Op K V × Ret V} {k : K} (v : V) (hx : ∀ k1 : K, accessed k1 x = decide (k = k1))
    (hk : k ∉ rest.map Prod.fst) (ht : TimeOrdered h rest) :
    TimeOrdered (h ++ [x]) ((k, v) :: rest) := by
  have hself : lastAccess (h ++ [x]) k = some h.length := by
    rw [lastAccess_snoc, hx k]
    simp
  have hother : ∀ p ∈ rest, lastAccess (h ++ [x]) p.1 = lastAccess h p.1 := by
    intro p hp
    have hne : ¬ k = p.1 := by
      intro e
      apply hk
      rw [e]
      exact List.mem_map_of_mem Prod.fst hp
    rw [lastAccess_snoc, hx p.1]
    simp [hne]
  constructor
  · intro p hp
    rcases List.mem_cons.1 hp with e | e
    · subst e
      exact ⟨h.length, hself⟩
    · rw [hother p e]
      exact ht.1 p e
  · rw [List.pairwise_cons]
    constructor
    · intro q hq
      obtain ⟨j, hj⟩ := ht.1 q hq
      exact ⟨h.length, j, hself, by rw [hother q hq]; exact hj, lastAccess_lt hj⟩
    · have hpw : rest.Pairwise (fun p q => p ∈ rest ∧ q ∈ rest ∧
          ∃ i j, lastAccess h p.1 = some i ∧ lastAccess h q.1 = some j ∧ j < i) := by
        rw [List.pairwise_iff_forall_sublist]
        intro p q hsub
        have hp : p ∈ rest := hsub.subset (by simp)
        have hq : q ∈ rest := hsub.subset (by simp)
        exact ⟨hp, hq, (List.pairwise_iff_forall_sublist.1 ht.2) hsub⟩
      refine hpw.imp ?_
      rintro p q ⟨hp, hq, hpq⟩
      rw [hother p hp, hother q hq]
      exact hpq

/-- Every call keeps the recency sequence in the order of the times of the most
recent accesses. -/
theorem SeqStep_timeOrdered {M : Int} {es es1 g : List (K × V)} {op : Op K V} {r : Ret V}
    {h : List (Op K V × Ret V)} (hs : SeqStep M es op r es1 g) (ht : TimeOrdered h es) :
    TimeOrdered (h ++ [(op, r)]) es1 := by
  cases op with
  | Add k v =>
    obtain ⟨_, he, _⟩ := hs
    subst he
    by_cases hin : k ∈ es.map Prod.fst
    · rw [seqAdd_hit v hin]
      refine TimeOrdered_touch v (accessed_add k · v r) ?_ (ht.sublist (List.filter_sublist _))
      rw [mem_keys_filter]
      exact fun hh => hh.1 rfl
    · have hfull : TimeOrdered (h ++ [(Op.Add k v, r)]) ((k, v) :: es) :=
        TimeOrdered_touch v (accessed_add k · v r) hin ht
      by_cases hev : M ≠ 0 ∧ ((es.length : Int) + 1 > M)
      · rw [seqAdd_evict v hin hev]
        exact hfull.sublist (List.dropLast_sublist _)
      · rw [seqAdd_keep v hin hev]
        exact hfull
  | Get k =>
    obtain ⟨hr, he, _⟩ := hs
    subst he hr
    by_cases hin : k ∈ es.map Prod.fst
    · obtain ⟨x, hx⟩ := find_some_of_mem_keys hin
      rw [seqGet_hit hx]
      refine TimeOrdered_touch x (accessed_get_hit k · (some x)) ?_
        (ht.sublist (List.filter_sublist _))
      rw [mem_keys_filter]
      exact fun hh => hh.1 rfl
    · rw [seqGet_miss (find_none_of_not_mem_keys hin)]
      exact TimeOrdered_quiet (accessed_get_miss k · none) ht
  | Remove k =>
    obtain ⟨_, he, _⟩ := hs
    subst he
    exact (TimeOrdered_quiet (accessed_remove k · r) ht).sublist (List.filter_sublist _)
  | RemoveOldest =>
    obtain ⟨_, he, _⟩ := hs
    subst he
    exact (TimeOrdered_quiet (accessed_removeOldest · r) ht).sublist
      (List.dropLast_sublist _)
  | Len =>
    obtain ⟨_, he, _⟩ := hs
    subst he
    exact TimeOrdered_quiet (accessed_len · r) ht
  | Clear =>
    obtain ⟨_, he, _⟩ := hs
    subst he
    exact TimeOrdered_nil _

theorem Exec_timeOrdered {c c2 : Cache K V} {ops : List (Op K V)} {rs : List (Ret V)}
    (hex : Exec c ops rs c2) :
    ∀ h : List (Op K V × Ret V), WF c → TimeOrdered h (entries c) →
      TimeOrdered (h ++ ops.zip rs) (entries c2) := by
  induction hex with
  | nil => intro h _ ht; simpa using ht
  | cons hstep _ ih =>
    intro h hwf ht
    obtain ⟨g, hseq, hsim⟩ := Step_sound hwf hstep
    have := ih (h ++ [(_, _)]) hsim.1 (SeqStep_timeOrdered hseq ht)
    simpa using this

/-- The last pair of a sequence in the order of the times of access is the one whose
most recent access is the earliest. -/
theorem TimeOrdered_last_min {h : List (Op K V × Ret V)} {xs : List (K × V)} {q : K × V}
    (ht : TimeOrdered h (xs ++ [q])) :
    ∃ ib, lastAccess h q.1 = some ib ∧
      ∀ p ∈ xs ++ [q], ∃ i, lastAccess h p.1 = some i ∧ ib ≤ i := by
  obtain ⟨ib, hib⟩ := ht.1 q (by simp)
  refine ⟨ib, hib, ?_⟩
  intro p hp
  rcases List.mem_append.1 hp with hpx | hpq
  · have hpw := List.pairwise_append.1 ht.2
    obtain ⟨i, j, hi, hj, hlt⟩ := hpw.2.2 p hpx q (by simp)
    rw [hib] at hj
    cases hj
    exact ⟨i, hi, Nat.le_of_lt hlt⟩
  · simp only [List.mem_singleton] at hpq
    subst hpq
    exact ⟨ib, hib, Nat.le_refl _⟩

/-- The key that disappears when the last pair of a sequence in the order of the times
of access is dropped is the one whose most recent access is the earliest. -/
theorem TimeOrdered_dropLast_min {h : List (Op K V × Ret V)} {es : List (K × V)}
    (hnd : (es.map Prod.fst).Nodup) (ht : TimeOrdered h es) {kb : K}
    (hin : kb ∈ es.map Prod.fst) (hout : kb ∉ es.dropLast.map Prod.fst) :
    ∃ ib, lastAccess h kb = some ib ∧
      ∀ k1 ∈ es.map Prod.fst, ∃ i, lastAccess h k1 = some i ∧ ib ≤ i := by
  have hne : es ≠ [] := by
    intro e
    rw [e] at hin
    simp at hin
  obtain ⟨xs, q, hL, hdrop, _, _⟩ := split_last hnd hne
  rw [hdrop] at hout
  have hkb : kb = q.1 := by
    rw [hL, List.map_append, List.mem_append] at hin
    rcases hin with e | e
    · exact absurd e hout
    · simpa using e
  rw [hL] at ht
  obtain ⟨ib, hib, hmin⟩ := TimeOrdered_last_min ht
  refine ⟨ib, by rw [hkb]; exact hib, ?_⟩
  intro k1 hk1
  rw [List.mem_map] at hk1
  obtain ⟨p, hp, hpk⟩ := hk1
  rw [hL] at hp
  rw [← hpk]
  exact hmin p hp

end TimeLemmas

/-! ## The claims of the specification -/

section Claims

variable {K V : Type} [DecidableEq K]

/-- C1. Capacity invariant: for every N > 0 and every finite sequence of Add calls
(keys distinct or repeated, values arbitrary) applied to New(N), with or without a
callback configured, every call returns, and after each call (after every initial part
of the sequence) Len() is at most N. -/
theorem C1_capacity_invariant (N : Int) (hN : 0 < N) (f : Bool) (kvs : List (K × V))
    (j : Nat) :
    ∃ c n, addAll (setOnEvicted (New N) f) (kvs.take j) = some c ∧
      Len c = some n ∧ n ≤ N := by
  obtain ⟨c, hc, hsim⟩ := addAll_sim (WF_New N f) (kvs.take j)
  refine ⟨c, _, hc, Len_sim hsim.1, ?_⟩
  rw [hsim.2.2.2.1]
  exact seqAddAll_length_le hN _ _ (by simpa [entries_New] using le_of_lt hN)

/-- Witness for C1: capacity 2 and the calls Add(1,10), Add(2,20), Add(1,30), Add(3,40). -/
theorem C1_capacity_invariant_witness :
    (0 : Int) < 2 ∧ ∃ c n, addAll (setOnEvicted (New 2 : Cache Nat Nat) true)
      ([(1, 10), (2, 20), (1, 30), (3, 40)].take 4) = some c ∧ Len c = some n ∧ n ≤ 2 :=
  ⟨by decide, C1_capacity_invariant 2 (by decide) true [(1, 10), (2, 20), (1, 30), (3, 40)] 4⟩

/-- C2. LRU eviction order: for every N >= 1 and every list of N+1 pairwise distinct keys
k1..k(N+1) with arbitrary values, after Add(k1,v1), ..., Add(k(N+1),v(N+1)) on New(N)
with a callback configured and no other calls in between, the callback has been invoked
exactly once, with (k1, v1); Get(k1) returns not-found; and Get(ki) returns (vi, found)
for every i in 2..N+1. -/
theorem C2_lru_eviction_order (N : Nat) (hN : 1 ≤ N) (k1 : K) (v1 : V)
    (rest : List (K × V)) (hlen : rest.length = N)
    (hnd : (((k1, v1) :: rest).map Prod.fst).Nodup) :
    ∃ c, addAll (setOnEvicted (New (N : Int)) true) ((k1, v1) :: rest) = some c ∧
      c.calls = [(k1, v1)] ∧ Get c k1 = some ((none, false), c) ∧
      ∀ p ∈ rest, ∃ c1, Get c p.1 = some ((some p.2, true), c1) := by
  obtain ⟨c, hc, hwf, _, _, hes, hcalls⟩ :=
    addAll_sim (WF_New (N : Int) true) ((k1, v1) :: rest)
  have hseq : seqAddAll (N : Int) [] ((k1, v1) :: rest) = (rest.reverse, [(k1, v1)]) :=
    seqAddAll_overflow N hN k1 v1 rest hlen hnd
  have hM : (setOnEvicted (New (N : Int) : Cache K V) true).MaxEntries = (N : Int) := rfl
  rw [hM, entries_New, hseq] at hes hcalls
  simp only [List.map_cons, List.nodup_cons] at hnd
  refine ⟨c, hc, by simpa [emit, setOnEvicted, New] using hcalls, ?_, ?_⟩
  · apply Get_miss
    rw [present_iff hwf, hes]
    simpa using hnd.1
  · intro p hp
    obtain ⟨c1, hg, _⟩ := Get_sim hwf p.1
    refine ⟨c1, ?_⟩
    rw [hg, hes]
    have hf : rest.reverse.find? (fun q => decide (q.1 = p.1)) = some p :=
      find_of_mem_nodup_keys (by rw [List.map_reverse]; exact List.nodup_reverse.2 hnd.2)
        (List.mem_reverse.2 hp)
    simp [seqGet, hf]

/-- Witness for C2: capacity 2 and the keys 1, 2, 3. -/
theorem C2_lru_eviction_order_witness :
    1 ≤ 2 ∧ ∃ c, addAll (setOnEvicted (New ((2 : Nat) : Int) : Cache Nat Nat) true)
        ((1, 10) :: [(2, 20), (3, 30)]) = some c ∧
      c.calls = [(1, 10)] ∧ Get c 1 = some ((none, false), c) ∧
      ∀ p ∈ [(2, 20), (3, 30)], ∃ c1, Get c p.1 = some ((some p.2, true), c1) :=
  ⟨by decide, C2_lru_eviction_order 2 (by decide) 1 10 [(2, 20), (3, 30)] rfl (by decide)⟩

/-- C3. Read promotes recency: for every capacity N >= 2, every cache state reachable
from New(N) and every key k present in it, Get(k) followed by Add(k2, v) for an absent key
k2 never evicts k: Get(k) afterwards still finds k, with its value. In particular, for
distinct keys a, b, c on New(2) with a callback, the calls Add(a,v1), Add(b,v2), Get(a),
Add(c,v3) all return, the callback is invoked exactly once, with (b, v2), and afterwards
Get(b) is not-found while Get(a) = (v1, found) and Get(c) = (v3, found). -/
theorem C3_read_promotes_recency (N : Int) (f : Bool) (c0 : Cache K V) (k k2 : K) (v : V)
    (hN : 2 ≤ N) (hr : ReachableFrom (setOnEvicted (New N) f) c0) (hk : present c0 k)
    (hk2 : ¬ present c0 k2) (a b c : K) (v1 v2 v3 : V) (hab : a ≠ b) (hac : a ≠ c)
    (hbc : b ≠ c) :
    (∃ x c1 c2 c3, stored c0 k = some x ∧ Get c0 k = some ((some x, true), c1) ∧
        Add c1 k2 v = some c2 ∧ Get c2 k = some ((some x, true), c3)) ∧
    (∃ c4, run (setOnEvicted (New 2 : Cache K V) true)
          [Op.Add a v1, Op.Add b v2, Op.Get a, Op.Add c v3] =
          some ([Ret.unit, Ret.unit, Ret.value (some v1) true, Ret.unit], c4) ∧
        c4.calls = [(b, v2)] ∧ Get c4 b = some ((none, false), c4) ∧
        (∃ c5, Get c4 a = some ((some v1, true), c5)) ∧
        (∃ c6, Get c4 c = some ((some v3, true), c6))) := by
  constructor
  · obtain ⟨ops, rs, hex⟩ := hr
    obtain ⟨hwf, hM, _⟩ := Exec_WF hex (WF_New N f)
    have hM1 : c0.MaxEntries = N := hM
    rw [present_iff hwf] at hk hk2
    obtain ⟨x, hx⟩ := find_some_of_mem_keys hk
    obtain ⟨c1, hg1, hs1, _, _⟩ := Get_sim hwf k
    rw [seqGet_hit hx] at hg1 hs1
    obtain ⟨c2, ha2, hs2⟩ := Add_sim hs1.1 k2 v
    obtain ⟨c3, hg3, _⟩ := Get_sim hs2.1 k
    have hk2f : k2 ∉ ((k, x) :: (entries c0).filter (fun q => decide (q.1 ≠ k))).map Prod.fst := by
      simp only [List.map_cons, List.mem_cons, not_or]
      constructor
      · intro e
        subst e
        exact hk2 hk
      · exact not_mem_keys_filter hk2
    have hfront := seqAdd_keeps_front (M := c1.MaxEntries) (by rw [hs1.2.1, hM1]; exact hN)
      (k, x) ((entries c0).filter (fun q => decide (q.1 ≠ k))) v hk2f
    rw [hs2.2.2.2.1, hs1.2.2.2.1, seqGet_hit hfront] at hg3
    exact ⟨x, c1, c2, c3, by rw [stored_eq hwf, hx]; rfl, hg1, ha2, hg3⟩
  · have hba : b ≠ a := fun e => hab e.symm
    have hca : c ≠ a := fun e => hac e.symm
    have hcb : c ≠ b := fun e => hbc e.symm
    simp [run, step, Add, Get, RemoveOldest, removeElement, index, mapGet, mapSet, mapDelete,
      MoveToFront, PushFront, ListLen, Back, ListRemove, New, setOnEvicted,
      hab, hac, hbc, hba, hca, hcb]

/-- Witness for C3: capacity 2, the state holding keys 1 and 2, Get(1) then Add(3, 30);
and the scenario with the keys 1, 2, 3 and the values 1, 2, 3. -/
theorem C3_read_promotes_recency_witness :
    (2 : Int) ≤ 2 ∧ ReachableFrom (setOnEvicted (New 2) true) exampleTwo ∧
    present exampleTwo 1 ∧ ¬ present exampleTwo 3 ∧ (1 : Nat) ≠ 2 ∧ (1 : Nat) ≠ 3 ∧
    (2 : Nat) ≠ 3 ∧
    ((∃ x c1 c2 c3, stored exampleTwo 1 = some x ∧
        Get exampleTwo 1 = some ((some x, true), c1) ∧
        Add c1 3 30 = some c2 ∧ Get c2 1 = some ((some x, true), c3)) ∧
    (∃ c4, run (setOnEvicted (New 2 : Cache Nat Nat) true)
          [Op.Add 1 1, Op.Add 2 2, Op.Get 1, Op.Add 3 3] =
          some ([Ret.unit, Ret.unit, Ret.value (some 1) true, Ret.unit], c4) ∧
        c4.calls = [(2, 2)] ∧ Get c4 2 = some ((none, false), c4) ∧
        (∃ c5, Get c4 1 = some ((some 1, true), c5)) ∧
        (∃ c6, Get c4 3 = some ((some 3, true), c6)))) :=
  ⟨by decide, exampleTwo_reachable, by decide, by decide, by decide, by decide, by decide,
    C3_read_promotes_recency 2 true exampleTwo 1 3 30 (by decide) exampleTwo_reachable
      (by decide) (by decide) 1 2 3 1 2 3 (by decide) (by decide) (by decide)⟩

/-- C4. Update does not duplicate or evict: for every reachable cache state (any
MaxEntries, also a full cache) and every key k already present, Add(k, v) returns,
invokes the callback zero times, leaves Len() and the set of present keys unchanged,
leaves the value of every other key unchanged, and a following Get(k) returns
(v, found). In particular Add(a,v1) then Add(a,v2) on New(1) with a callback gives
Len() = 1, Get(a) = (v2, found) and no call of the callback. -/
theorem C4_update_in_place (c : Cache K V) (k : K) (v : V) (hr : Reachable c)
    (hk : present c k) (a : K) (v1 v2 : V) :
    (∃ c1, Add c k v = some c1 ∧ c1.calls = c.calls ∧ Len c1 = Len c ∧
        (∀ k1, present c1 k1 ↔ present c k1) ∧
        (∀ k1, k1 ≠ k → stored c1 k1 = stored c k1) ∧
        ∃ c2, Get c1 k = some ((some v, true), c2)) ∧
    (∃ c2, addAll (setOnEvicted (New 1 : Cache K V) true) [(a, v1), (a, v2)] = some c2 ∧
        Len c2 = some 1 ∧ (∃ c3, Get c2 a = some ((some v2, true), c3)) ∧ c2.calls = []) := by
  constructor
  · have hwf := Reachable_WF hr
    have hkeys := (present_iff hwf k).1 hk
    obtain ⟨c1, h1, hs1⟩ := Add_sim hwf k v
    rw [seqAdd_hit v hkeys] at hs1
    obtain ⟨hwf1, _, _, hes, hcalls⟩ := hs1
    obtain ⟨xs, v0, ys, hsplit, hfil, _⟩ := split_at_key (entries_keys_nodup hwf) hkeys
    refine ⟨c1, h1, by simpa [emit_nil] using hcalls, ?_, ?_, ?_, ?_⟩
    · rw [Len_sim hwf1, Len_sim hwf, hes]
      simp only [hfil]
      rw [hsplit]
      simp only [List.length_cons, List.length_append]
      exact congrArg some (by push_cast; omega)
    · intro k1
      rw [present_iff hwf1, present_iff hwf, hes]
      simp only [List.map_cons, List.mem_cons, mem_keys_filter]
      constructor
      · rintro (h | h)
        · rw [h]; exact hkeys
        · exact h.2
      · intro h
        by_cases e : k1 = k
        · exact Or.inl e
        · exact Or.inr ⟨e, h⟩
    · intro k1 hne
      rw [stored_eq hwf1, stored_eq hwf, hes]
      have hne1 : ¬ k = k1 := fun e => hne e.symm
      rw [List.find?_cons_of_neg _ (by simp [hne1]), find_filter_ne _ hne]
    · obtain ⟨c2, hg, _⟩ := Get_sim hwf1 k
      refine ⟨c2, ?_⟩
      rw [hg, hes]
      simp [seqGet]
  · simp [addAll, Add, Get, Len, index, mapGet, mapSet, MoveToFront, PushFront, ListLen,
      New, setOnEvicted]

/-- Witness for C4: the full cache of capacity 2 holding keys 1 and 2, and Add(1, 11). -/
theorem C4_update_in_place_witness :
    Reachable exampleTwo ∧ present exampleTwo 1 ∧
    ((∃ c1, Add exampleTwo 1 11 = some c1 ∧ c1.calls = exampleTwo.calls ∧
        Len c1 = Len exampleTwo ∧
        (∀ k1, present c1 k1 ↔ present exampleTwo k1) ∧
        (∀ k1, k1 ≠ 1 → stored c1 k1 = stored exampleTwo k1) ∧
        ∃ c2, Get c1 1 = some ((some 11, true), c2)) ∧
    (∃ c2, addAll (setOnEvicted (New 1 : Cache Nat Nat) true) [(7, 1), (7, 2)] = some c2 ∧
        Len c2 = some 1 ∧ (∃ c3, Get c2 7 = some ((some 2, true), c3)) ∧ c2.calls = [])) :=
  ⟨exampleTwo_Reachable, by decide,
    C4_update_in_place exampleTwo 1 11 exampleTwo_Reachable (by decide) 7 1 2⟩

/-- C5. Get on a hit: for every reachable cache state and every present key k, Get(k)
returns (v, true) where v is the value currently stored for k; afterwards the recency
sequence is the entry of k at the front followed by all other entries in their previous
relative order; Len(), the set of keys, all stored values (the index and the heap),
MaxEntries, OnEvicted and the log of callback invocations are unchanged. -/
theorem C5_get_hit (c : Cache K V) (k : K) (hr : Reachable c) (hk : present c k) :
    ∃ v c1 xs ys, stored c k = some v ∧ Get c k = some ((some v, true), c1) ∧
      entries c = xs ++ (k, v) :: ys ∧ entries c1 = (k, v) :: (xs ++ ys) ∧
      Len c1 = Len c ∧ (∀ k1, present c1 k1 ↔ present c k1) ∧
      (∀ k1, stored c1 k1 = stored c k1) ∧ c1.cache = c.cache ∧ c1.heap = c.heap ∧
      c1.MaxEntries = c.MaxEntries ∧ c1.OnEvicted = c.OnEvicted ∧ c1.calls = c.calls := by
  have hwf := Reachable_WF hr
  have hkeys := (present_iff hwf k).1 hk
  obtain ⟨xs, v, ys, hsplit, hfil, hfind⟩ := split_at_key (entries_keys_nodup hwf) hkeys
  obtain ⟨c1, hg, hs, hheap, hcache⟩ := Get_sim hwf k
  rw [seqGet_hit hfind] at hg hs
  obtain ⟨hwf1, hM, hf, hes, hcalls⟩ := hs
  refine ⟨v, c1, xs, ys, by rw [stored_eq hwf, hfind]; rfl, hg, hsplit, by rw [hes, hfil],
    ?_, present_of_cache_eq hcache, stored_of_eq hcache hheap, hcache, hheap, hM, hf,
    by simpa [emit_nil] using hcalls⟩
  rw [Len_sim hwf1, Len_sim hwf, hes]
  simp only [hfil]
  rw [hsplit]
  simp only [List.length_cons, List.length_append]
  exact congrArg some (by push_cast; omega)

/-- Witness for C5: the cache holding keys 1 and 2 (2 most recent), and Get(1). -/
theorem C5_get_hit_witness :
    Reachable exampleTwo ∧ present exampleTwo 1 ∧
    ∃ v c1 xs ys, stored exampleTwo 1 = some v ∧
      Get exampleTwo 1 = some ((some v, true), c1) ∧
      entries exampleTwo = xs ++ (1, v) :: ys ∧ entries c1 = (1, v) :: (xs ++ ys) ∧
      Len c1 = Len exampleTwo ∧ (∀ k1, present c1 k1 ↔ present exampleTwo k1) ∧
      (∀ k1, stored c1 k1 = stored exampleTwo k1) ∧ c1.cache = exampleTwo.cache ∧
      c1.heap = exampleTwo.heap ∧ c1.MaxEntries = exampleTwo.MaxEntries ∧
      c1.OnEvicted = exampleTwo.OnEvicted ∧ c1.calls = exampleTwo.calls :=
  ⟨exampleTwo_Reachable, by decide,
    C5_get_hit exampleTwo 1 exampleTwo_Reachable (by decide)⟩

/-- C6. Misses are no-ops: for every cache state c (also the zero-value cache and a cache
just cleared, in which no key is present) and every key k that is not present, Get(k)
returns (nil, false) and Remove(k) returns, and each leaves the entire cache state
(recency order, index, MaxEntries, nil or allocated structures, log of callback
invocations) unchanged; likewise RemoveOldest() on a cache d whose index is nil or
whose list is empty returns and leaves the state unchanged. -/
theorem C6_misses_are_noops (c d : Cache K V) (k : K) (hk : ¬ present c k)
    (hd : d.cache = none ∨ d.ll = some []) :
    Get c k = some ((none, false), c) ∧ Remove c k = some c ∧ RemoveOldest d = some d ∧
    (∀ (n : Int) (f : Bool), ¬ present (zeroValue n f : Cache K V) k ∧
      (zeroValue n f : Cache K V).cache = none) ∧
    (∀ (order : List (K × Nat)) (c0 c1 : Cache K V), ClearIn order c0 = some c1 →
      ¬ present c1 k ∧ c1.cache = none) := by
  refine ⟨Get_miss hk, Remove_miss hk, RemoveOldest_empty hd, ?_, ?_⟩
  · intro n f
    exact ⟨by simp [present, index, zeroValue], rfl⟩
  · intro order c0 c1 h
    have hc : c1.cache = none := by
      unfold ClearIn at h
      cases hf : c0.OnEvicted with
      | false =>
        simp [hf] at h
        rw [← h]
      | true =>
        cases hcs : rangeCalls c0.heap order with
        | none => simp [hf, hcs] at h
        | some cs =>
          simp [hf, hcs] at h
          rw [← h]
    exact ⟨by simp [present, index, hc], hc⟩

/-- Witness for C6: key 3 is absent from the cache holding keys 1 and 2; RemoveOldest on
the zero-value cache. -/
theorem C6_misses_are_noops_witness :
    ¬ present exampleTwo 3 ∧
    ((zeroValue 2 true : Cache Nat Nat).cache = none ∨
      (zeroValue 2 true : Cache Nat Nat).ll = some []) ∧
    (Get exampleTwo 3 = some ((none, false), exampleTwo) ∧
    Remove exampleTwo 3 = some exampleTwo ∧
    RemoveOldest (zeroValue 2 true : Cache Nat Nat) = some (zeroValue 2 true) ∧
    (∀ (n : Int) (f : Bool), ¬ present (zeroValue n f : Cache Nat Nat) 3 ∧
      (zeroValue n f : Cache Nat Nat).cache = none) ∧
    (∀ (order : List (Nat × Nat)) (c0 c1 : Cache Nat Nat), ClearIn order c0 = some c1 →
      ¬ present c1 3 ∧ c1.cache = none)) :=
  ⟨by decide, Or.inl rfl,
    C6_misses_are_noops exampleTwo (zeroValue 2 true) 3 (by decide) (Or.inl rfl)⟩

/-- C7. Remove of a present key: for every reachable cache state and every present key
k with stored value v, Remove(k) returns and invokes the callback (if set) exactly once,
with exactly (k, v); afterwards Get(k) is not-found, Len() has decreased by exactly 1,
and all other entries remain present with unchanged values and unchanged relative
recency order. -/
theorem C7_remove_present (c : Cache K V) (k : K) (hr : Reachable c) (hk : present c k) :
    ∃ v c1 xs ys n, stored c k = some v ∧ Remove c k = some c1 ∧
      c1.calls = c.calls ++ (if c.OnEvicted = true then [(k, v)] else []) ∧
      Get c1 k = some ((none, false), c1) ∧
      Len c = some n ∧ Len c1 = some (n - 1) ∧
      entries c = xs ++ (k, v) :: ys ∧ entries c1 = xs ++ ys ∧
      (∀ k1, k1 ≠ k → ((present c1 k1 ↔ present c k1) ∧ stored c1 k1 = stored c k1)) ∧
      c1.heap = c.heap ∧ c1.MaxEntries = c.MaxEntries ∧ c1.OnEvicted = c.OnEvicted := by
  have hwf := Reachable_WF hr
  have hkeys := (present_iff hwf k).1 hk
  have hnd := entries_keys_nodup hwf
  obtain ⟨xs, v, ys, hsplit, hfil, hfind⟩ := split_at_key hnd hkeys
  obtain ⟨c1, h1, hs⟩ := Remove_sim hwf k
  obtain ⟨hwf1, hM, hf, hes, hcalls⟩ := hs
  simp only [seqRemove, hfind, hfil, Option.toList] at hes hcalls
  have hheap : c1.heap = c.heap := by
    rcases WF_cases hwf with ⟨_, hm⟩ | ⟨l, m, hl, hm, hi⟩
    · simp [present, index, hm] at hk
    · cases hmk : mapGet m k with
      | none => simp [present, index, hm, hmk] at hk
      | some a =>
        obtain ⟨_, e, he, _⟩ := hi.of_mapGet hmk
        have h2 : Remove c k = removeElement c a := by simp only [Remove, hm, hmk]
        rw [h2, removeElement_eq hl hm he] at h1
        cases h1
        rfl
  have hnot : ¬ present c1 k := by
    rw [present_iff hwf1, hes, ← hfil, mem_keys_filter]
    exact fun h => h.1 rfl
  refine ⟨v, c1, xs, ys, ((entries c).length : Int), by rw [stored_eq hwf, hfind]; rfl, h1,
    ?_, Get_miss hnot, Len_sim hwf, ?_, hsplit, hes, ?_, hheap, hM, hf⟩
  · rw [hcalls]
    cases c.OnEvicted <;> simp [emit]
  · rw [Len_sim hwf1, hes, hsplit]
    simp only [List.length_cons, List.length_append]
    exact congrArg some (by push_cast; omega)
  · intro k1 hne
    constructor
    · rw [present_iff hwf1, present_iff hwf, hes, ← hfil, mem_keys_filter]
      exact ⟨fun h => h.2, fun h => ⟨hne, h⟩⟩
    · rw [stored_eq hwf1, stored_eq hwf, hes, ← hfil, find_filter_ne _ hne]

/-- Witness for C7: the cache holding keys 1 and 2, and Remove(2). -/
theorem C7_remove_present_witness :
    Reachable exampleTwo ∧ present exampleTwo 2 ∧
    ∃ v c1 xs ys n, stored exampleTwo 2 = some v ∧ Remove exampleTwo 2 = some c1 ∧
      c1.calls = exampleTwo.calls ++ (if exampleTwo.OnEvicted = true then [(2, v)] else []) ∧
      Get c1 2 = some ((none, false), c1) ∧
      Len exampleTwo = some n ∧ Len c1 = some (n - 1) ∧
      entries exampleTwo = xs ++ (2, v) :: ys ∧ entries c1 = xs ++ ys ∧
      (∀ k1, k1 ≠ 2 →
        ((present c1 k1 ↔ present exampleTwo k1) ∧ stored c1 k1 = stored exampleTwo k1)) ∧
      c1.heap = exampleTwo.heap ∧ c1.MaxEntries = exampleTwo.MaxEntries ∧
      c1.OnEvicted = exampleTwo.OnEvicted :=
  ⟨exampleTwo_Reachable, by decide,
    C7_remove_present exampleTwo 2 exampleTwo_Reachable (by decide)⟩

/-- C8. RemoveOldest on a non-empty cache: for every reachable cache state with
Len() different from 0, RemoveOldest() removes exactly the entry (kb, vb) at the back of
the recency sequence: it returns the very state that Remove(kb) returns (the same
effect on the state and on the log of callback invocations), the callback (if set) is
invoked once with (kb, vb), Len() decreases by 1, and all other entries and their
order are unchanged. -/
theorem C8_remove_oldest (c : Cache K V) (hr : Reachable c) (hne : Len c ≠ some 0) :
    ∃ kb vb c1 n, (entries c).getLast? = some (kb, vb) ∧ RemoveOldest c = some c1 ∧
      Remove c kb = some c1 ∧
      c1.calls = c.calls ++ (if c.OnEvicted = true then [(kb, vb)] else []) ∧
      Len c = some n ∧ Len c1 = some (n - 1) ∧
      entries c = entries c1 ++ [(kb, vb)] ∧ c1.heap = c.heap ∧
      c1.MaxEntries = c.MaxEntries ∧ c1.OnEvicted = c.OnEvicted := by
  have hwf := Reachable_WF hr
  rcases WF_cases hwf with ⟨_, hm⟩ | ⟨l, m, hl, hm, hi⟩
  · exact absurd (by simp [Len, hm]) hne
  · cases hb : Back l with
    | none =>
      have hnil : l = [] := List.getLast?_eq_none_iff.1 hb
      exact absurd (by simp [Len, hm, hl, hnil, ListLen]) hne
    | some a =>
      have ha : a ∈ l := by
        obtain ⟨zs, hzs⟩ := List.getLast?_eq_some_iff.1 hb
        rw [hzs]
        simp
      obtain ⟨e, he⟩ := hi.alloc a ha
      obtain ⟨_, hlast, hdrop⟩ := hi.entries_back hb he
      have h1 : RemoveOldest c = removeElement c a := by
        simp only [RemoveOldest, hm, hl, hb, Option.bind_eq_bind, Option.some_bind]
      have h2 : Remove c e.key = removeElement c a := by
        simp only [Remove, hm, hi.mapGet_key ha he]
      have h3 := removeElement_eq hl hm he
      have hes : entries c = entriesOf c.heap l := entries_of_ll hl
      have hsplit : entriesOf c.heap l = entriesOf c.heap (l.erase a) ++ [(e.key, e.value)] := by
        rw [hdrop]
        exact (List.dropLast_append_getLast? _ hlast).symm
      refine ⟨e.key, e.value, _, ((entries c).length : Int), by rw [hes]; exact hlast,
        h1.trans h3, h2.trans h3, ?_, Len_sim hwf, ?_, ?_, rfl, rfl, rfl⟩
      · cases c.OnEvicted <;> simp [emit]
      · have hwf1 : WF ({ c with
            ll := some (l.erase a), cache := some (mapDelete m e.key),
            calls := c.calls ++ emit c.OnEvicted [(e.key, e.value)] } : Cache K V) :=
          WF_of_Inv rfl rfl (Inv_erase hi ha he)
        rw [Len_sim hwf1, hes, entries_of_ll (l := l.erase a) rfl, hsplit]
        simp only [List.length_append, List.length_cons, List.length_nil]
        exact congrArg some (by push_cast; omega)
      · rw [hes, entries_of_ll (l := l.erase a) rfl]
        exact hsplit

/-- Witness for C8: the cache holding keys 1 and 2, whose oldest entry is (1, 10). -/
theorem C8_remove_oldest_witness :
    Reachable exampleTwo ∧ Len exampleTwo ≠ some 0 ∧
    ∃ kb vb c1 n, (entries exampleTwo).getLast? = some (kb, vb) ∧
      RemoveOldest exampleTwo = some c1 ∧ Remove exampleTwo kb = some c1 ∧
      c1.calls = exampleTwo.calls ++ (if exampleTwo.OnEvicted = true then [(kb, vb)] else []) ∧
      Len exampleTwo = some n ∧ Len c1 = some (n - 1) ∧
      entries exampleTwo = entries c1 ++ [(kb, vb)] ∧ c1.heap = exampleTwo.heap ∧
      c1.MaxEntries = exampleTwo.MaxEntries ∧ c1.OnEvicted = exampleTwo.OnEvicted :=
  ⟨exampleTwo_Reachable, by decide,
    C8_remove_oldest exampleTwo exampleTwo_Reachable (by decide)⟩

/-- C9. Callback completeness on Clear: for every reachable cache state with a callback
set, Clear() (ranging over the index in any order) returns and invokes the callback
exactly once for each present entry, with the key and the current value of that entry,
and for nothing else: the calls made are a permutation of the recency sequence, no key
is reported twice, and (k, v) is reported exactly when v is the value stored for k;
afterwards Len() is 0 and Get of every key returns not-found. -/
theorem C9_clear_reports_all (c : Cache K V) (order : List (K × Nat)) (hr : Reachable c)
    (hf : c.OnEvicted = true) (ho : order.Perm (c.cache.getD [])) :
    ∃ c1 cs, ClearIn order c = some c1 ∧ c1.calls = c.calls ++ cs ∧
      cs.Perm (entries c) ∧ (cs.map Prod.fst).Nodup ∧
      (∀ k v, (k, v) ∈ cs ↔ stored c k = some v) ∧
      Len c1 = some 0 ∧ (∀ k, Get c1 k = some ((none, false), c1)) := by
  have hwf := Reachable_WF hr
  obtain ⟨c1, cs, h1, hperm, hc1⟩ := ClearIn_sim hwf ho
  subst hc1
  refine ⟨_, cs, h1, by simp [hf, emit], hperm, ?_, ?_, rfl, ?_⟩
  · exact ((hperm.map Prod.fst).nodup_iff).2 (entries_keys_nodup hwf)
  · intro k v
    rw [hperm.mem_iff]
    exact mem_entries_iff hwf k v
  · intro k
    exact Get_miss (by simp [present, index])

/-- Witness for C9: the cache holding the keys 1, 2, 3, cleared ranging over the index in
the order 3, 1, 2. -/
theorem C9_clear_reports_all_witness :
    Reachable exampleThree ∧ exampleThree.OnEvicted = true ∧
    [(3, 2), (1, 0), (2, 1)].Perm (exampleThree.cache.getD []) ∧
    ∃ c1 cs, ClearIn [(3, 2), (1, 0), (2, 1)] exampleThree = some c1 ∧
      c1.calls = exampleThree.calls ++ cs ∧
      cs.Perm (entries exampleThree) ∧ (cs.map Prod.fst).Nodup ∧
      (∀ k v, (k, v) ∈ cs ↔ stored exampleThree k = some v) ∧
      Len c1 = some 0 ∧ (∀ k, Get c1 k = some ((none, false), c1)) :=
  ⟨exampleThree_Reachable, rfl, by decide,
    C9_clear_reports_all exampleThree [(3, 2), (1, 0), (2, 1)]
      exampleThree_Reachable rfl (by decide)⟩

/-- C10. Clear resets only the entries: for every well-formed cache state, Clear()
(ranging over the index in any order) returns and leaves MaxEntries and OnEvicted
unchanged, and the resulting cache is observationally equivalent to New(MaxEntries)
configured with the same callback: no sequence of Add/Get/Remove/RemoveOldest/Len/Clear
calls fails on it, and the sequences of values returned together with the subsequent
callback invocations that it can produce are exactly those that the new cache can
produce. -/
theorem C10_clear_resets_entries (c : Cache K V) (order : List (K × Nat)) (hwf : WF c)
    (ho : order.Perm (c.cache.getD [])) :
    ∃ c1, ClearIn order c = some c1 ∧ c1.MaxEntries = c.MaxEntries ∧
      c1.OnEvicted = c.OnEvicted ∧
      (∀ ops, ∃ rs c2, Exec c1 ops rs c2) ∧
      (∀ ops rs c2, Exec c1 ops rs c2 →
        ∃ d2, Exec (setOnEvicted (New c.MaxEntries) c.OnEvicted) ops rs d2 ∧
          c2.calls = c1.calls ++ d2.calls) ∧
      (∀ ops rs d2, Exec (setOnEvicted (New c.MaxEntries) c.OnEvicted) ops rs d2 →
        ∃ c2, Exec c1 ops rs c2 ∧ c2.calls = c1.calls ++ d2.calls) := by
  obtain ⟨c1, cs, h1, _, hc1⟩ := ClearIn_sim hwf ho
  have hwf1 : WF c1 := by rw [hc1]; exact WF_of_nil rfl rfl
  have hM : c1.MaxEntries = c.MaxEntries := by rw [hc1]
  have hf : c1.OnEvicted = c.OnEvicted := by rw [hc1]
  have hes : entries c1 = [] := by rw [hc1]; rfl
  have hwfn := WF_New (K := K) (V := V) c.MaxEntries c.OnEvicted
  refine ⟨c1, h1, hM, hf, Exec_total hwf1, ?_, ?_⟩
  · intro ops rs c2 hex
    obtain ⟨d2, g, hd, hc2, hd2, _⟩ := Exec_transfer hex
      (setOnEvicted (New c.MaxEntries) c.OnEvicted) hwf1 hwfn hM.symm hf.symm
      (by rw [hes]; rfl)
    refine ⟨d2, hd, ?_⟩
    rw [hc2, hd2]
    rfl
  · intro ops rs d2 hex
    obtain ⟨c2, g, hc, hd2, hc2, _⟩ := Exec_transfer hex c1 hwfn hwf1 hM hf
      (by rw [hes]; rfl)
    refine ⟨c2, hc, ?_⟩
    rw [hc2, hd2]
    rfl

/-- Witness for C10: clearing the cache holding keys 1 and 2. -/
theorem C10_clear_resets_entries_witness :
    WF exampleTwo ∧ [(2, 1), (1, 0)].Perm (exampleTwo.cache.getD []) ∧
    ∃ c1, ClearIn [(2, 1), (1, 0)] exampleTwo = some c1 ∧
      c1.MaxEntries = exampleTwo.MaxEntries ∧ c1.OnEvicted = exampleTwo.OnEvicted ∧
      (∀ ops, ∃ rs c2, Exec c1 ops rs c2) ∧
      (∀ ops rs c2, Exec c1 ops rs c2 →
        ∃ d2, Exec (setOnEvicted (New exampleTwo.MaxEntries) exampleTwo.OnEvicted) ops rs d2 ∧
          c2.calls = c1.calls ++ d2.calls) ∧
      (∀ ops rs d2,
        Exec (setOnEvicted (New exampleTwo.MaxEntries) exampleTwo.OnEvicted) ops rs d2 →
        ∃ c2, Exec c1 ops rs c2 ∧ c2.calls = c1.calls ++ d2.calls) :=
  ⟨Reachable_WF exampleTwo_Reachable, by decide,
    C10_clear_resets_entries exampleTwo [(2, 1), (1, 0)]
      (Reachable_WF exampleTwo_Reachable) (by decide)⟩

end Claims

section Claims2

variable {K V : Type} [DecidableEq K]

/-- C11. Unbounded mode: for a cache with MaxEntries = 0 (New(0), with or without a
callback, or the zero-value Cache), every finite sequence of Add calls returns and
invokes the eviction callback zero times; afterwards Len() equals the number of
distinct keys that were added (so adding m pairwise distinct keys gives Len() = m), and
every added key is found by Get with its most recently added value. -/
theorem C11_unbounded_mode (c0 : Cache K V) (f : Bool) (kvs : List (K × V))
    (h0 : c0 = setOnEvicted (New 0) f ∨ c0 = zeroValue 0 f) :
    ∃ c, addAll c0 kvs = some c ∧ c.calls = [] ∧
      Len c = some (((kvs.map Prod.fst).dedup.length : Nat) : Int) ∧
      ((kvs.map Prod.fst).Nodup → Len c = some ((kvs.length : Nat) : Int)) ∧
      ∀ xs k v ys, kvs = xs ++ (k, v) :: ys → k ∉ ys.map Prod.fst →
        ∃ c1, Get c k = some ((some v, true), c1) := by
  have hwf0 : WF c0 := by
    rcases h0 with h | h
    · rw [h]; exact WF_New 0 f
    · rw [h]; exact WF_zeroValue 0 f
  have hM0 : c0.MaxEntries = 0 := by
    rcases h0 with h | h <;> rw [h] <;> rfl
  have he0 : entries c0 = [] := by
    rcases h0 with h | h <;> rw [h] <;> rfl
  have hc0 : c0.calls = [] := by
    rcases h0 with h | h <;> rw [h] <;> rfl
  obtain ⟨c, hc, hwf, _, _, hes, hcalls⟩ := addAll_sim hwf0 kvs
  rw [hM0, he0] at hes hcalls
  have hlen : Len c = some (((kvs.map Prod.fst).dedup.length : Nat) : Int) := by
    rw [Len_sim hwf]
    have hperm : ((entries c).map Prod.fst).Perm (kvs.map Prod.fst).dedup := by
      rw [List.perm_ext_iff_of_nodup (entries_keys_nodup hwf) (List.nodup_dedup _)]
      intro k
      rw [hes, seqAddAll_zero_keys, List.mem_dedup]
      simp
    have := hperm.length_eq
    rw [List.length_map] at this
    rw [this]
  refine ⟨c, hc, ?_, hlen, ?_, ?_⟩
  · rw [hcalls, seqAddAll_zero_gone, emit_nil, hc0]
    rfl
  · intro hnd
    rw [hlen, List.Nodup.dedup hnd, List.length_map]
  · intro xs k v ys hk hys
    obtain ⟨c1, hg, _⟩ := Get_sim hwf k
    refine ⟨c1, ?_⟩
    rw [hg, hes, hk, seqGet_hit (seqAddAll_zero_find xs ys k v hys [])]

/-- Witness for C11: New(0) with a callback and the calls Add(1,10), Add(2,20), Add(1,30). -/
theorem C11_unbounded_mode_witness :
    ((setOnEvicted (New 0) true : Cache Nat Nat) = setOnEvicted (New 0) true ∨
      (setOnEvicted (New 0) true : Cache Nat Nat) = zeroValue 0 true) ∧
    ∃ c, addAll (setOnEvicted (New 0) true : Cache Nat Nat) [(1, 10), (2, 20), (1, 30)] =
        some c ∧ c.calls = [] ∧
      Len c = some ((([(1, 10), (2, 20), (1, 30)].map Prod.fst).dedup.length : Nat) : Int) ∧
      (([(1, 10), (2, 20), (1, 30)].map Prod.fst).Nodup →
        Len c = some (([(1, 10), (2, 20), (1, 30)].length : Nat) : Int)) ∧
      ∀ xs k v ys, [(1, 10), (2, 20), (1, 30)] = xs ++ (k, v) :: ys → k ∉ ys.map Prod.fst →
        ∃ c1, Get c k = some ((some v, true), c1) :=
  ⟨Or.inl rfl, C11_unbounded_mode (setOnEvicted (New 0) true) true
    [(1, 10), (2, 20), (1, 30)] (Or.inl rfl)⟩

/-- C12, the claim as stated fails: on New(-1) with a recording callback, Add(1, 10)
returns and invokes the callback with (1, 10), although the key 1 was not present, and
no value was stored for it, immediately before the call. -/
theorem C12_reported_key_was_absent :
    Step (setOnEvicted (New (-1) : Cache Nat Nat) true) (Op.Add 1 10) Ret.unit
        exampleNegative ∧
      exampleNegative.calls =
        (setOnEvicted (New (-1) : Cache Nat Nat) true).calls ++ [(1, 10)] ∧
      ¬ present (setOnEvicted (New (-1) : Cache Nat Nat) true) 1 ∧
      stored (setOnEvicted (New (-1) : Cache Nat Nat) true) 1 = none :=
  ⟨Step.add (by decide), by decide, by decide, by decide⟩

/-- C12, amended. Every entry that leaves the cache is reported exactly once: for every
finite sequence of calls on New(n) with a recording callback set from the start, the
number of callback invocations equals the number of Add calls that inserted a key
absent at that moment minus the final Len(); and for a further call: no key is reported
twice, no reported key is still present after the call, every key that was present
before the call and is not present after it is reported, and each pair reported
carries a key with the value stored for it immediately before the call, or else n < 0
and it is the pair of the triggering Add, whose key was absent; so for n >= 0 each
callback invocation carries a key that was present immediately before the triggering
call together with the value stored for it at that moment. -/
theorem C12_every_exit_reported_once (n : Int) (ops : List (Op K V)) (m : Nat)
    (c c1 : Cache K V) (op : Op K V) (r : Ret V)
    (hex : ExecCount (setOnEvicted (New n) true) ops m c) (hstep : Step c op r c1) :
    (∃ len, Len c = some len ∧ ((c.calls.length : Nat) : Int) = (m : Int) - len) ∧
    ∃ g, c1.calls = c.calls ++ g ∧ (g.map Prod.fst).Nodup ∧
      (∀ k v, (k, v) ∈ g → ¬ present c1 k) ∧
      (∀ k, present c k → ¬ present c1 k → ∃ v, (k, v) ∈ g) ∧
      (∀ k v, (k, v) ∈ g → stored c k = some v ∨
        (n < 0 ∧ op = Op.Add k v ∧ ¬ present c k)) ∧
      (0 ≤ n → ∀ k v, (k, v) ∈ g → present c k ∧ stored c k = some v) := by
  have hwf0 := WF_New (K := K) (V := V) n true
  obtain ⟨rs, hrs⟩ := ExecCount_Exec hex
  obtain ⟨hwf, hM, hf⟩ := Exec_WF hrs hwf0
  have hM1 : c.MaxEntries = n := hM
  have hf1 : c.OnEvicted = true := hf
  have hbal := ExecCount_balance hex hwf0 rfl
  obtain ⟨g, hsim, _, hnd, hgone, hall, hwas⟩ := Step_report hwf hstep
  have hstored : ∀ k v, (k, v) ∈ g → stored c k = some v ∨
      (n < 0 ∧ op = Op.Add k v ∧ ¬ present c k) := by
    intro k v hkv
    rcases hwas k v hkv with h | h
    · exact Or.inl h
    · rw [hM1] at h
      exact Or.inr h
  refine ⟨⟨((entries c).length : Int), Len_sim hwf, ?_⟩, g, ?_, hnd, hgone, hall, hstored, ?_⟩
  · have h0 : (setOnEvicted (New n : Cache K V) true).calls.length +
        (entries (setOnEvicted (New n : Cache K V) true)).length = 0 := rfl
    omega
  · have := hsim.2.2.2.2
    rw [hf1] at this
    simpa [emit] using this
  · intro hn k v hkv
    rcases hstored k v hkv with h | h
    · refine ⟨?_, h⟩
      rw [present_iff hwf]
      have := (mem_entries_iff hwf k v).2 h
      exact List.mem_map.2 ⟨(k, v), this, rfl⟩
    · omega

/-- Witness for C12: capacity 2, the calls Add(1,10), Add(2,20), then Add(3,30), which
evicts (1, 10). -/
theorem C12_every_exit_reported_once_witness :
    ExecCount (setOnEvicted (New 2) true) [Op.Add 1 10, Op.Add 2 20] 2 exampleTwo ∧
    Step exampleTwo (Op.Add 3 30) Ret.unit exampleEvicted ∧
    ((∃ len, Len exampleTwo = some len ∧
        ((exampleTwo.calls.length : Nat) : Int) = ((2 : Nat) : Int) - len) ∧
    ∃ g, exampleEvicted.calls = exampleTwo.calls ++ g ∧ (g.map Prod.fst).Nodup ∧
      (∀ k v, (k, v) ∈ g → ¬ present exampleEvicted k) ∧
      (∀ k, present exampleTwo k → ¬ present exampleEvicted k → ∃ v, (k, v) ∈ g) ∧
      (∀ k v, (k, v) ∈ g → stored exampleTwo k = some v ∨
        ((2 : Int) < 0 ∧ Op.Add 3 30 = Op.Add k v ∧ ¬ present exampleTwo k)) ∧
      ((0 : Int) ≤ 2 → ∀ k v, (k, v) ∈ g → present exampleTwo k ∧
        stored exampleTwo k = some v)) :=
  ⟨exampleTwo_count, exampleEvicted_step,
    C12_every_exit_reported_once 2 [Op.Add 1 10, Op.Add 2 20] 2 exampleTwo exampleEvicted
      (Op.Add 3 30) Ret.unit exampleTwo_count exampleEvicted_step⟩

/-- C13. At most one eviction per Add: for every well-formed cache state with a callback
set (any MaxEntries, any Len()) and every key and value, Add(key, value) returns and
invokes the callback at most once; it invokes it exactly once if and only if the key
was absent, MaxEntries is not 0, and the entry count after the insertion, Len() + 1,
exceeds MaxEntries; and in that case the pair reported is the one at the back of the
recency sequence after the insertion, and it is the one removed. -/
theorem C13_one_eviction_per_add (c : Cache K V) (k : K) (v : V) (hwf : WF c)
    (hf : c.OnEvicted = true) :
    ∃ c1 g n, Add c k v = some c1 ∧ c1.calls = c.calls ++ g ∧ Len c = some n ∧
      g.length ≤ 1 ∧
      (g.length = 1 ↔ (¬ present c k ∧ c.MaxEntries ≠ 0 ∧ n + 1 > c.MaxEntries)) ∧
      (g.length = 1 → ∃ p, ((k, v) :: entries c).getLast? = some p ∧ g = [p] ∧
        entries c1 = ((k, v) :: entries c).dropLast) := by
  obtain ⟨c1, h1, _, _, _, hes, hcalls⟩ := Add_sim hwf k v
  rw [hf] at hcalls
  refine ⟨c1, (seqAdd c.MaxEntries (entries c) k v).2, ((entries c).length : Int), h1,
    by simpa [emit] using hcalls, Len_sim hwf, ?_⟩
  rw [present_iff hwf]
  rcases seqAdd_gone c.MaxEntries (entries c) k v with ⟨hg, hno⟩ | ⟨hyes, p, hp, hg, he⟩
  · rw [hg]
    refine ⟨by simp, ⟨fun h => by simp at h, fun h => absurd h hno⟩, fun h => by simp at h⟩
  · rw [hg]
    refine ⟨by simp, ⟨fun _ => hyes, fun _ => rfl⟩, fun _ => ⟨p, hp, rfl, ?_⟩⟩
    rw [hes, he]

/-- Witness for C13: the full cache of capacity 2 holding keys 1 and 2, and Add(3, 30). -/
theorem C13_one_eviction_per_add_witness :
    WF exampleTwo ∧ exampleTwo.OnEvicted = true ∧
    ∃ c1 g n, Add exampleTwo 3 30 = some c1 ∧ c1.calls = exampleTwo.calls ++ g ∧
      Len exampleTwo = some n ∧ g.length ≤ 1 ∧
      (g.length = 1 ↔
        (¬ present exampleTwo 3 ∧ exampleTwo.MaxEntries ≠ 0 ∧ n + 1 > exampleTwo.MaxEntries)) ∧
      (g.length = 1 → ∃ p, ((3, 30) :: entries exampleTwo).getLast? = some p ∧ g = [p] ∧
        entries c1 = ((3, 30) :: entries exampleTwo).dropLast) :=
  ⟨Reachable_WF exampleTwo_Reachable, rfl,
    C13_one_eviction_per_add exampleTwo 3 30 (Reachable_WF exampleTwo_Reachable) rfl⟩

/-- C14. Len agrees with Get: in every cache state reached from New(n) or from the
zero-value Cache by any sequence of calls, Len() equals the number of distinct keys k
for which Get(k) would return found; Len() is 0 for the initial state and for every
cache whose index is nil or whose list is empty; and a key is found by Get only if it
was added by some earlier Add of the sequence and has been present in every state
since (it has not been removed, evicted or cleared since). -/
theorem C14_len_agrees_with_get (c0 c : Cache K V) (n : Int) (f : Bool)
    (ops : List (Op K V)) (rs : List (Ret V)) (k : K)
    (h0 : c0 = setOnEvicted (New n) f ∨ c0 = zeroValue n f) (hex : Exec c0 ops rs c) :
    (∃ ks : List K, ks.Nodup ∧
      (∀ k1, k1 ∈ ks ↔ ∃ v c1, Get c k1 = some ((v, true), c1)) ∧
      Len c = some ((ks.length : Nat) : Int)) ∧
    Len c0 = some 0 ∧
    (∀ d : Cache K V, (d.cache = none ∨ d.ll = some []) → Len d = some 0) ∧
    ((∃ v c1, Get c k = some ((v, true), c1)) →
      ∃ ops1 rs1 cb v r ca ops2, ops = ops1 ++ Op.Add k v :: ops2 ∧ Exec c0 ops1 rs1 cb ∧
        Step cb (Op.Add k v) r ca ∧ ExecKeeps k ca ops2 c) := by
  have hwf0 : WF c0 := by
    rcases h0 with h | h
    · rw [h]; exact WF_New n f
    · rw [h]; exact WF_zeroValue n f
  have he0 : entries c0 = [] := by
    rcases h0 with h | h <;> rw [h] <;> rfl
  have hwf := (Exec_WF hex hwf0).1
  refine ⟨⟨(entries c).map Prod.fst, entries_keys_nodup hwf, ?_, ?_⟩, ?_,
    fun d hd => Len_empty hd, ?_⟩
  · intro k1
    rw [Get_found_iff hwf, present_iff hwf]
  · rw [Len_sim hwf, List.length_map]
  · rw [Len_sim hwf0, he0]
    rfl
  · intro hfound
    exact present_origin hwf0 he0 ops rs c hex ((Get_found_iff hwf k).1 hfound)

/-- Witness for C14: the calls Add(1,10), Add(2,20) on New(2), and the key 1. -/
theorem C14_len_agrees_with_get_witness :
    ((setOnEvicted (New 2) true : Cache Nat Nat) = setOnEvicted (New 2) true ∨
      (setOnEvicted (New 2) true : Cache Nat Nat) = zeroValue 2 true) ∧
    Exec (setOnEvicted (New 2) true) [Op.Add 1 10, Op.Add 2 20] [Ret.unit, Ret.unit]
      exampleTwo ∧
    ((∃ ks : List Nat, ks.Nodup ∧
      (∀ k1, k1 ∈ ks ↔ ∃ v c1, Get exampleTwo k1 = some ((v, true), c1)) ∧
      Len exampleTwo = some ((ks.length : Nat) : Int)) ∧
    Len (setOnEvicted (New 2) true : Cache Nat Nat) = some 0 ∧
    (∀ d : Cache Nat Nat, (d.cache = none ∨ d.ll = some []) → Len d = some 0) ∧
    ((∃ v c1, Get exampleTwo 1 = some ((v, true), c1)) →
      ∃ ops1 rs1 cb v r ca ops2, [Op.Add 1 10, Op.Add 2 20] = ops1 ++ Op.Add 1 v :: ops2 ∧
        Exec (setOnEvicted (New 2) true) ops1 rs1 cb ∧
        Step cb (Op.Add 1 v) r ca ∧ ExecKeeps 1 ca ops2 exampleTwo)) :=
  ⟨Or.inl rfl, exampleTwo_exec,
    C14_len_agrees_with_get (setOnEvicted (New 2) true) exampleTwo 2 true
      [Op.Add 1 10, Op.Add 2 20] [Ret.unit, Ret.unit] 1 (Or.inl rfl) exampleTwo_exec⟩

/-- C15. The recency sequence matches the reference definition of LRU: after every
finite sequence of calls on New(n), every present key has been accessed, and the
recency sequence read front to back lists the present keys in strictly decreasing order
of the time (operation index) of their most recent access, where an access is an Add of
that key or a Get of that key that hit; consequently the key removed by a following
RemoveOldest, and the key removed by capacity eviction in a following Add (among the
keys present and the key being added, with the Add counted as an access), is the one
whose most recent access is the earliest. -/
theorem C15_recency_matches_lru (n : Int) (f : Bool) (ops : List (Op K V))
    (rs : List (Ret V)) (c : Cache K V)
    (hex : Exec (setOnEvicted (New n) f) ops rs c) :
    (∀ p ∈ entries c, ∃ i, lastAccess (ops.zip rs) p.1 = some i) ∧
    (entries c).Pairwise (fun p q => ∃ i j, lastAccess (ops.zip rs) p.1 = some i ∧
      lastAccess (ops.zip rs) q.1 = some j ∧ j < i) ∧
    (∀ (r : Ret V) (c1 : Cache K V) (kb : K), Step c Op.RemoveOldest r c1 →
      present c kb → ¬ present c1 kb →
      ∃ ib, lastAccess (ops.zip rs) kb = some ib ∧
        ∀ k1, present c k1 → ∃ i, lastAccess (ops.zip rs) k1 = some i ∧ ib ≤ i) ∧
    (∀ (k : K) (v : V) (r : Ret V) (c1 : Cache K V) (kb : K), Step c (Op.Add k v) r c1 →
      (present c kb ∨ kb = k) → ¬ present c1 kb →
      ∃ ib, lastAccess (ops.zip rs ++ [(Op.Add k v, r)]) kb = some ib ∧
        ∀ k1, (present c k1 ∨ k1 = k) →
          ∃ i, lastAccess (ops.zip rs ++ [(Op.Add k v, r)]) k1 = some i ∧ ib ≤ i) := by
  have hwf0 := WF_New (K := K) (V := V) n f
  have hwf := (Exec_WF hex hwf0).1
  have hnd := entries_keys_nodup hwf
  have ht : TimeOrdered (ops.zip rs) (entries c) := by
    have := Exec_timeOrdered hex [] hwf0 (by rw [entries_New]; exact TimeOrdered_nil _)
    simpa using this
  refine ⟨ht.1, ht.2, ?_, ?_⟩
  · intro r c1 kb hstep hkb hkb1
    obtain ⟨g, hseq, hsim⟩ := Step_sound hwf hstep
    obtain ⟨_, he, _⟩ := hseq
    rw [present_iff hwf] at hkb
    rw [present_iff hsim.1, he] at hkb1
    obtain ⟨ib, hib, hmin⟩ := TimeOrdered_dropLast_min hnd ht hkb hkb1
    exact ⟨ib, hib, fun k1 hk1 => hmin k1 ((present_iff hwf k1).1 hk1)⟩
  · intro k v r c1 kb hstep hkb hkb1
    obtain ⟨g, hseq, hsim⟩ := Step_sound hwf hstep
    obtain ⟨_, he, _⟩ := hseq
    rw [present_iff hsim.1, he] at hkb1
    have hkb2 : kb ∈ (entries c).map Prod.fst ∨ kb = k := by
      rcases hkb with e | e
      · exact Or.inl ((present_iff hwf kb).1 e)
      · exact Or.inr e
    by_cases hin : k ∈ (entries c).map Prod.fst
    · exfalso
      apply hkb1
      rw [seqAdd_hit v hin]
      simp only [List.map_cons, List.mem_cons, mem_keys_filter]
      by_cases e : kb = k
      · exact Or.inl e
      · rcases hkb2 with e1 | e1
        · exact Or.inr ⟨e, e1⟩
        · exact absurd e1 e
    · have hmemL : ∀ k1, (k1 ∈ (entries c).map Prod.fst ∨ k1 = k) →
          k1 ∈ (((k, v) :: entries c) : List (K × V)).map Prod.fst := by
        intro k1 hk1
        simp only [List.map_cons, List.mem_cons]
        rcases hk1 with e | e
        · exact Or.inr e
        · exact Or.inl e
      by_cases hev : c.MaxEntries ≠ 0 ∧ ((((entries c).length : Nat) : Int) + 1 > c.MaxEntries)
      · rw [seqAdd_evict v hin hev] at hkb1
        have hndL : ((((k, v) :: entries c) : List (K × V)).map Prod.fst).Nodup := by
          simp only [List.map_cons, List.nodup_cons]
          exact ⟨hin, hnd⟩
        have hfull : TimeOrdered (ops.zip rs ++ [(Op.Add k v, r)]) ((k, v) :: entries c) :=
          TimeOrdered_touch v (accessed_add k · v r) hin ht
        obtain ⟨ib, hib, hmin⟩ := TimeOrdered_dropLast_min hndL hfull (hmemL kb hkb2) hkb1
        refine ⟨ib, hib, fun k1 hk1 => hmin k1 (hmemL k1 ?_)⟩
        rcases hk1 with e | e
        · exact Or.inl ((present_iff hwf k1).1 e)
        · exact Or.inr e
      · exfalso
        apply hkb1
        rw [seqAdd_keep v hin hev]
        exact hmemL kb hkb2

/-- Witness for C15: the calls Add(1,10), Add(2,20) on New(2). -/
theorem C15_recency_matches_lru_witness :
    Exec (setOnEvicted (New 2) true) [Op.Add 1 10, Op.Add 2 20] [Ret.unit, Ret.unit]
      exampleTwo ∧
    ((∀ p ∈ entries exampleTwo,
      ∃ i, lastAccess ([Op.Add 1 10, Op.Add 2 20].zip [Ret.unit, Ret.unit]) p.1 = some i) ∧
    (entries exampleTwo).Pairwise (fun p q => ∃ i j,
      lastAccess ([Op.Add 1 10, Op.Add 2 20].zip [Ret.unit, Ret.unit]) p.1 = some i ∧
      lastAccess ([Op.Add 1 10, Op.Add 2 20].zip [Ret.unit, Ret.unit]) q.1 = some j ∧
      j < i) ∧
    (∀ (r : Ret Nat) (c1 : Cache Nat Nat) (kb : Nat), Step exampleTwo Op.RemoveOldest r c1 →
      present exampleTwo kb → ¬ present c1 kb →
      ∃ ib, lastAccess ([Op.Add 1 10, Op.Add 2 20].zip [Ret.unit, Ret.unit]) kb = some ib ∧
        ∀ k1, present exampleTwo k1 →
          ∃ i, lastAccess ([Op.Add 1 10, Op.Add 2 20].zip [Ret.unit, Ret.unit]) k1 = some i ∧
            ib ≤ i) ∧
    (∀ (k : Nat) (v : Nat) (r : Ret Nat) (c1 : Cache Nat Nat) (kb : Nat),
      Step exampleTwo (Op.Add k v) r c1 → (present exampleTwo kb ∨ kb = k) →
      ¬ present c1 kb →
      ∃ ib, lastAccess ([Op.Add 1 10, Op.Add 2 20].zip [Ret.unit, Ret.unit] ++
          [(Op.Add k v, r)]) kb = some ib ∧
        ∀ k1, (present exampleTwo k1 ∨ k1 = k) →
          ∃ i, lastAccess ([Op.Add 1 10, Op.Add 2 20].zip [Ret.unit, Ret.unit] ++
            [(Op.Add k v, r)]) k1 = some i ∧ ib ≤ i)) :=
  ⟨exampleTwo_exec,
    C15_recency_matches_lru 2 true [Op.Add 1 10, Op.Add 2 20] [Ret.unit, Ret.unit]
      exampleTwo exampleTwo_exec⟩

/-- C16. Lazy initialization is transparent: a zero-value Cache with MaxEntries = n and
callback f never fails: in every state it reaches every call returns; and it is
observationally equivalent to New(n) configured with f: for every finite sequence of
Add/Get/Remove/RemoveOldest/Len/Clear calls, the values returned and the sequences of
callback invocations that one of them can produce (Clear ranging over the index in any
order) are exactly those the other can produce. -/
theorem C16_lazy_initialization (n : Int) (f : Bool) :
    (∀ (ops : List (Op K V)) (rs : List (Ret V)) (c : Cache K V),
      Exec (zeroValue n f) ops rs c → ∀ op, ∃ r c1, Step c op r c1) ∧
    (∀ ops : List (Op K V), ∃ rs c, Exec (zeroValue n f : Cache K V) ops rs c) ∧
    (∀ (ops : List (Op K V)) (rs : List (Ret V)) (c : Cache K V),
      Exec (zeroValue n f) ops rs c →
      ∃ d, Exec (setOnEvicted (New n) f) ops rs d ∧ d.calls = c.calls) ∧
    (∀ (ops : List (Op K V)) (rs : List (Ret V)) (d : Cache K V),
      Exec (setOnEvicted (New n) f) ops rs d →
      ∃ c, Exec (zeroValue n f) ops rs c ∧ c.calls = d.calls) := by
  have hz := WF_zeroValue (K := K) (V := V) n f
  have hn := WF_New (K := K) (V := V) n f
  refine ⟨?_, Exec_total hz, ?_, ?_⟩
  · intro ops rs c hex op
    obtain ⟨rs1, c1, h1⟩ := Exec_total (Exec_WF hex hz).1 [op]
    cases h1 with
    | cons hstep _ => exact ⟨_, _, hstep⟩
  · intro ops rs c hex
    obtain ⟨d, g, hd, hc, hdc, _⟩ := Exec_transfer hex (setOnEvicted (New n) f) hz hn rfl rfl rfl
    refine ⟨d, hd, ?_⟩
    rw [hc, hdc]
    rfl
  · intro ops rs d hex
    obtain ⟨c, g, hc, hd, hcc, _⟩ := Exec_transfer hex (zeroValue n f) hn hz rfl rfl rfl
    refine ⟨c, hc, ?_⟩
    rw [hd, hcc]
    rfl

/-- C17. Dual-structure consistency: in every state reachable from New(n) or from the
zero-value Cache by any sequence of calls, the list and the index are both nil, or both
are allocated and then: no element occurs twice in the list, every element of the list
carries an entry, no two entries of the list have the same key, no key occurs twice in
the index, the set of keys of the index equals the set of keys of the entries of the
list, and each key k of the index maps to an element of the list whose entry carries
the key k. -/
theorem C17_dual_structure (c : Cache K V) (hr : Reachable c) :
    (c.ll = none ∧ c.cache = none) ∨
    ∃ l m, c.ll = some l ∧ c.cache = some m ∧ l.Nodup ∧
      (entriesOf c.heap l).length = l.length ∧
      ((entriesOf c.heap l).map Prod.fst).Nodup ∧ (m.map Prod.fst).Nodup ∧
      (∀ k, k ∈ m.map Prod.fst ↔ k ∈ (entriesOf c.heap l).map Prod.fst) ∧
      (∀ k a, mapGet m k = some a → a ∈ l ∧ ∃ e, c.heap[a]? = some e ∧ e.key = k) := by
  rcases WF_cases (Reachable_WF hr) with h | ⟨l, m, hl, hm, hi⟩
  · exact Or.inl h
  · refine Or.inr ⟨l, m, hl, hm, hi.1, hi.entries_length,
      entriesOf_keys_nodup hi.1 hi.keyInj, hi.2.1, ?_, hi.2.2.2⟩
    intro k
    have h1 := hi.mapGet_none_iff k
    have h2 := mapGet_eq_none_iff m k
    constructor
    · intro hk
      by_contra hn
      exact (h2.1 (h1.2 hn)) hk
    · intro hk
      by_contra hn
      exact (h1.1 (h2.2 hn)) hk

/-- Witness for C17: the cache holding keys 1 and 2. -/
theorem C17_dual_structure_witness :
    Reachable exampleTwo ∧
    ((exampleTwo.ll = none ∧ exampleTwo.cache = none) ∨
    ∃ l m, exampleTwo.ll = some l ∧ exampleTwo.cache = some m ∧ l.Nodup ∧
      (entriesOf exampleTwo.heap l).length = l.length ∧
      ((entriesOf exampleTwo.heap l).map Prod.fst).Nodup ∧ (m.map Prod.fst).Nodup ∧
      (∀ k, k ∈ m.map Prod.fst ↔ k ∈ (entriesOf exampleTwo.heap l).map Prod.fst) ∧
      (∀ k a, mapGet m k = some a →
        a ∈ l ∧ ∃ e, exampleTwo.heap[a]? = some e ∧ e.key = k)) :=
  ⟨exampleTwo_Reachable, C17_dual_structure exampleTwo exampleTwo_Reachable⟩

/-- C18. Add/Get round trip: for every well-formed cache state with MaxEntries >= 0
(whatever the current Len(), even if it already exceeds MaxEntries) and every key k and
value v, Add(k, v) returns and immediately afterwards Get(k) returns (v, true): Add
never evicts the entry it has just inserted or updated when the capacity is not
negative. -/
theorem C18_add_get_round_trip (c : Cache K V) (k : K) (v : V) (hwf : WF c)
    (hM : 0 ≤ c.MaxEntries) :
    ∃ c1 c2, Add c k v = some c1 ∧ Get c1 k = some ((some v, true), c2) := by
  obtain ⟨c1, h1, hwf1, _, _, hes, _⟩ := Add_sim hwf k v
  obtain ⟨c2, hg, _⟩ := Get_sim hwf1 k
  refine ⟨c1, c2, h1, ?_⟩
  rw [hg, hes, seqGet_hit (seqAdd_find_self hM (entries c) k v)]

/-- Witness for C18: the full cache of capacity 2 holding keys 1 and 2, and Add(3, 30). -/
theorem C18_add_get_round_trip_witness :
    WF exampleTwo ∧ 0 ≤ exampleTwo.MaxEntries ∧
    ∃ c1 c2, Add exampleTwo 3 30 = some c1 ∧ Get c1 3 = some ((some 30, true), c2) :=
  ⟨Reachable_WF exampleTwo_Reachable, by decide,
    C18_add_get_round_trip exampleTwo 3 30 (Reachable_WF exampleTwo_Reachable) (by decide)⟩

/-- C19. Negative capacity keeps the cache permanently empty: for every n < 0 and every
finite sequence of Add calls on New(n), all calls return, the callback (if set) has been
invoked once for each call, with the pairs given, in order, and Len() is 0; and a
further Add(k, v) returns, invokes the callback (if set) exactly once, with the very
pair (k, v), and leaves Len() = 0 and Get(k) not-found. -/
theorem C19_negative_capacity (n : Int) (f : Bool) (kvs : List (K × V)) (hn : n < 0) :
    ∃ c, addAll (setOnEvicted (New n) f) kvs = some c ∧ Len c = some 0 ∧
      c.calls = (if f = true then kvs else []) ∧
      ∀ k v, ∃ c1, Add c k v = some c1 ∧
        c1.calls = c.calls ++ (if f = true then [(k, v)] else []) ∧
        Len c1 = some 0 ∧ Get c1 k = some ((none, false), c1) := by
  obtain ⟨c, hc, hwf, hM, hf, hes, hcalls⟩ := addAll_sim (WF_New (K := K) (V := V) n f) kvs
  have hM0 : (setOnEvicted (New n : Cache K V) f).MaxEntries = n := rfl
  have hf0 : (setOnEvicted (New n : Cache K V) f).OnEvicted = f := rfl
  rw [hM0, entries_New, seqAddAll_negative hn] at hes hcalls
  rw [hM0] at hM
  rw [hf0] at hf hcalls
  refine ⟨c, hc, by rw [Len_sim hwf, hes]; rfl, ?_, ?_⟩
  · rw [hcalls]
    cases f <;> simp [emit, setOnEvicted, New]
  · intro k v
    obtain ⟨c1, h1, hwf1, _, _, hes1, hcalls1⟩ := Add_sim hwf k v
    rw [hM, hes, seqAdd_negative hn] at hes1 hcalls1
    rw [hf] at hcalls1
    refine ⟨c1, h1, ?_, by rw [Len_sim hwf1, hes1]; rfl, ?_⟩
    · rw [hcalls1]
      cases f <;> simp [emit]
    · apply Get_miss
      rw [present_iff hwf1, hes1]
      simp

/-- Witness for C19: New(-1) with a callback and the calls Add(1,10), Add(2,20). -/
theorem C19_negative_capacity_witness :
    (-1 : Int) < 0 ∧
    ∃ c, addAll (setOnEvicted (New (-1) : Cache Nat Nat) true) [(1, 10), (2, 20)] = some c ∧
      Len c = some 0 ∧ c.calls = (if true = true then [(1, 10), (2, 20)] else []) ∧
      ∀ k v, ∃ c1, Add c k v = some c1 ∧
        c1.calls = c.calls ++ (if true = true then [(k, v)] else []) ∧
        Len c1 = some 0 ∧ Get c1 k = some ((none, false), c1) :=
  ⟨by decide, C19_negative_capacity (-1) true [(1, 10), (2, 20)] (by decide)⟩

end Claims2

end lru
